import Mathlib

/-!
# A verification development for igraph closeness centrality

This file gives a shallow embedding, in Lean 4, of the closeness-centrality
code of src/src/centrality/closeness.c (igraph), together with theorems about
the embedded functions.

Modelling conventions:
* vertices are dense integers, embedded as Fin n; edges are a list of ordered
  endpoint pairs whose position in the list is the edge id;
* igraph_real_t values arising in this code are rationals (ℚ); the single
  place where the C code produces a non-finite double, namely the shared
  finisher dividing by a zero distance sum, is modelled by Option ℚ where
  none stands for the not-a-number result;
* the traversal modes keep their C enum values: IGRAPH_OUT = 1,
  IGRAPH_IN = 2, IGRAPH_ALL = 3; any other value is an invalid mode;
* while-loops are embedded as fuel recursion; the fuel passed at every call
  site is a proven upper bound for the loop's termination measure, so the
  fuel-exhaustion branch is never taken (see bfsStep_measure lemmas below);
* the cooperative interruption poll (IGRAPH_ALLOW_INTERRUPTION) is a
  function from the poll count to a Bool saying whether cancellation was
  requested at that poll;
* warnings (IGRAPH_WARNING) are counted: the call result carries the number
  of disconnected-graph warnings and of small-weight warnings emitted.
Collaborator code that closeness.c calls but that is not part of the sampled
source (heap, vector minimum, incidence list creation) is modelled from the
specification; each such definition is marked in its doc comment.
-/

/-- A graph as the closeness code sees it: a dense vertex set 0..n-1, a list
of edges indexed by position (the edge id), and a directedness flag. -/
structure Graph where
  n : Nat
  edges : List (Fin n × Fin n)
  directed : Bool

/-- Error codes returned by the embedded functions, matching the C error
macros used in closeness.c: IGRAPH_EINVAL, IGRAPH_EINVMODE, and the
interruption error raised by IGRAPH_ALLOW_INTERRUPTION. -/
inductive Err where
  | einval : Err
  | einvmode : Err
  | interrupted : Err
deriving DecidableEq, Repr

/-- The observable outcome of a successful closeness call: the result vector
(one entry per requested vertex, none standing for a not-a-number score), the
number of disconnected-graph warnings emitted, and the number of
small-weight warnings emitted. -/
structure COut where
  res : List (Option ℚ)
  dwarn : Nat
  ewarn : Nat
deriving DecidableEq, Repr

/-- The neighbor contribution of a single edge for the given mode: for
undirected graphs and for IGRAPH_ALL both endpoints count, for IGRAPH_OUT
(1) successors, otherwise (IGRAPH_IN) predecessors. -/
def nbrSel (g : Graph) (mode : Nat) (v : Fin g.n) (e : Fin g.n × Fin g.n) :
    List (Fin g.n) :=
  if !g.directed || mode == 3 then
    (if e.1 = v then [e.2] else []) ++ (if e.2 = v then [e.1] else [])
  else if mode == 1 then (if e.1 = v then [e.2] else [])
  else (if e.2 = v then [e.1] else [])

/-- Adjacent vertices of v, in edge-list order, as igraph_adjlist_init
builds them for the given mode. -/
def neighbors (g : Graph) (mode : Nat) (v : Fin g.n) : List (Fin g.n) :=
  g.edges.foldr (fun e acc => nbrSel g mode v e ++ acc) []

/-- The incident-edge contribution of a single edge id for the given mode,
mirroring nbrSel. -/
def incSel (g : Graph) (mode : Nat) (v : Fin g.n) (eid : Nat) : List Nat :=
  match g.edges.get? eid with
  | some e =>
    if !g.directed || mode == 3 then
      (if e.1 = v then [eid] else []) ++ (if e.2 = v then [eid] else [])
    else if mode == 1 then (if e.1 = v then [eid] else [])
    else (if e.2 = v then [eid] else [])
  | none => []

/-- Incident edge ids of v in edge-id order, as the lazy incidence list of
the weighted engine produces them (igraph_lazy_inclist_get). -/
def incEdges (g : Graph) (mode : Nat) (v : Fin g.n) : List Nat :=
  (List.range g.edges.length).foldr (fun eid acc => incSel g mode v eid ++ acc) []

/-- The IGRAPH_OTHER macro: the endpoint of edge eid other than v (for a
self-loop, v itself). -/
def otherV (g : Graph) (eid : Nat) (v : Fin g.n) : Fin g.n :=
  match g.edges.get? eid with
  | some e => if v = e.1 then e.2 else e.1
  | none => v

/-- Modelled from the spec: igraph_vector_min is a collaborator (the generic
vector container, not part of the sampled source).  The spec says the
minimum weight is validated, so the model folds over the elements of the
vector, also returning the list of element indices it accessed, and returns
no minimum for an empty vector (accessing no element). -/
def igraph_vector_min (w : List ℚ) : Option ℚ × List Nat :=
  w.foldr (fun x acc =>
    match acc.1 with
    | none => (some x, 0 :: acc.2.map (· + 1))
    | some m => (some (min x m), 0 :: acc.2.map (· + 1))) (none, [])

/-- The IGRAPH_SHORTEST_PATH_EPSILON constant (1e-10) used by the epsilon
tolerant comparator of the weighted engine. -/
def IGRAPH_SHORTEST_PATH_EPSILON : ℚ := 1 / 10000000000

/-- Modelled from the spec: igraph_cmp_epsilon (core/math.c is not part of
the sampled source) compares two reals treating differences of absolute
value at most eps as equality. -/
def igraph_cmp_epsilon (a b eps : ℚ) : Int :=
  if eps < a - b then 1 else if a - b < -eps then -1 else 0

/-- The shared finisher of both engines (closeness.c lines 388-389 and
214-215): res gets (n - 1) / rawsum.  A zero rawsum makes the C double
division produce a non-finite value (0/0 = NaN when n = 1); this is the
none case of the model. -/
def finishScore (n : Nat) (rawsum : ℚ) : Option ℚ :=
  if rawsum = 0 then none else some (((n : ℚ) - 1) / rawsum)

/-- The un-normalization pass (closeness.c lines 398-402 and 224-228):
when normalized is not requested, each score is divided by n - 1. -/
def postNormalize (n : Nat) (normalized : Bool) (res : List (Option ℚ)) :
    List (Option ℚ) :=
  if normalized then res else res.map (Option.map (· / ((n : ℚ) - 1)))

/-! ## The unweighted engine (igraph_closeness_estimate, lines 351-396) -/

/-- State of the breadth-first traversal: the FIFO dqueue of
(vertex, distance) pairs, the already_counted marker array, the running
distance sum res[i], nodes_reached, and the function-scope actdist. -/
structure BfsSt (n : Nat) where
  q : List (Fin n × Nat)
  mark : Fin n → Nat
  dsum : ℚ
  reached : Nat
  last : Nat

/-- The neighbor scan of the unweighted engine (closeness.c lines 374-384):
each neighbor not yet counted for source i is marked, counted in
nodes_reached and pushed with distance actdist + 1. -/
def bfsExpand (i actdist : Nat) {n : Nat} :
    List (Fin n) → (Fin n → Nat) → List (Fin n × Nat) → Nat →
    ((Fin n → Nat) × List (Fin n × Nat) × Nat)
  | [], m, q, r => (m, q, r)
  | w :: ws, m, q, r =>
    if m w = i + 1 then bfsExpand i actdist ws m q r
    else bfsExpand i actdist ws (Function.update m w (i + 1))
      (q ++ [(w, actdist + 1)]) (r + 1)

/-- The while-loop of the unweighted engine (closeness.c lines 363-385),
as fuel recursion: pop (act, actdist), add actdist to the distance sum, and
unless the cutoff is active and exceeded (in which case the loop continues
draining the queue without expanding), scan the neighbors of act. -/
def bfsStep (g : Graph) (mode : Nat) (i : Nat) (cutoff : ℚ) :
    Nat → BfsSt g.n → BfsSt g.n
  | 0, st => st
  | fuel + 1, st =>
    match st.q with
    | [] => st
    | (act, d) :: rest =>
      if 0 ≤ cutoff ∧ cutoff < (d : ℚ) then
        bfsStep g mode i cutoff fuel ⟨rest, st.mark, st.dsum + d, st.reached, d⟩
      else
        let x := bfsExpand i d (neighbors g mode act) st.mark rest st.reached
        bfsStep g mode i cutoff fuel ⟨x.2.1, x.1, st.dsum + d, x.2.2, d⟩

/-- One source vertex of the unweighted engine (closeness.c lines 354-385):
push (source, 0), mark the source with i + 1, start nodes_reached at 1, and
drain the queue.  The fuel 1 + 2 * g.n dominates the loop measure. -/
def bfsSource (g : Graph) (mode : Nat) (cutoff : ℚ) (i : Nat)
    (m : Fin g.n → Nat) (s : Fin g.n) (last : Nat) : BfsSt g.n :=
  bfsStep g mode i cutoff (1 + 2 * g.n)
    ⟨[(s, 0)], Function.update m s (i + 1), 0, 1, last⟩

/-- The raw per-source distance sum after the unreached-vertex penalty
(closeness.c line 388): the accumulated sum plus no_of_nodes times the
number of vertices not reached. -/
def bfsRawSum (g : Graph) (mode : Nat) (cutoff : ℚ) (i : Nat)
    (m : Fin g.n → Nat) (s : Fin g.n) (last : Nat) : ℚ :=
  let st := bfsSource g mode cutoff i m s last
  st.dsum + (g.n : ℚ) * ((g.n : ℚ) - (st.reached : ℚ))

/-- The per-source for-loop of the unweighted engine (closeness.c lines
351-396): for each requested source, poll the interruption handler, run the
breadth-first traversal, convert the raw sum to a score, and emit the
disconnected-graph warning at most once per call. -/
def unwLoop (g : Graph) (mode : Nat) (cutoff : ℚ) (intr : Nat → Bool) :
    List (Fin g.n) → Nat → (Fin g.n → Nat) → Bool → Nat → Nat →
    List (Option ℚ) → Except Err (List (Option ℚ) × Nat)
  | [], _, _, _, dw, _, acc => .ok (acc, dw)
  | s :: rest, i, m, shown, dw, last, acc =>
    if intr i then .error .interrupted
    else
      let st := bfsSource g mode cutoff i m s last
      let score := finishScore g.n (bfsRawSum g mode cutoff i m s last)
      let cond := ((0 ≤ cutoff ∧ (st.last : ℚ) ≤ cutoff) ∨ cutoff < 0) ∧
        st.reached < g.n ∧ shown = false
      unwLoop g mode cutoff intr rest (i + 1) st.mark (shown || decide cond)
        (dw + if cond then 1 else 0) st.last (acc ++ [score])

/-! ## The weighted engine (igraph_i_closeness_estimate_weighted,
lines 102-238) -/

/-- State of the Dijkstra traversal: the two-way heap of (vertex, negated
stored distance) pairs, the which marker array, the dist array, the running
sum res[i], nodes_reached, and the function-scope mindist. -/
structure DjSt (n : Nat) where
  heap : List (Fin n × ℚ)
  which : Fin n → Nat
  dist : Fin n → ℚ
  dsum : ℚ
  reached : Nat
  mind : ℚ

/-- Modelled from the spec: igraph_2wheap_delete_max (core/indheap.c is not
part of the sampled source) removes and returns an entry of maximal key;
ties go to the entry closest to the front.  Returns none on an empty heap. -/
def heapPopMax {n : Nat} :
    List (Fin n × ℚ) → Option ((Fin n × ℚ) × List (Fin n × ℚ))
  | [] => none
  | e :: rest =>
    match heapPopMax rest with
    | none => some (e, [])
    | some (f, rest2) => if f.2 ≤ e.2 then some (e, rest) else some (f, e :: rest2)

/-- The edge-relaxation scan of the weighted engine (closeness.c lines
187-209): for each incident edge, compare the candidate distance with the
epsilon-tolerant comparator, push unseen endpoints and decrease-key already
queued ones on strict improvement. -/
def djRelax (g : Graph) (w : List ℚ) (i : Nat) (minnei : Fin g.n)
    (mindist : ℚ) :
    List Nat → (Fin g.n → Nat) → (Fin g.n → ℚ) → List (Fin g.n × ℚ) →
    ((Fin g.n → Nat) × (Fin g.n → ℚ) × List (Fin g.n × ℚ))
  | [], wh, ds, h => (wh, ds, h)
  | eid :: es, wh, ds, h =>
    let tov := otherV g eid minnei
    let altdist := mindist + w.getD eid 0
    let curdist := ds tov
    let cmp : Int := if curdist = 0 then -1
      else igraph_cmp_epsilon altdist curdist IGRAPH_SHORTEST_PATH_EPSILON
    if wh tov ≠ i + 1 then
      djRelax g w i minnei mindist es (Function.update wh tov (i + 1))
        (Function.update ds tov altdist) (h ++ [(tov, -altdist)])
    else if cmp < 0 then
      djRelax g w i minnei mindist es wh (Function.update ds tov altdist)
        (h.map fun e => if e.1 = tov then (tov, -altdist) else e)
    else djRelax g w i minnei mindist es wh ds h

/-- The while-loop of the weighted engine (closeness.c lines 172-211), as
fuel recursion: pop the maximal negated distance (the minimal stored
distance), add mindist - 1 to the sum, count the pop in nodes_reached, and
unless the cutoff is active and exceeded relax the incident edges. -/
def djStep (g : Graph) (mode : Nat) (w : List ℚ) (i : Nat) (cutoff : ℚ) :
    Nat → DjSt g.n → DjSt g.n
  | 0, st => st
  | fuel + 1, st =>
    match heapPopMax st.heap with
    | none => st
    | some ((v, key), h2) =>
      let mind := -key
      let sum2 := st.dsum + (mind - 1)
      let r2 := st.reached + 1
      if 0 ≤ cutoff ∧ cutoff + 1 < mind then
        djStep g mode w i cutoff fuel ⟨h2, st.which, st.dist, sum2, r2, mind⟩
      else
        let x := djRelax g w i v mind (incEdges g mode v) st.which st.dist h2
        djStep g mode w i cutoff fuel ⟨x.2.2, x.1, x.2.1, sum2, r2, mind⟩

/-- One source vertex of the weighted engine (closeness.c lines 165-211):
push the source with key -1 (stored distance 1, true distance 0), mark it
in which, set dist to 1, start nodes_reached at 0, and drain the heap. -/
def djSource (g : Graph) (mode : Nat) (w : List ℚ) (cutoff : ℚ) (i : Nat)
    (wh : Fin g.n → Nat) (ds : Fin g.n → ℚ) (s : Fin g.n) (mind : ℚ) :
    DjSt g.n :=
  djStep g mode w i cutoff (1 + 2 * g.n)
    ⟨[(s, -1)], Function.update wh s (i + 1), Function.update ds s 1, 0, 0, mind⟩

/-- The raw per-source distance sum of the weighted engine after the
unreached-vertex penalty (closeness.c line 214). -/
def djRawSum (g : Graph) (mode : Nat) (w : List ℚ) (cutoff : ℚ) (i : Nat)
    (wh : Fin g.n → Nat) (ds : Fin g.n → ℚ) (s : Fin g.n) (mind : ℚ) : ℚ :=
  let st := djSource g mode w cutoff i wh ds s mind
  st.dsum + (g.n : ℚ) * ((g.n : ℚ) - (st.reached : ℚ))

/-- The per-source for-loop of the weighted engine (closeness.c lines
163-222).  This loop performs no interruption poll. -/
def djLoop (g : Graph) (mode : Nat) (cutoff : ℚ) (w : List ℚ) :
    List (Fin g.n) → Nat → (Fin g.n → Nat) → (Fin g.n → ℚ) → Bool → Nat →
    ℚ → List (Option ℚ) → List (Option ℚ) × Nat
  | [], _, _, _, _, dw, _, acc => (acc, dw)
  | s :: rest, i, wh, ds, shown, dw, mind, acc =>
    let st := djSource g mode w cutoff i wh ds s mind
    let score := finishScore g.n (djRawSum g mode w cutoff i wh ds s mind)
    let cond := ((0 ≤ cutoff ∧ st.mind ≤ cutoff + 1) ∨ cutoff < 0) ∧
      st.reached < g.n ∧ shown = false
    djLoop g mode cutoff w rest (i + 1) st.which st.dist (shown || decide cond)
      (dw + if cond then 1 else 0) st.mind (acc ++ [score])

/-- igraph_i_closeness_estimate_weighted (closeness.c lines 102-238): the
weight vector length is checked against the edge count, then the minimum
weight must be positive (warning once when it is at most epsilon); only
afterwards is the lazy incidence list created, whose initialization
validates the mode (modelled from the spec: igraph_lazy_inclist_init is a
collaborator and fails with the invalid-mode error for a mode outside
OUT, IN, ALL); then the per-source loop runs and the scores are
un-normalized if requested. -/
def igraph_i_closeness_estimate_weighted (g : Graph) (vids : List (Fin g.n))
    (mode : Nat) (cutoff : ℚ) (w : List ℚ) (normalized : Bool) :
    Except Err COut :=
  if w.length ≠ g.edges.length then .error .einval
  else
    match (igraph_vector_min w).1 with
    | some minweight =>
      if minweight ≤ 0 then .error .einval
      else
        let ew := if minweight ≤ IGRAPH_SHORTEST_PATH_EPSILON then 1 else 0
        if mode ≠ 1 ∧ mode ≠ 2 ∧ mode ≠ 3 then .error .einvmode
        else
          let out := djLoop g mode cutoff w vids 0 (fun _ => 0) (fun _ => 0)
            false 0 0 []
          .ok ⟨postNormalize g.n normalized out.1, out.2, ew⟩
    | none =>
      if mode ≠ 1 ∧ mode ≠ 2 ∧ mode ≠ 3 then .error .einvmode
      else
        let out := djLoop g mode cutoff w vids 0 (fun _ => 0) (fun _ => 0)
          false 0 0 []
        .ok ⟨postNormalize g.n normalized out.1, out.2, 0⟩

/-- igraph_closeness_estimate (closeness.c lines 305-414): when a weight
vector is supplied the call is routed to the weighted engine before any
mode validation; otherwise the mode is validated and the unweighted
breadth-first engine runs. -/
def igraph_closeness_estimate (g : Graph) (vids : List (Fin g.n))
    (mode : Nat) (cutoff : ℚ) (weights : Option (List ℚ))
    (normalized : Bool) (intr : Nat → Bool) : Except Err COut :=
  match weights with
  | some w => igraph_i_closeness_estimate_weighted g vids mode cutoff w normalized
  | none =>
    if mode ≠ 1 ∧ mode ≠ 2 ∧ mode ≠ 3 then .error .einvmode
    else
      match unwLoop g mode cutoff intr vids 0 (fun _ => 0) false 0 0 [] with
      | .error e => .error e
      | .ok (res, dw) => .ok ⟨postNormalize g.n normalized res, dw, 0⟩

/-- igraph_closeness (closeness.c lines 94-100): closeness with no cutoff. -/
def igraph_closeness (g : Graph) (vids : List (Fin g.n)) (mode : Nat)
    (weights : Option (List ℚ)) (normalized : Bool) (intr : Nat → Bool) :
    Except Err COut :=
  igraph_closeness_estimate g vids mode (-1) weights normalized intr

/-! ## Shortest hop distances, defined independently of the engines

The correctness theorems below compare the engines' outputs with the
following textbook notion of breadth-first distance: ball g mode s k is the
set of vertices reachable from s in at most k steps, and the hop distance
of v is the least k with v in ball k (none when unreachable). -/

/-- The neighbor set of a vertex. -/
def nbrFinset (g : Graph) (mode : Nat) (v : Fin g.n) : Finset (Fin g.n) :=
  (neighbors g mode v).toFinset

/-- Vertices within k steps of s. -/
def ball (g : Graph) (mode : Nat) (s : Fin g.n) : Nat → Finset (Fin g.n)
  | 0 => {s}
  | k + 1 => ball g mode s k ∪ (ball g mode s k).biUnion (nbrFinset g mode)

/-- The least k below the bound with v in ball k. -/
def firstBall (g : Graph) (mode : Nat) (s v : Fin g.n) : Nat → Option Nat
  | 0 => none
  | b + 1 =>
    match firstBall g mode s v b with
    | some k => some k
    | none => if v ∈ ball g mode s b then some b else none

/-- The hop distance from s to v: the least k with v in ball k, none when
v is unreachable from s.  Searching k < n is complete because reachable
vertices lie in ball (n - 1). -/
def hopDist (g : Graph) (mode : Nat) (s v : Fin g.n) : Option Nat :=
  firstBall g mode s v g.n

/-- The hop distance with default 0 (only used on reachable vertices). -/
def dval (g : Graph) (mode : Nat) (s v : Fin g.n) : Nat :=
  (hopDist g mode s v).getD 0

/-- Whether a vertex is discovered by the engines' truncated traversal from
s under cutoff c: reachable, and when the cutoff is active, at hop distance
at most c + 1 (vertices at distance c + 1 are still popped and counted,
because their predecessors at distance c are still expanded). -/
def reachB (g : Graph) (mode : Nat) (s : Fin g.n) (c : ℚ) (v : Fin g.n) :
    Bool :=
  match hopDist g mode s v with
  | none => false
  | some dv => decide (c < 0 ∨ (dv : ℚ) ≤ c + 1)

/-- The set of vertices the truncated traversal from s discovers. -/
def reachSet (g : Graph) (mode : Nat) (s : Fin g.n) (c : ℚ) :
    Finset (Fin g.n) :=
  Finset.univ.filter (fun v => reachB g mode s c v = true)

/-- The sum of hop distances over the discovered set. -/
def reachSum (g : Graph) (mode : Nat) (s : Fin g.n) (c : ℚ) : ℚ :=
  ∑ v ∈ reachSet g mode s c, (dval g mode s v : ℚ)

/-- The set of vertices at hop distance at most c, the set the claim under
scrutiny in C1 describes (as opposed to the set the code counts). -/
def distLESet (g : Graph) (mode : Nat) (s : Fin g.n) (c : ℚ) :
    Finset (Fin g.n) :=
  Finset.univ.filter (fun v =>
    (match hopDist g mode s v with
     | none => false
     | some dv => decide ((dv : ℚ) ≤ c)) = true)

/-- The sum of hop distances over the at-most-c set. -/
def distLESum (g : Graph) (mode : Nat) (s : Fin g.n) (c : ℚ) : ℚ :=
  ∑ v ∈ distLESet g mode s c, (dval g mode s v : ℚ)

section DistTheory

variable {g : Graph} {mode : Nat} {s v u : Fin g.n}

theorem ball_subset_succ (k : Nat) : ball g mode s k ⊆ ball g mode s (k + 1) := by
  intro x hx
  simp only [ball, Finset.mem_union]
  exact Or.inl hx

theorem ball_mono {k l : Nat} (h : k ≤ l) : ball g mode s k ⊆ ball g mode s l := by
  induction l with
  | zero => cases Nat.le_zero.mp h; exact fun x hx => hx
  | succ l ih =>
    rcases Nat.lt_or_ge k (l + 1) with hlt | hge
    · exact fun x hx => ball_subset_succ l (ih (Nat.lt_succ_iff.mp hlt) hx)
    · cases Nat.le_antisymm h hge; exact fun x hx => hx

theorem source_mem_ball (k : Nat) : s ∈ ball g mode s k :=
  ball_mono (Nat.zero_le k) (by simp [ball])

theorem mem_ball_zero (h : v ∈ ball g mode s 0) : v = s := by
  simpa [ball] using h

theorem adj_mem_ball_succ {k : Nat} (hu : u ∈ ball g mode s k)
    (hv : v ∈ nbrFinset g mode u) : v ∈ ball g mode s (k + 1) := by
  simp only [ball, Finset.mem_union, Finset.mem_biUnion]
  exact Or.inr ⟨u, hu, hv⟩

theorem mem_ball_succ_cases {k : Nat} (h : v ∈ ball g mode s (k + 1)) :
    v ∈ ball g mode s k ∨ ∃ u, u ∈ ball g mode s k ∧ v ∈ nbrFinset g mode u := by
  simpa [ball, Finset.mem_union, Finset.mem_biUnion] using h

theorem ball_stab {k : Nat} (h : ball g mode s (k + 1) = ball g mode s k)
    (j : Nat) : ball g mode s (k + j) = ball g mode s k := by
  induction j with
  | zero => rfl
  | succ j ih =>
    have : ball g mode s (k + j + 1) =
        ball g mode s (k + j) ∪ (ball g mode s (k + j)).biUnion (nbrFinset g mode) := rfl
    rw [show k + (j + 1) = k + j + 1 from rfl, this, ih]
    exact h

theorem card_ball_ge (hstrict : ∀ j, j < g.n - 1 → ball g mode s (j + 1) ≠ ball g mode s j) :
    ∀ j, j ≤ g.n - 1 → j + 1 ≤ (ball g mode s j).card := by
  intro j
  induction j with
  | zero =>
    intro _
    have : s ∈ ball g mode s 0 := source_mem_ball 0
    exact Finset.card_pos.mpr ⟨s, this⟩
  | succ j ih =>
    intro hj
    have hjlt : j < g.n - 1 := Nat.lt_of_succ_le hj
    have hne := hstrict j hjlt
    have hss : ball g mode s j ⊂ ball g mode s (j + 1) :=
      Finset.ssubset_iff_subset_ne.mpr ⟨ball_subset_succ j, fun h => hne h.symm⟩
    have := Finset.card_lt_card hss
    have hle := ih (Nat.le_of_lt hjlt)
    omega

theorem mem_ball_bound {k : Nat} (h : v ∈ ball g mode s k) :
    v ∈ ball g mode s (g.n - 1) := by
  by_cases hstab : ∃ j, j < g.n - 1 ∧ ball g mode s (j + 1) = ball g mode s j
  · obtain ⟨j, hj, hstabj⟩ := hstab
    rcases Nat.le_total k (g.n - 1) with hk | hk
    · exact ball_mono hk h
    · have h1 : ball g mode s k = ball g mode s j := by
        have : k = j + (k - j) := by omega
        rw [this]; exact ball_stab hstabj _
      have h2 : ball g mode s (g.n - 1) = ball g mode s j := by
        have : g.n - 1 = j + (g.n - 1 - j) := by omega
        rw [this]; exact ball_stab hstabj _
      rw [h2, ← h1]; exact h
  · push_neg at hstab
    have hcard := card_ball_ge hstab (g.n - 1) (Nat.le_refl _)
    have hn : 0 < g.n := v.pos
    have huniv : ball g mode s (g.n - 1) = Finset.univ := by
      apply Finset.eq_univ_of_card
      have : (ball g mode s (g.n - 1)).card ≤ Finset.univ.card :=
        Finset.card_le_card (Finset.subset_univ _)
      simp only [Finset.card_univ, Fintype.card_fin] at this ⊢
      omega
    rw [huniv]; exact Finset.mem_univ v

theorem firstBall_none {b : Nat} (h : firstBall g mode s v b = none) :
    ∀ k, k < b → v ∉ ball g mode s k := by
  induction b with
  | zero => intro k hk; omega
  | succ b ih =>
    intro k hk
    simp only [firstBall] at h
    cases hfb : firstBall g mode s v b with
    | some k0 => rw [hfb] at h; cases h
    | none =>
      rw [hfb] at h
      by_cases hmem : v ∈ ball g mode s b
      · simp [hmem] at h
      · rcases Nat.lt_or_ge k b with hkb | hkb
        · exact ih hfb k hkb
        · have : k = b := by omega
          rw [this]; exact hmem

theorem firstBall_some {b k : Nat} (h : firstBall g mode s v b = some k) :
    k < b ∧ v ∈ ball g mode s k ∧ ∀ j, j < k → v ∉ ball g mode s j := by
  induction b with
  | zero => simp [firstBall] at h
  | succ b ih =>
    simp only [firstBall] at h
    cases hfb : firstBall g mode s v b with
    | some k0 =>
      rw [hfb] at h
      cases h
      obtain ⟨h1, h2, h3⟩ := ih hfb
      exact ⟨Nat.lt_succ_of_lt h1, h2, h3⟩
    | none =>
      rw [hfb] at h
      by_cases hmem : v ∈ ball g mode s b
      · simp only [hmem, if_pos] at h
        cases h
        exact ⟨Nat.lt_succ_self _, hmem, firstBall_none hfb⟩
      · simp [hmem] at h

theorem firstBall_complete {b k : Nat} (hmem : v ∈ ball g mode s k)
    (hk : k < b) : ∃ dv, dv ≤ k ∧ firstBall g mode s v b = some dv := by
  cases hfb : firstBall g mode s v b with
  | some dv =>
    refine ⟨dv, ?_, rfl⟩
    by_contra hlt
    exact (firstBall_some hfb).2.2 k (by omega) hmem
  | none => exact absurd hmem (firstBall_none hfb k hk)

theorem hopDist_some {dv : Nat} (h : hopDist g mode s v = some dv) :
    v ∈ ball g mode s dv ∧ ∀ j, j < dv → v ∉ ball g mode s j :=
  ⟨(firstBall_some h).2.1, (firstBall_some h).2.2⟩

theorem hopDist_of_mem {k : Nat} (h : v ∈ ball g mode s k) :
    ∃ dv, dv ≤ k ∧ hopDist g mode s v = some dv := by
  have hn : 0 < g.n := v.pos
  rcases Nat.lt_or_ge k g.n with hk | hk
  · exact firstBall_complete h hk
  · have hb := mem_ball_bound h
    have hlt : g.n - 1 < g.n := by omega
    obtain ⟨dv, hdv, hfb⟩ := firstBall_complete hb hlt
    refine ⟨dv, ?_, hfb⟩
    omega

theorem mem_ball_of_dist {dv k : Nat} (h : hopDist g mode s v = some dv)
    (hk : dv ≤ k) : v ∈ ball g mode s k :=
  ball_mono hk (hopDist_some h).1

theorem hopDist_none_iff :
    hopDist g mode s v = none ↔ ∀ k, v ∉ ball g mode s k := by
  constructor
  · intro h k hmem
    obtain ⟨dv, _, hsome⟩ := hopDist_of_mem hmem
    rw [h] at hsome; cases hsome
  · intro h
    cases hd : hopDist g mode s v with
    | none => rfl
    | some dv => exact absurd (hopDist_some hd).1 (h dv)

theorem hopDist_self : hopDist g mode s s = some 0 := by
  have h0 : s ∈ ball g mode s 0 := source_mem_ball 0
  obtain ⟨dv, hdv, hfb⟩ := hopDist_of_mem h0
  have : dv = 0 := Nat.le_zero.mp hdv
  rw [← this]; exact hfb

theorem hopDist_zero (h : hopDist g mode s v = some 0) : v = s :=
  mem_ball_zero (hopDist_some h).1

theorem dval_eq {dv : Nat} (h : hopDist g mode s v = some dv) :
    dval g mode s v = dv := by
  simp [dval, h]

theorem hopDist_pred {d : Nat} (h : hopDist g mode s v = some (d + 1)) :
    ∃ u, hopDist g mode s u = some d ∧ v ∈ nbrFinset g mode u := by
  obtain ⟨hmem, hmin⟩ := hopDist_some h
  rcases mem_ball_succ_cases hmem with hball | ⟨u, hu, hadj⟩
  · exact absurd hball (hmin d (Nat.lt_succ_self d))
  · obtain ⟨du, hdu, hdist⟩ := hopDist_of_mem hu
    rcases Nat.lt_or_ge du d with hlt | hge
    · have : v ∈ ball g mode s (du + 1) :=
        adj_mem_ball_succ (mem_ball_of_dist hdist (Nat.le_refl du)) hadj
      exact absurd (ball_mono (by omega) this) (hmin d (Nat.lt_succ_self d))
    · have : du = d := by omega
      exact ⟨u, this ▸ hdist, hadj⟩

theorem hopDist_adj {du : Nat} (h : hopDist g mode s u = some du)
    (hadj : v ∈ nbrFinset g mode u) :
    ∃ dv, dv ≤ du + 1 ∧ hopDist g mode s v = some dv :=
  hopDist_of_mem (adj_mem_ball_succ (mem_ball_of_dist h (Nat.le_refl du)) hadj)

theorem mem_reachSet_iff {c : ℚ} :
    v ∈ reachSet g mode s c ↔
      ∃ dv, hopDist g mode s v = some dv ∧ (c < 0 ∨ (dv : ℚ) ≤ c + 1) := by
  simp only [reachSet, Finset.mem_filter, Finset.mem_univ, true_and, reachB]
  cases hd : hopDist g mode s v with
  | none => simp
  | some dv => simp

theorem source_mem_reachSet {c : ℚ} : s ∈ reachSet g mode s c := by
  rw [mem_reachSet_iff]
  refine ⟨0, hopDist_self, ?_⟩
  rcases lt_or_ge c 0 with h | h
  · exact Or.inl h
  · right; push_cast; linarith

end DistTheory

/-! ## Correctness of the unweighted breadth-first engine -/

/-- Vertices the marker array currently assigns to source i. -/
def markSet {n : Nat} (i : Nat) (m : Fin n → Nat) : Finset (Fin n) :=
  Finset.univ.filter (fun v => m v = i + 1)

/-- Number of vertices not yet marked for source i; part of the loop
termination measure. -/
def unmCard {n : Nat} (i : Nat) (m : Fin n → Nat) : Nat :=
  (Finset.univ.filter (fun v => ¬ m v = i + 1)).card

/-- Sum of the queued distances. -/
def qSum {n : Nat} (q : List (Fin n × Nat)) : ℚ :=
  (q.map (fun e => ((e.2 : ℚ)))).sum

theorem qSum_nil {n : Nat} : qSum ([] : List (Fin n × Nat)) = 0 := rfl

theorem qSum_cons {n : Nat} (e : Fin n × Nat) (q : List (Fin n × Nat)) :
    qSum (e :: q) = (e.2 : ℚ) + qSum q := rfl

theorem qSum_append {n : Nat} (q r : List (Fin n × Nat)) :
    qSum (q ++ r) = qSum q + qSum r := by
  simp [qSum]

theorem mem_markSet {n : Nat} {i : Nat} {m : Fin n → Nat} {v : Fin n} :
    v ∈ markSet i m ↔ m v = i + 1 := by
  simp [markSet]

theorem unmCard_le {n : Nat} (i : Nat) (m : Fin n → Nat) : unmCard i m ≤ n := by
  have := Finset.card_le_card
    (Finset.subset_univ (Finset.univ.filter (fun v : Fin n => ¬ m v = i + 1)))
  simpa [unmCard] using this

/-- Characterization of the neighbor scan: it marks, counts and enqueues
(at distance actdist + 1) exactly the neighbors in the scanned list that
were not yet marked, without duplication. -/
theorem bfsExpand_spec (i actdist : Nat) {n : Nat} :
    ∀ (ws : List (Fin n)) (m : Fin n → Nat) (q : List (Fin n × Nat)) (r : Nat),
    ∃ news : List (Fin n),
      (∀ v, (bfsExpand i actdist ws m q r).1 v =
        if v ∈ news then i + 1 else m v) ∧
      (bfsExpand i actdist ws m q r).2.1 =
        q ++ news.map (fun w => (w, actdist + 1)) ∧
      (bfsExpand i actdist ws m q r).2.2 = r + news.length ∧
      news.Nodup ∧
      (∀ v, v ∈ news ↔ v ∈ ws ∧ ¬ m v = i + 1) := by
  intro ws
  induction ws with
  | nil =>
    intro m q r
    exact ⟨[], by simp [bfsExpand], by simp [bfsExpand], by simp [bfsExpand],
      List.nodup_nil, by simp⟩
  | cons w ws ih =>
    intro m q r
    by_cases hw : m w = i + 1
    · obtain ⟨news, h1, h2, h3, h4, h5⟩ := ih m q r
      refine ⟨news, ?_, ?_, ?_, h4, ?_⟩
      · intro v; rw [← h1 v]; simp only [bfsExpand, if_pos hw]
      · rw [← h2]; simp only [bfsExpand, if_pos hw]
      · rw [← h3]; simp only [bfsExpand, if_pos hw]
      · intro v
        rw [h5 v]
        constructor
        · rintro ⟨hv, hm⟩; exact ⟨List.mem_cons_of_mem _ hv, hm⟩
        · rintro ⟨hv, hm⟩
          rcases List.mem_cons.mp hv with rfl | hv2
          · exact absurd hw hm
          · exact ⟨hv2, hm⟩
    · obtain ⟨news, h1, h2, h3, h4, h5⟩ :=
        ih (Function.update m w (i + 1)) (q ++ [(w, actdist + 1)]) (r + 1)
      have hwnot : w ∉ news := by
        intro hmem
        have := (h5 w).mp hmem
        simp [Function.update] at this
      refine ⟨w :: news, ?_, ?_, ?_, List.nodup_cons.mpr ⟨hwnot, h4⟩, ?_⟩
      · intro v
        have := h1 v
        simp only [bfsExpand, if_neg hw]
        rw [this]
        by_cases hvw : v = w
        · subst hvw; simp [Function.update, hwnot]
        · by_cases hvn : v ∈ news
          · simp [hvn, List.mem_cons, hvw]
          · simp [hvn, List.mem_cons, hvw, Function.update, hvw]
      · simp only [bfsExpand, if_neg hw]
        rw [h2]
        simp [List.append_assoc]
      · simp only [bfsExpand, if_neg hw]
        rw [h3]
        simp only [List.length_cons]
        omega
      · intro v
        rw [List.mem_cons, h5 v]
        constructor
        · rintro (rfl | ⟨hv, hm⟩)
          · exact ⟨List.mem_cons_self _ _, hw⟩
          · refine ⟨List.mem_cons_of_mem _ hv, ?_⟩
            intro hcon
            by_cases hvw : v = w
            · subst hvw; exact hm (by simp [Function.update])
            · exact hm (by simpa [Function.update, hvw] using hcon)
        · rintro ⟨hv, hm⟩
          rcases List.mem_cons.mp hv with rfl | hv2
          · exact Or.inl rfl
          · by_cases hvw : v = w
            · exact Or.inl hvw
            · exact Or.inr ⟨hv2, by simpa [Function.update, hvw] using hm⟩

theorem qSum_constMap {n : Nat} (news : List (Fin n)) (d : Nat) :
    qSum (news.map (fun w => (w, d))) = (news.length : ℚ) * (d : ℚ) := by
  induction news with
  | nil => simp [qSum]
  | cons w ws ih =>
    simp only [List.map_cons, qSum_cons, List.length_cons] at *
    rw [ih]
    push_cast
    ring

theorem pairwise_le_constMap {n : Nat} (l : List (Fin n)) (d : Nat) :
    ((l.map (fun w => (w, d))).map Prod.snd).Pairwise
      (fun a b : Nat => a ≤ b) := by
  induction l with
  | nil => simp
  | cons x l ih =>
    simp only [List.map_cons, List.pairwise_cons]
    refine ⟨?_, ih⟩
    intro b hb
    simp only [List.map_map, List.mem_map] at hb
    obtain ⟨w, _, rfl⟩ := hb
    exact Nat.le_refl d

theorem unmCard_after_news {n i : Nat} {m m2 : Fin n → Nat}
    {news : List (Fin n)}
    (h : ∀ v, m2 v = if v ∈ news then i + 1 else m v)
    (hnd : news.Nodup) (hfresh : ∀ v ∈ news, ¬ m v = i + 1) :
    unmCard i m2 + news.length = unmCard i m := by
  have hset : (Finset.univ.filter fun v : Fin n => ¬ m2 v = i + 1) =
      (Finset.univ.filter fun v => ¬ m v = i + 1) \ news.toFinset := by
    ext v
    simp only [Finset.mem_filter, Finset.mem_univ, true_and, Finset.mem_sdiff,
      List.mem_toFinset, h v]
    by_cases hv : v ∈ news
    · simp [hv]
    · simp [hv]
  have hsub : news.toFinset ⊆
      (Finset.univ.filter fun v : Fin n => ¬ m v = i + 1) := by
    intro v hv
    simp only [Finset.mem_filter, Finset.mem_univ, true_and]
    exact hfresh v (List.mem_toFinset.mp hv)
  have hcard : news.toFinset.card = news.length := List.toFinset_card_of_nodup hnd
  have hle := Finset.card_le_card hsub
  rw [unmCard, unmCard, hset, Finset.card_sdiff hsub, hcard]
  omega

/-- The loop invariant of the breadth-first traversal for source s under
cutoff c at level DL: the queue holds vertices of the current and the next
frontier with their true hop distances, in nondecreasing order and without
repetition; queued vertices are marked; every marked vertex belongs to the
truncated reach set; every discoverable vertex at distance up to the
current level is marked; and expanded (popped, still expandable) vertices
have all their neighbors marked. -/
structure BfsInv (g : Graph) (mode : Nat) (c : ℚ) (s : Fin g.n)
    (i DL : Nat) (st : BfsSt g.n) : Prop where
  lvl : ∀ e ∈ st.q, e.2 = DL ∨ e.2 = DL + 1
  sorted : (st.q.map Prod.snd).Pairwise (fun a b : Nat => a ≤ b)
  dists : ∀ e ∈ st.q, hopDist g mode s e.1 = some e.2
  nodupq : (st.q.map Prod.fst).Nodup
  qmark : ∀ e ∈ st.q, st.mark e.1 = i + 1
  smark : st.mark s = i + 1
  inreach : ∀ v, st.mark v = i + 1 → v ∈ reachSet g mode s c
  low : ∀ v dv, hopDist g mode s v = some dv → dv ≤ DL →
    (c < 0 ∨ (dv : ℚ) ≤ c + 1) → st.mark v = i + 1
  closed : ∀ u, st.mark u = i + 1 → u ∉ st.q.map Prod.fst →
    (c < 0 ∨ (dval g mode s u : ℚ) ≤ c) →
    ∀ v ∈ nbrFinset g mode u, st.mark v = i + 1

/-- When the queue has drained, every vertex of the truncated reach set is
marked: an undiscovered vertex of least distance would have an expanded
predecessor, contradicting closedness. -/
theorem bfs_reach_subset {g : Graph} {mode : Nat} {c : ℚ} {s : Fin g.n}
    {i DL : Nat} {st : BfsSt g.n} (inv : BfsInv g mode c s i DL st)
    (hq : st.q = []) :
    ∀ v ∈ reachSet g mode s c, st.mark v = i + 1 := by
  suffices h : ∀ dv v, hopDist g mode s v = some dv →
      (c < 0 ∨ (dv : ℚ) ≤ c + 1) → st.mark v = i + 1 by
    intro v hv
    rw [mem_reachSet_iff] at hv
    obtain ⟨dv, h1, h2⟩ := hv
    exact h dv v h1 h2
  intro dv
  induction dv using Nat.strong_induction_on with
  | _ dv ih =>
    intro v hv hcond
    match dv, hv, hcond, ih with
    | 0, hv, hcond, ih =>
      have := hopDist_zero hv
      rw [this]
      exact inv.smark
    | d + 1, hv, hcond, ih =>
      obtain ⟨u, hu, hadj⟩ := hopDist_pred hv
      have hcondu : c < 0 ∨ ((d : ℚ)) ≤ c + 1 := by
        rcases hcond with h | h
        · exact Or.inl h
        · right; push_cast at h ⊢; linarith
      have hmu : st.mark u = i + 1 := ih d (Nat.lt_succ_self d) u hu hcondu
      have hex : c < 0 ∨ (dval g mode s u : ℚ) ≤ c := by
        rw [dval_eq hu]
        rcases hcond with h | h
        · exact Or.inl h
        · right; push_cast at h ⊢; linarith
      have hnotin : u ∉ st.q.map Prod.fst := by rw [hq]; simp
      exact inv.closed u hmu hnotin hex v hadj

/-- The level of the invariant can be advanced to the distance at the head
of the queue: when the first frontier is exhausted every remaining entry
sits one level up, and vertices at the new level are all already marked
because their predecessors were expanded. -/
theorem bfs_relevel {g : Graph} {mode : Nat} {c : ℚ} {s : Fin g.n}
    {i DL : Nat} {st : BfsSt g.n} {act : Fin g.n} {dd : Nat}
    {rest : List (Fin g.n × Nat)}
    (inv : BfsInv g mode c s i DL st) (hq : st.q = (act, dd) :: rest) :
    BfsInv g mode c s i dd st := by
  have hhead : (act, dd) ∈ st.q := by rw [hq]; exact List.mem_cons_self _ _
  rcases inv.lvl (act, dd) hhead with hdl | hdl
  · have hdd : dd = DL := hdl
    subst hdd
    exact inv
  · have hall : ∀ e ∈ st.q, e.2 = dd := by
      intro e he
      rw [hq] at he
      rcases List.mem_cons.mp he with rfl | he2
      · rfl
      · have hle : dd ≤ e.2 := by
          have hp := inv.sorted
          rw [hq] at hp
          simp only [List.map_cons, List.pairwise_cons] at hp
          exact hp.1 e.2 (List.mem_map.mpr ⟨e, he2, rfl⟩)
        rcases inv.lvl e (by rw [hq]; exact List.mem_cons_of_mem _ he2) with h | h
        · omega
        · omega
    refine ⟨?_, inv.sorted, inv.dists, inv.nodupq, inv.qmark, inv.smark,
      inv.inreach, ?_, inv.closed⟩
    · intro e he; exact Or.inl (hall e he)
    · intro v dv hv hle hcond
      rcases Nat.lt_or_ge dv dd with hlt | hge
      · exact inv.low v dv hv (by omega) hcond
      · have hdv : dv = dd := by omega
        subst hdv
        match dv, hv, hcond, hdl with
        | d2 + 1, hv, hcond, hdl =>
          have hd2 : d2 = DL := by omega
          obtain ⟨u, hu, hadj⟩ := hopDist_pred hv
          have hcondu : c < 0 ∨ ((d2 : ℚ)) ≤ c + 1 := by
            rcases hcond with h | h
            · exact Or.inl h
            · right; push_cast at h ⊢; linarith
          have hmu : st.mark u = i + 1 :=
            inv.low u d2 hu (by omega) hcondu
          have hnotin : u ∉ st.q.map Prod.fst := by
            intro hmem
            obtain ⟨e, he, heq⟩ := List.mem_map.mp hmem
            have := inv.dists e he
            rw [heq] at this
            rw [hu] at this
            have h2 := hall e he
            cases this
            omega
          have hex : c < 0 ∨ (dval g mode s u : ℚ) ≤ c := by
            rw [dval_eq hu]
            rcases hcond with h | h
            · exact Or.inl h
            · right; push_cast at h ⊢; linarith
          exact inv.closed u hmu hnotin hex v hadj

theorem map_fst_pairMap {n d : Nat} (l : List (Fin n)) :
    (l.map (fun w => (w, d))).map Prod.fst = l := by
  induction l with
  | nil => rfl
  | cons x xs ih => simp only [List.map_cons, ih]

/-- Main invariant theorem for the unweighted engine's while-loop: from any
state satisfying the invariant, with fuel at least the termination measure,
the loop drains the queue, adds to the distance sum the queued distances
plus the hop distance of every still-undiscovered vertex of the truncated
reach set, counts those vertices in nodes_reached, and marks exactly the
old marks plus the reach set. -/
theorem bfsStep_correct (g : Graph) (mode : Nat) (c : ℚ) (s : Fin g.n)
    (i : Nat) :
    ∀ (fuel : Nat) (st : BfsSt g.n) (DL : Nat),
      st.q.length + 2 * unmCard i st.mark ≤ fuel →
      BfsInv g mode c s i DL st →
      (bfsStep g mode i c fuel st).q = [] ∧
      (bfsStep g mode i c fuel st).dsum = st.dsum + qSum st.q +
        ∑ v ∈ reachSet g mode s c \ markSet i st.mark,
          (dval g mode s v : ℚ) ∧
      (bfsStep g mode i c fuel st).reached = st.reached +
        (reachSet g mode s c \ markSet i st.mark).card ∧
      (∀ v, (bfsStep g mode i c fuel st).mark v = i + 1 ↔
        (st.mark v = i + 1 ∨ v ∈ reachSet g mode s c)) ∧
      (∀ v, (bfsStep g mode i c fuel st).mark v = st.mark v ∨
        (bfsStep g mode i c fuel st).mark v = i + 1) := by
  intro fuel
  induction fuel with
  | zero =>
    intro st DL hfuel inv
    have hq : st.q = [] := List.length_eq_zero.mp (by omega)
    have hum : unmCard i st.mark = 0 := by omega
    have hall : ∀ v, st.mark v = i + 1 := by
      intro v
      by_contra hv
      have hmem : v ∈ Finset.univ.filter (fun v : Fin g.n => ¬ st.mark v = i + 1) := by
        simp [hv]
      have := Finset.card_pos.mpr ⟨v, hmem⟩
      rw [unmCard] at hum
      omega
    have hempty : reachSet g mode s c \ markSet i st.mark = ∅ :=
      Finset.sdiff_eq_empty_iff_subset.mpr
        (fun v _ => mem_markSet.mpr (hall v))
    have hstep : bfsStep g mode i c 0 st = st := rfl
    rw [hstep]
    refine ⟨hq, ?_, ?_, ?_, fun v => Or.inl rfl⟩
    · rw [hq, qSum_nil, hempty]; simp
    · rw [hempty]; simp
    · intro v; simp [hall v]
  | succ fuel ih =>
    intro st DL hfuel inv
    cases hq : st.q with
    | nil =>
      have hstep : bfsStep g mode i c (fuel + 1) st = st := by
        simp [bfsStep, hq]
      have hsub := bfs_reach_subset inv hq
      have hempty : reachSet g mode s c \ markSet i st.mark = ∅ :=
        Finset.sdiff_eq_empty_iff_subset.mpr
          (fun v hv => mem_markSet.mpr (hsub v hv))
      rw [hstep]
      refine ⟨hq, ?_, ?_, ?_, fun v => Or.inl rfl⟩
      · rw [qSum_nil, hempty]; simp
      · rw [hempty]; simp
      · intro v
        constructor
        · exact Or.inl
        · rintro (h | h)
          · exact h
          · exact hsub v h
    | cons e rest =>
      obtain ⟨act, dd⟩ := e
      have inv2 := bfs_relevel inv hq
      have hdact : hopDist g mode s act = some dd :=
        inv2.dists (act, dd) (by rw [hq]; exact List.mem_cons_self _ _)
      have hqlen : st.q.length = rest.length + 1 := by rw [hq]; simp
      by_cases hcut : 0 ≤ c ∧ c < (dd : ℚ)
      · -- cutoff exceeded: drain without expanding
        have hstep : bfsStep g mode i c (fuel + 1) st =
            bfsStep g mode i c fuel
              ⟨rest, st.mark, st.dsum + (dd : ℚ), st.reached, dd⟩ := by
          simp [bfsStep, hq, if_pos hcut]
        have inv3 : BfsInv g mode c s i dd
            ⟨rest, st.mark, st.dsum + (dd : ℚ), st.reached, dd⟩ := by
          refine ⟨?_, ?_, ?_, ?_, ?_, inv2.smark, inv2.inreach, inv2.low, ?_⟩
          · intro e he
            exact inv2.lvl e (by rw [hq]; exact List.mem_cons_of_mem _ he)
          · have := inv2.sorted
            rw [hq] at this
            simp only [List.map_cons] at this
            exact this.of_cons
          · intro e he
            exact inv2.dists e (by rw [hq]; exact List.mem_cons_of_mem _ he)
          · have := inv2.nodupq
            rw [hq] at this
            simp only [List.map_cons] at this
            exact this.of_cons
          · intro e he
            exact inv2.qmark e (by rw [hq]; exact List.mem_cons_of_mem _ he)
          · intro u hu hnotin hexu v hv
            by_cases hua : u = act
            · exfalso
              subst hua
              rw [dval_eq hdact] at hexu
              rcases hexu with h | h
              · linarith [hcut.1]
              · linarith [hcut.2]
            · have hnotin2 : u ∉ st.q.map Prod.fst := by
                rw [hq]
                simp only [List.map_cons, List.mem_cons]
                rintro (h | h)
                · exact hua h
                · exact hnotin h
              exact inv2.closed u hu hnotin2 hexu v hv
        have hmeas : rest.length + 2 * unmCard i st.mark ≤ fuel := by omega
        obtain ⟨c1, c2, c3, c4, c5⟩ := ih ⟨rest, st.mark, st.dsum + (dd : ℚ),
          st.reached, dd⟩ dd hmeas inv3
        rw [hstep]
        refine ⟨c1, ?_, c3, c4, c5⟩
        rw [c2]
        dsimp only
        rw [qSum_cons]
        ring
      · -- expand the neighbors of act
        obtain ⟨news, hm2, hq2, hr2, hnodup, hmem⟩ :=
          bfsExpand_spec i dd (neighbors g mode act) st.mark rest st.reached
        push_neg at hcut
        have hex : c < 0 ∨ (dd : ℚ) ≤ c := by
          rcases lt_or_le c 0 with h | h
          · exact Or.inl h
          · exact Or.inr (hcut h)
        have hkeep : ∀ v, st.mark v = i + 1 →
            (bfsExpand i dd (neighbors g mode act) st.mark rest st.reached).1 v
              = i + 1 := by
          intro v hv
          rw [hm2 v]
          by_cases h : v ∈ news <;> simp [h, hv]
        have hm2iff : ∀ v,
            (bfsExpand i dd (neighbors g mode act) st.mark rest st.reached).1 v
              = i + 1 ↔ (v ∈ news ∨ st.mark v = i + 1) := by
          intro v
          rw [hm2 v]
          by_cases h : v ∈ news <;> simp [h]
        have hfreshnews : ∀ w ∈ news, ¬ st.mark w = i + 1 :=
          fun w hw => ((hmem w).mp hw).2
        have hN2 : ∀ w ∈ news, hopDist g mode s w = some (dd + 1) := by
          intro w hw
          obtain ⟨hwn, hwm⟩ := (hmem w).mp hw
          have hadj : w ∈ nbrFinset g mode act := List.mem_toFinset.mpr hwn
          obtain ⟨dw, hdw, hds⟩ := hopDist_adj hdact hadj
          rcases Nat.lt_or_ge dw (dd + 1) with hlt | hge
          · exfalso
            apply hwm
            apply inv2.low w dw hds (by omega)
            rcases hex with h | h
            · exact Or.inl h
            · right
              have hcast : (dw : ℚ) ≤ (dd : ℚ) := by exact_mod_cast (by omega : dw ≤ dd)
              linarith
          · have heq : dw = dd + 1 := by omega
            rw [← heq]
            exact hds
        have hN3 : ∀ w ∈ news, w ∈ reachSet g mode s c := by
          intro w hw
          rw [mem_reachSet_iff]
          refine ⟨dd + 1, hN2 w hw, ?_⟩
          rcases hex with h | h
          · exact Or.inl h
          · right; push_cast; linarith
        have hstep : bfsStep g mode i c (fuel + 1) st =
            bfsStep g mode i c fuel
              ⟨(bfsExpand i dd (neighbors g mode act) st.mark rest st.reached).2.1,
               (bfsExpand i dd (neighbors g mode act) st.mark rest st.reached).1,
               st.dsum + (dd : ℚ),
               (bfsExpand i dd (neighbors g mode act) st.mark rest st.reached).2.2,
               dd⟩ := by
          have hcut2 : ¬ (0 ≤ c ∧ c < (dd : ℚ)) := by
            rintro ⟨h1, h2⟩
            linarith [hcut h1]
          simp [bfsStep, hq, if_neg hcut2]
        have hrestnodup : (rest.map Prod.fst).Nodup := by
          have := inv2.nodupq
          rw [hq] at this
          simp only [List.map_cons] at this
          exact this.of_cons
        have hrestmark : ∀ e ∈ rest, st.mark e.1 = i + 1 := by
          intro e he
          exact inv2.qmark e (by rw [hq]; exact List.mem_cons_of_mem _ he)
        have inv4 : BfsInv g mode c s i dd
            ⟨(bfsExpand i dd (neighbors g mode act) st.mark rest st.reached).2.1,
             (bfsExpand i dd (neighbors g mode act) st.mark rest st.reached).1,
             st.dsum + (dd : ℚ),
             (bfsExpand i dd (neighbors g mode act) st.mark rest st.reached).2.2,
             dd⟩ := by
          refine ⟨?_, ?_, ?_, ?_, ?_, hkeep s inv2.smark, ?_, ?_, ?_⟩
          · intro e he
            rw [hq2] at he
            rcases List.mem_append.mp he with h | h
            · exact inv2.lvl e (by rw [hq]; exact List.mem_cons_of_mem _ h)
            · obtain ⟨w, _, rfl⟩ := List.mem_map.mp h
              exact Or.inr rfl
          · show ((bfsExpand i dd (neighbors g mode act) st.mark rest
              st.reached).2.1.map Prod.snd).Pairwise (fun a b : Nat => a ≤ b)
            rw [hq2, List.map_append]
            rw [List.pairwise_append]
            refine ⟨?_, pairwise_le_constMap news (dd + 1), ?_⟩
            · have := inv2.sorted
              rw [hq] at this
              simp only [List.map_cons] at this
              exact this.of_cons
            · intro a ha b hb
              obtain ⟨e, he, rfl⟩ := List.mem_map.mp ha
              simp only [List.map_map, List.mem_map] at hb
              obtain ⟨w, _, rfl⟩ := hb
              show e.2 ≤ dd + 1
              rcases inv2.lvl e (by rw [hq]; exact List.mem_cons_of_mem _ he)
                with h | h <;> omega
          · intro e he
            rw [hq2] at he
            rcases List.mem_append.mp he with h | h
            · exact inv2.dists e (by rw [hq]; exact List.mem_cons_of_mem _ h)
            · obtain ⟨w, hw, rfl⟩ := List.mem_map.mp h
              exact hN2 w hw
          · show ((bfsExpand i dd (neighbors g mode act) st.mark rest
              st.reached).2.1.map Prod.fst).Nodup
            rw [hq2, List.map_append]
            rw [List.nodup_append]
            rw [map_fst_pairMap news]
            refine ⟨hrestnodup, hnodup, ?_⟩
            intro v hv1 hv2
            obtain ⟨e, he, rfl⟩ := List.mem_map.mp hv1
            exact hfreshnews e.1 hv2 (hrestmark e he)
          · intro e he
            rw [hq2] at he
            rcases List.mem_append.mp he with h | h
            · exact hkeep e.1 (hrestmark e h)
            · obtain ⟨w, hw, rfl⟩ := List.mem_map.mp h
              dsimp only
              rw [hm2 w]
              simp [hw]
          · intro v hv
            rcases (hm2iff v).mp hv with h | h
            · exact hN3 v h
            · exact inv2.inreach v h
          · intro v dv h1 h2 h3
            exact hkeep v (inv2.low v dv h1 h2 h3)
          · intro u hu hnotin hexu v hv
            have hunews : u ∉ news := by
              intro hc
              apply hnotin
              rw [hq2, List.map_append]
              apply List.mem_append.mpr
              right
              simp only [List.map_map, List.mem_map]
              exact ⟨u, hc, rfl⟩
            have humark : st.mark u = i + 1 := by
              rcases (hm2iff u).mp hu with h | h
              · exact absurd h hunews
              · exact h
            by_cases hua : u = act
            · subst hua
              have hvn : v ∈ neighbors g mode u := List.mem_toFinset.mp hv
              by_cases hvnews : v ∈ news
              · dsimp only
                rw [hm2 v]
                simp [hvnews]
              · have : st.mark v = i + 1 := by
                  by_contra hc
                  exact hvnews ((hmem v).mpr ⟨hvn, hc⟩)
                exact hkeep v this
            · have hnotin2 : u ∉ st.q.map Prod.fst := by
                rw [hq]
                simp only [List.map_cons, List.mem_cons]
                rintro (h | h)
                · exact hua h
                · apply hnotin
                  rw [hq2, List.map_append]
                  exact List.mem_append.mpr (Or.inl h)
              exact hkeep v (inv2.closed u humark hnotin2 hexu v hv)
        have humc := unmCard_after_news hm2 hnodup hfreshnews
        have hq2len : (bfsExpand i dd (neighbors g mode act) st.mark rest
            st.reached).2.1.length = rest.length + news.length := by
          rw [hq2]; simp
        have hmeas : (bfsExpand i dd (neighbors g mode act) st.mark rest
            st.reached).2.1.length + 2 * unmCard i
            (bfsExpand i dd (neighbors g mode act) st.mark rest st.reached).1
            ≤ fuel := by
          rw [hq2len]; omega
        obtain ⟨c1, c2, c3, c4, c5⟩ := ih _ dd hmeas inv4
        have hMset : markSet i
            (bfsExpand i dd (neighbors g mode act) st.mark rest st.reached).1 =
            markSet i st.mark ∪ news.toFinset := by
          ext v
          rw [mem_markSet, hm2iff v]
          simp only [Finset.mem_union, mem_markSet, List.mem_toFinset]
          tauto
        have hsubnews : news.toFinset ⊆
            reachSet g mode s c \ markSet i st.mark := by
          intro w hw
          have hw2 := List.mem_toFinset.mp hw
          rw [Finset.mem_sdiff]
          exact ⟨hN3 w hw2, fun hc => hfreshnews w hw2 (mem_markSet.mp hc)⟩
        have hsd : reachSet g mode s c \ markSet i
            (bfsExpand i dd (neighbors g mode act) st.mark rest st.reached).1 =
            (reachSet g mode s c \ markSet i st.mark) \ news.toFinset := by
          rw [hMset]
          ext v
          simp only [Finset.mem_sdiff, Finset.mem_union]
          tauto
        have hcardnews : news.toFinset.card = news.length :=
          List.toFinset_card_of_nodup hnodup
        have hsum_news : ∑ v ∈ news.toFinset, (dval g mode s v : ℚ) =
            (news.length : ℚ) * ((dd : ℚ) + 1) := by
          have : ∀ v ∈ news.toFinset, (dval g mode s v : ℚ) = (dd : ℚ) + 1 := by
            intro v hv
            rw [dval_eq (hN2 v (List.mem_toFinset.mp hv))]
            push_cast
            ring
          rw [Finset.sum_congr rfl this, Finset.sum_const, hcardnews]
          simp only [nsmul_eq_mul]
        have hlen_le : news.length ≤ (reachSet g mode s c \ markSet i st.mark).card := by
          rw [← hcardnews]
          exact Finset.card_le_card hsubnews
        rw [hstep]
        refine ⟨c1, ?_, ?_, ?_, ?_⟩
        · rw [c2]
          dsimp only
          rw [hsd, Finset.sum_sdiff_eq_sub hsubnews, hsum_news, hq2,
            qSum_append, qSum_constMap, qSum_cons]
          push_cast
          ring
        · rw [c3]
          dsimp only
          rw [hsd, Finset.card_sdiff hsubnews, hcardnews, hr2]
          have := Finset.card_le_card hsubnews
          omega
        · intro v
          rw [c4 v]
          dsimp only
          rw [hm2iff v]
          constructor
          · rintro ((h | h) | h)
            · exact Or.inr (hN3 v h)
            · exact Or.inl h
            · exact Or.inr h
          · rintro (h | h)
            · exact Or.inl (Or.inr h)
            · exact Or.inr h
        · intro v
          rcases c5 v with h | h
          · rw [h]
            dsimp only
            rw [hm2 v]
            by_cases hv : v ∈ news
            · simp [hv]
            · simp [hv]
          · exact Or.inr h

/-- Per-source specification of the unweighted engine: started with a
marker array holding no stale i + 1 stamps, the traversal from s computes
the sum of hop distances over the truncated reach set, counts its vertices
in nodes_reached, and marks exactly that set. -/
theorem bfsSource_spec (g : Graph) (mode : Nat) (c : ℚ) (s : Fin g.n)
    (i : Nat) (m : Fin g.n → Nat) (hm : ∀ v, ¬ m v = i + 1) (last : Nat) :
    (bfsSource g mode c i m s last).dsum = reachSum g mode s c ∧
    (bfsSource g mode c i m s last).reached = (reachSet g mode s c).card ∧
    (∀ v, (bfsSource g mode c i m s last).mark v = i + 1 ↔
      v ∈ reachSet g mode s c) ∧
    (∀ v, (bfsSource g mode c i m s last).mark v = m v ∨
      (bfsSource g mode c i m s last).mark v = i + 1) := by
  have hm0 : ∀ v, Function.update m s (i + 1) v = i + 1 ↔ v = s := by
    intro v
    by_cases hv : v = s
    · subst hv; simp [Function.update]
    · simp [Function.update, hv, hm v]
  have hMs : markSet i (Function.update m s (i + 1)) = {s} := by
    ext v
    rw [mem_markSet, hm0 v, Finset.mem_singleton]
  have hinv : BfsInv g mode c s i 0
      ⟨[(s, 0)], Function.update m s (i + 1), 0, 1, last⟩ := by
    refine ⟨?_, ?_, ?_, ?_, ?_, ?_, ?_, ?_, ?_⟩
    · intro e he
      simp only [List.mem_singleton] at he
      subst he
      exact Or.inl rfl
    · simp
    · intro e he
      simp only [List.mem_singleton] at he
      subst he
      exact hopDist_self
    · simp
    · intro e he
      simp only [List.mem_singleton] at he
      subst he
      exact (hm0 s).mpr rfl
    · exact (hm0 s).mpr rfl
    · intro v hv
      rw [hm0 v] at hv
      subst hv
      exact source_mem_reachSet
    · intro v dv h1 h2 _
      have hdv : dv = 0 := Nat.le_zero.mp h2
      subst hdv
      have := hopDist_zero h1
      subst this
      exact (hm0 v).mpr rfl
    · intro u hu hnotin _ v _
      exfalso
      rw [hm0 u] at hu
      subst hu
      exact hnotin (by simp)
  have hmeas : ([(s, 0)] : List (Fin g.n × Nat)).length +
      2 * unmCard i (Function.update m s (i + 1)) ≤ 1 + 2 * g.n := by
    have := unmCard_le i (Function.update m s (i + 1))
    simp only [List.length_singleton]
    omega
  obtain ⟨c1, c2, c3, c4, c5⟩ :=
    bfsStep_correct g mode c s i (1 + 2 * g.n)
      ⟨[(s, 0)], Function.update m s (i + 1), 0, 1, last⟩ 0 hmeas hinv
  have hssub : ({s} : Finset (Fin g.n)) ⊆ reachSet g mode s c := by
    intro v hv
    rw [Finset.mem_singleton] at hv
    subst hv
    exact source_mem_reachSet
  have hdval_s : (dval g mode s s : ℚ) = 0 := by
    rw [dval_eq hopDist_self]
    rfl
  have hrw : bfsSource g mode c i m s last =
      bfsStep g mode i c (1 + 2 * g.n)
        ⟨[(s, 0)], Function.update m s (i + 1), 0, 1, last⟩ := rfl
  rw [hrw]
  refine ⟨?_, ?_, ?_, ?_⟩
  · rw [c2]
    dsimp only
    rw [hMs, Finset.sum_sdiff_eq_sub hssub, Finset.sum_singleton, hdval_s]
    show 0 + qSum [(s, 0)] + (reachSum g mode s c - 0) = reachSum g mode s c
    rw [qSum_cons, qSum_nil]
    push_cast
    ring
  · rw [c3]
    dsimp only
    rw [hMs, Finset.card_sdiff hssub, Finset.card_singleton]
    have : 0 < (reachSet g mode s c).card :=
      Finset.card_pos.mpr ⟨s, source_mem_reachSet⟩
    omega
  · intro v
    rw [c4 v]
    dsimp only
    rw [hm0 v]
    constructor
    · rintro (rfl | h)
      · exact source_mem_reachSet
      · exact h
    · exact Or.inr
  · intro v
    rcases c5 v with h | h
    · by_cases hv : v = s
      · right
        rw [h]
        dsimp only
        simp [Function.update, hv]
      · left
        rw [h]
        dsimp only
        simp [Function.update, hv]
    · exact Or.inr h

/-- The raw per-source distance sum of the unweighted engine is the reach
sum plus the vertex-count penalty for every undiscovered vertex. -/
theorem bfsRawSum_spec (g : Graph) (mode : Nat) (c : ℚ) (s : Fin g.n)
    (i : Nat) (m : Fin g.n → Nat) (hm : ∀ v, ¬ m v = i + 1) (last : Nat) :
    bfsRawSum g mode c i m s last = reachSum g mode s c +
      (g.n : ℚ) * ((g.n : ℚ) - ((reachSet g mode s c).card : ℚ)) := by
  obtain ⟨c1, c2, _, _⟩ := bfsSource_spec g mode c s i m hm last
  rw [bfsRawSum, c1, c2]

/-! ## The per-source loop of the unweighted engine -/

theorem unwLoop_error_of_intr (g : Graph) (mode : Nat) (cutoff : ℚ)
    (intr : Nat → Bool) :
    ∀ (vids : List (Fin g.n)) (i : Nat) (m : Fin g.n → Nat) (shown : Bool)
      (dw last : Nat) (acc : List (Option ℚ)),
      (∃ j, j < vids.length ∧ intr (i + j) = true) →
      unwLoop g mode cutoff intr vids i m shown dw last acc =
        .error .interrupted := by
  intro vids
  induction vids with
  | nil =>
    intro i m shown dw last acc h
    obtain ⟨j, hj, _⟩ := h
    simp at hj
  | cons s rest ih =>
    intro i m shown dw last acc h
    by_cases hi : intr i = true
    · simp [unwLoop, hi]
    · have hi2 : intr i = false := by
        cases hintr : intr i
        · rfl
        · exact absurd hintr hi
      simp only [unwLoop, hi2, Bool.false_eq_true, if_false]
      apply ih
      obtain ⟨j, hj, hjt⟩ := h
      match j, hj, hjt with
      | 0, hj, hjt => exact absurd (by simpa using hjt) hi
      | j + 1, hj, hjt =>
        refine ⟨j, ?_, ?_⟩
        · simp at hj; omega
        · have : i + 1 + j = i + (j + 1) := by omega
          rw [this]
          exact hjt

theorem unwLoop_ok_of_no_intr (g : Graph) (mode : Nat) (cutoff : ℚ)
    (intr : Nat → Bool) :
    ∀ (vids : List (Fin g.n)) (i : Nat) (m : Fin g.n → Nat) (shown : Bool)
      (dw last : Nat) (acc : List (Option ℚ)),
      (∀ j, j < vids.length → intr (i + j) = false) →
      ∃ p, unwLoop g mode cutoff intr vids i m shown dw last acc = .ok p := by
  intro vids
  induction vids with
  | nil =>
    intro i m shown dw last acc _
    exact ⟨_, rfl⟩
  | cons s rest ih =>
    intro i m shown dw last acc h
    have hi : intr i = false := by
      have := h 0 (by simp)
      simpa using this
    simp only [unwLoop, hi, Bool.false_eq_true, if_false]
    apply ih
    intro j hj
    have : i + 1 + j = i + (j + 1) := by omega
    rw [this]
    exact h (j + 1) (by simp; omega)

theorem unwLoop_dwarn_le (g : Graph) (mode : Nat) (cutoff : ℚ)
    (intr : Nat → Bool) :
    ∀ (vids : List (Fin g.n)) (i : Nat) (m : Fin g.n → Nat) (shown : Bool)
      (dw last : Nat) (acc res : List (Option ℚ)) (dw2 : Nat),
      unwLoop g mode cutoff intr vids i m shown dw last acc = .ok (res, dw2) →
      dw2 ≤ dw + (if shown then 0 else 1) := by
  intro vids
  induction vids with
  | nil =>
    intro i m shown dw last acc res dw2 h
    simp only [unwLoop, Except.ok.injEq] at h
    cases h
    split <;> omega
  | cons s rest ih =>
    intro i m shown dw last acc res dw2 h
    by_cases hi : intr i = true
    · simp [unwLoop, hi] at h
    · have hi2 : intr i = false := by
        cases hintr : intr i
        · rfl
        · exact absurd hintr hi
      simp only [unwLoop, hi2, Bool.false_eq_true, if_false] at h
      have := ih _ _ _ _ _ _ _ _ h
      by_cases hcond : ((0 ≤ cutoff ∧
          ((bfsSource g mode cutoff i m s last).last : ℚ) ≤ cutoff) ∨
          cutoff < 0) ∧
          (bfsSource g mode cutoff i m s last).reached < g.n ∧ shown = false
      · have hshown : shown = false := hcond.2.2
        rw [if_pos hcond] at this
        rw [decide_eq_true hcond, Bool.or_true] at this
        rw [hshown]
        simp at this ⊢
        omega
      · rw [if_neg hcond] at this
        rw [decide_eq_false hcond, Bool.or_false] at this
        omega

/-- The ideal per-source score both engines compute with no cutoff or with
a cutoff: the finisher applied to the reach sum plus penalties. -/
def idealScore (g : Graph) (mode : Nat) (s : Fin g.n) (c : ℚ) : Option ℚ :=
  finishScore g.n (reachSum g mode s c +
    (g.n : ℚ) * ((g.n : ℚ) - ((reachSet g mode s c).card : ℚ)))

/-- Full characterization of the unweighted per-source loop when no cutoff
is active and no interruption is requested: one ideal score per requested
vertex, and the disconnected-graph warning fires exactly when some
requested source fails to reach the whole graph, at most once. -/
theorem unwLoop_spec_neg (g : Graph) (mode : Nat) (cutoff : ℚ)
    (intr : Nat → Bool) (hc : cutoff < 0) (hni : ∀ j, intr j = false) :
    ∀ (vids : List (Fin g.n)) (i : Nat) (m : Fin g.n → Nat) (shown : Bool)
      (dw last : Nat) (acc : List (Option ℚ)),
      (∀ v, m v ≤ i) →
      unwLoop g mode cutoff intr vids i m shown dw last acc = .ok
        (acc ++ vids.map (fun s => idealScore g mode s cutoff),
         dw + (if shown = false ∧
            ∃ s ∈ vids, (reachSet g mode s cutoff).card < g.n
           then 1 else 0)) := by
  intro vids
  induction vids with
  | nil =>
    intro i m shown dw last acc _
    simp [unwLoop]
  | cons s rest ih =>
    intro i m shown dw last acc hm
    have hfresh : ∀ v, ¬ m v = i + 1 := by
      intro v h
      have := hm v
      omega
    obtain ⟨s1, s2, s3, s4⟩ := bfsSource_spec g mode cutoff s i m hfresh last
    have hm2 : ∀ v, (bfsSource g mode cutoff i m s last).mark v ≤ i + 1 := by
      intro v
      rcases s4 v with h | h
      · rw [h]; have := hm v; omega
      · rw [h]
    have hscore : finishScore g.n (bfsRawSum g mode cutoff i m s last) =
        idealScore g mode s cutoff := by
      rw [bfsRawSum_spec g mode cutoff s i m hfresh last, idealScore]
    simp only [unwLoop, hni i, Bool.false_eq_true, if_false]
    by_cases hsh : shown = false
    · by_cases hcard : (reachSet g mode s cutoff).card < g.n
      · have hcond : ((0 ≤ cutoff ∧
            ((bfsSource g mode cutoff i m s last).last : ℚ) ≤ cutoff) ∨
            cutoff < 0) ∧
            (bfsSource g mode cutoff i m s last).reached < g.n ∧
            shown = false := ⟨Or.inr hc, by rw [s2]; exact hcard, hsh⟩
        rw [decide_eq_true hcond, if_pos hcond, Bool.or_true]
        rw [ih (i + 1) (bfsSource g mode cutoff i m s last).mark true
          (dw + 1) (bfsSource g mode cutoff i m s last).last
          (acc ++ [finishScore g.n (bfsRawSum g mode cutoff i m s last)]) hm2]
        simp only [Except.ok.injEq, Prod.mk.injEq]
        constructor
        · rw [hscore]
          simp [List.append_assoc]
        · have : ¬ ((true : Bool) = false ∧
              ∃ s2 ∈ rest, (reachSet g mode s2 cutoff).card < g.n) := by
            rintro ⟨h, _⟩
            cases h
          rw [if_neg this, if_pos ⟨hsh, s, List.mem_cons_self _ _, hcard⟩]
      · have hcond : ¬ (((0 ≤ cutoff ∧
            ((bfsSource g mode cutoff i m s last).last : ℚ) ≤ cutoff) ∨
            cutoff < 0) ∧
            (bfsSource g mode cutoff i m s last).reached < g.n ∧
            shown = false) := by
          rintro ⟨_, h2, _⟩
          rw [s2] at h2
          exact hcard h2
        rw [decide_eq_false hcond, if_neg hcond, Bool.or_false]
        rw [ih (i + 1) (bfsSource g mode cutoff i m s last).mark shown
          (dw + 0) (bfsSource g mode cutoff i m s last).last
          (acc ++ [finishScore g.n (bfsRawSum g mode cutoff i m s last)]) hm2]
        simp only [Except.ok.injEq, Prod.mk.injEq]
        constructor
        · rw [hscore]
          simp [List.append_assoc]
        · have hiff : (shown = false ∧
              ∃ s2 ∈ rest, (reachSet g mode s2 cutoff).card < g.n) ↔
              (shown = false ∧
              ∃ s2 ∈ s :: rest, (reachSet g mode s2 cutoff).card < g.n) := by
            constructor
            · rintro ⟨h1, s2, h2, h3⟩
              exact ⟨h1, s2, List.mem_cons_of_mem _ h2, h3⟩
            · rintro ⟨h1, s2, h2, h3⟩
              rcases List.mem_cons.mp h2 with rfl | h2
              · exact absurd h3 hcard
              · exact ⟨h1, s2, h2, h3⟩
          by_cases hrest : shown = false ∧
              ∃ s2 ∈ rest, (reachSet g mode s2 cutoff).card < g.n
          · rw [if_pos hrest, if_pos (hiff.mp hrest)]
          · rw [if_neg hrest, if_neg (fun h => hrest (hiff.mpr h))]
    · have hcond : ¬ (((0 ≤ cutoff ∧
          ((bfsSource g mode cutoff i m s last).last : ℚ) ≤ cutoff) ∨
          cutoff < 0) ∧
          (bfsSource g mode cutoff i m s last).reached < g.n ∧
          shown = false) := by
        rintro ⟨_, _, h3⟩
        exact hsh h3
      rw [decide_eq_false hcond, if_neg hcond, Bool.or_false]
      rw [ih (i + 1) (bfsSource g mode cutoff i m s last).mark shown
        (dw + 0) (bfsSource g mode cutoff i m s last).last
        (acc ++ [finishScore g.n (bfsRawSum g mode cutoff i m s last)]) hm2]
      simp only [Except.ok.injEq, Prod.mk.injEq]
      constructor
      · rw [hscore]
        simp [List.append_assoc]
      · rw [if_neg (fun h => hsh h.1), if_neg (fun h => hsh h.1)]

/-- On a single-vertex graph the truncated reach set from its vertex is
that vertex alone, whatever the cutoff. -/
theorem reachSet_one {g : Graph} (hn : g.n = 1) (mode : Nat) (s : Fin g.n)
    (cutoff : ℚ) : reachSet g mode s cutoff = {s} := by
  ext v
  constructor
  · intro _
    have hv : v = s := by
      apply Fin.ext
      have h1 := v.isLt
      have h2 := s.isLt
      omega
    rw [hv]
    exact Finset.mem_singleton_self s
  · intro hv
    rw [Finset.mem_singleton] at hv
    rw [hv]
    exact source_mem_reachSet

/-- On a single-vertex graph the per-source raw distance sum of the
unweighted engine is zero for every cutoff. -/
theorem bfsRawSum_one {g : Graph} (hn : g.n = 1) (mode : Nat) (cutoff : ℚ)
    (i : Nat) (m : Fin g.n → Nat) (hm : ∀ v, ¬ m v = i + 1) (s : Fin g.n)
    (last : Nat) : bfsRawSum g mode cutoff i m s last = 0 := by
  rw [bfsRawSum_spec g mode cutoff s i m hm last]
  rw [reachSet_one hn mode s cutoff]
  rw [reachSum, reachSet_one hn mode s cutoff, Finset.sum_singleton]
  rw [dval_eq hopDist_self, Finset.card_singleton, hn]
  norm_num

/-- On a single-vertex graph the unweighted per-source loop produces a
not-a-number score for every requested vertex and never warns. -/
theorem unwLoop_one (g : Graph) (hn : g.n = 1) (mode : Nat) (cutoff : ℚ)
    (intr : Nat → Bool) (hni : ∀ j, intr j = false) :
    ∀ (vids : List (Fin g.n)) (i : Nat) (m : Fin g.n → Nat) (shown : Bool)
      (dw last : Nat) (acc : List (Option ℚ)),
      (∀ v, m v ≤ i) →
      unwLoop g mode cutoff intr vids i m shown dw last acc =
        .ok (acc ++ vids.map (fun _ => (none : Option ℚ)), dw) := by
  intro vids
  induction vids with
  | nil =>
    intro i m shown dw last acc _
    simp [unwLoop]
  | cons s rest ih =>
    intro i m shown dw last acc hm
    have hfresh : ∀ v, ¬ m v = i + 1 := by
      intro v h
      have := hm v
      omega
    obtain ⟨s1, s2, s3, s4⟩ := bfsSource_spec g mode cutoff s i m hfresh last
    have hm2 : ∀ v, (bfsSource g mode cutoff i m s last).mark v ≤ i + 1 := by
      intro v
      rcases s4 v with h | h
      · rw [h]; have := hm v; omega
      · rw [h]
    have hreached : (bfsSource g mode cutoff i m s last).reached = 1 := by
      rw [s2, reachSet_one hn mode s cutoff, Finset.card_singleton]
    have hscore : finishScore g.n (bfsRawSum g mode cutoff i m s last) = none := by
      rw [bfsRawSum_one hn mode cutoff i m hfresh s last]
      simp [finishScore]
    have hcond : ¬ (((0 ≤ cutoff ∧
        ((bfsSource g mode cutoff i m s last).last : ℚ) ≤ cutoff) ∨
        cutoff < 0) ∧
        (bfsSource g mode cutoff i m s last).reached < g.n ∧
        shown = false) := by
      rintro ⟨_, h2, _⟩
      rw [hreached, hn] at h2
      omega
    simp only [unwLoop, hni i, Bool.false_eq_true, if_false]
    rw [decide_eq_false hcond, if_neg hcond, Bool.or_false]
    rw [ih (i + 1) (bfsSource g mode cutoff i m s last).mark shown
      (dw + 0) (bfsSource g mode cutoff i m s last).last
      (acc ++ [finishScore g.n (bfsRawSum g mode cutoff i m s last)]) hm2]
    simp only [Except.ok.injEq, Prod.mk.injEq]
    constructor
    · rw [hscore]
      simp [List.append_assoc]
    · rfl

theorem dval_pos_of_ne {g : Graph} {mode : Nat} {s v : Fin g.n} {c : ℚ}
    (hv : v ∈ reachSet g mode s c) (hne : v ≠ s) :
    1 ≤ (dval g mode s v : ℚ) := by
  rw [mem_reachSet_iff] at hv
  obtain ⟨dv, hdv, _⟩ := hv
  rw [dval_eq hdv]
  have : dv ≠ 0 := by
    intro h
    rw [h] at hdv
    exact hne (hopDist_zero hdv)
  exact_mod_cast Nat.one_le_iff_ne_zero.mpr this

theorem reachSum_nonneg (g : Graph) (mode : Nat) (s : Fin g.n) (c : ℚ) :
    0 ≤ reachSum g mode s c :=
  Finset.sum_nonneg (fun v _ => by positivity)

theorem reachSum_ge_card (g : Graph) (mode : Nat) (s : Fin g.n) (c : ℚ) :
    ((reachSet g mode s c).card : ℚ) - 1 ≤ reachSum g mode s c := by
  have hs : s ∈ reachSet g mode s c := source_mem_reachSet
  have hsdiff : ∑ v ∈ reachSet g mode s c \ {s}, (dval g mode s v : ℚ) =
      ∑ v ∈ reachSet g mode s c, (dval g mode s v : ℚ) -
      ∑ v ∈ ({s} : Finset (Fin g.n)), (dval g mode s v : ℚ) :=
    Finset.sum_sdiff_eq_sub (Finset.singleton_subset_iff.mpr hs)
  have hsplit : reachSum g mode s c =
      (dval g mode s s : ℚ) +
      ∑ v ∈ reachSet g mode s c \ {s}, (dval g mode s v : ℚ) := by
    rw [reachSum, hsdiff, Finset.sum_singleton]
    ring
  have hds : (dval g mode s s : ℚ) = 0 := by rw [dval_eq hopDist_self]; rfl
  have hbound : ((reachSet g mode s c \ {s}).card : ℚ) ≤
      ∑ v ∈ reachSet g mode s c \ {s}, (dval g mode s v : ℚ) := by
    have := Finset.sum_le_sum (s := reachSet g mode s c \ {s})
      (f := fun _ => (1 : ℚ)) (g := fun v => (dval g mode s v : ℚ))
      (fun v hv => by
        rw [Finset.mem_sdiff, Finset.mem_singleton] at hv
        exact dval_pos_of_ne hv.1 hv.2)
    simpa using this
  have hcards : (reachSet g mode s c \ {s}).card =
      (reachSet g mode s c).card - 1 := by
    rw [Finset.card_sdiff (Finset.singleton_subset_iff.mpr hs),
      Finset.card_singleton]
  have hpos : 1 ≤ (reachSet g mode s c).card :=
    Finset.card_pos.mpr ⟨s, hs⟩
  rw [hsplit, hds]
  have : (((reachSet g mode s c).card - 1 : Nat) : ℚ) =
      ((reachSet g mode s c).card : ℚ) - 1 := by
    push_cast [hpos]
    ring
  rw [hcards] at hbound
  linarith [hbound, this ▸ hbound]

/-- The raw per-source distance sum of the unweighted engine vanishes
exactly on single-vertex graphs: this is the only input on which the
shared finisher divides by zero. -/
theorem bfsRawSum_eq_zero_iff (g : Graph) (mode : Nat) (cutoff : ℚ)
    (i : Nat) (m : Fin g.n → Nat) (hm : ∀ v, ¬ m v = i + 1) (s : Fin g.n)
    (last : Nat) :
    (bfsRawSum g mode cutoff i m s last = 0 ↔ g.n = 1) := by
  have hn1 : 1 ≤ g.n := s.pos
  constructor
  · intro h0
    by_contra hne
    have hn2 : 2 ≤ g.n := by omega
    rw [bfsRawSum_spec g mode cutoff s i m hm last] at h0
    have hcardle : (reachSet g mode s cutoff).card ≤ g.n := by
      have := Finset.card_le_card
        (Finset.subset_univ (reachSet g mode s cutoff))
      simpa using this
    have hgesum := reachSum_nonneg g mode s cutoff
    rcases Nat.lt_or_ge (reachSet g mode s cutoff).card g.n with hlt | hge
    · have hpen : (1 : ℚ) ≤ (g.n : ℚ) - ((reachSet g mode s cutoff).card : ℚ) := by
        have : ((reachSet g mode s cutoff).card : ℚ) + 1 ≤ (g.n : ℚ) := by
          exact_mod_cast hlt
        linarith
      have hnq : (2 : ℚ) ≤ (g.n : ℚ) := by exact_mod_cast hn2
      nlinarith
    · have hcard : (reachSet g mode s cutoff).card = g.n := by omega
      have hsum := reachSum_ge_card g mode s cutoff
      rw [hcard] at hsum
      have hnq : (2 : ℚ) ≤ (g.n : ℚ) := by exact_mod_cast hn2
      rw [hcard] at h0
      have : reachSum g mode s cutoff = 0 := by linarith [h0]
      linarith
  · intro h1
    exact bfsRawSum_one h1 mode cutoff i m hm s last

/-! ## Correctness of the weighted engine -/

theorem heapPopMax_eq_none {n : Nat} :
    ∀ l : List (Fin n × ℚ), heapPopMax l = none ↔ l = [] := by
  intro l
  cases l with
  | nil => simp [heapPopMax]
  | cons x xs =>
    simp only [heapPopMax]
    cases hp : heapPopMax xs with
    | none => simp
    | some p =>
      obtain ⟨f, r2⟩ := p
      by_cases h : f.2 ≤ x.2 <;> simp [h]

theorem heapPopMax_spec {n : Nat} :
    ∀ (l : List (Fin n × ℚ)) (e : Fin n × ℚ) (rest : List (Fin n × ℚ)),
      heapPopMax l = some (e, rest) →
      l.Perm (e :: rest) ∧ ∀ f ∈ l, f.2 ≤ e.2 := by
  intro l
  induction l with
  | nil => intro e rest h; simp [heapPopMax] at h
  | cons x xs ih =>
    intro e rest h
    simp only [heapPopMax] at h
    cases hp : heapPopMax xs with
    | none =>
      rw [hp] at h
      have hxs : xs = [] := (heapPopMax_eq_none xs).mp hp
      subst hxs
      cases h
      exact ⟨List.Perm.refl _, by intro f hf; simp at hf; rw [hf]⟩
    | some p =>
      obtain ⟨f, r2⟩ := p
      rw [hp] at h
      obtain ⟨hperm, hbound⟩ := ih f r2 hp
      change (if f.2 ≤ x.2 then some (x, xs) else some (f, x :: r2)) =
        some (e, rest) at h
      by_cases hle : f.2 ≤ x.2
      · rw [if_pos hle] at h
        cases h
        refine ⟨List.Perm.refl _, ?_⟩
        intro y hy
        rcases List.mem_cons.mp hy with rfl | hy2
        · exact le_refl _
        · exact le_trans (hbound y hy2) hle
      · rw [if_neg hle] at h
        cases h
        constructor
        · exact List.Perm.trans (List.Perm.cons x hperm)
            (List.Perm.swap _ x _)
        · intro y hy
          rcases List.mem_cons.mp hy with rfl | hy2
          · exact le_of_lt (lt_of_not_le hle)
          · exact hbound y hy2

theorem heapPopMax_mem {n : Nat} {l rest : List (Fin n × ℚ)}
    {e : Fin n × ℚ} (h : heapPopMax l = some (e, rest)) : e ∈ l :=
  ((heapPopMax_spec l e rest h).1.mem_iff).mpr (List.mem_cons_self _ _)

theorem heapPopMax_rest_subset {n : Nat} {l rest : List (Fin n × ℚ)}
    {e : Fin n × ℚ} (h : heapPopMax l = some (e, rest)) :
    ∀ f ∈ rest, f ∈ l :=
  fun f hf => ((heapPopMax_spec l e rest h).1.mem_iff).mpr
    (List.mem_cons_of_mem _ hf)

theorem heapPopMax_length {n : Nat} {l rest : List (Fin n × ℚ)}
    {e : Fin n × ℚ} (h : heapPopMax l = some (e, rest)) :
    l.length = rest.length + 1 := by
  have := (heapPopMax_spec l e rest h).1.length_eq
  simpa using this

theorem mem_foldr_sel {α β : Type} (sel : α → List β) :
    ∀ (l : List α) (x : β),
      x ∈ l.foldr (fun e acc => sel e ++ acc) [] → ∃ a ∈ l, x ∈ sel a := by
  intro l
  induction l with
  | nil => intro x hx; simp at hx
  | cons a l ih =>
    intro x hx
    simp only [List.foldr_cons, List.mem_append] at hx
    rcases hx with hx | hx
    · exact ⟨a, List.mem_cons_self _ _, hx⟩
    · obtain ⟨b, hb, hxb⟩ := ih x hx
      exact ⟨b, List.mem_cons_of_mem _ hb, hxb⟩

/-- Every edge id the incidence list produces indexes into the edge list. -/
theorem incEdges_lt (g : Graph) (mode : Nat) (v : Fin g.n) :
    ∀ eid ∈ incEdges g mode v, eid < g.edges.length := by
  intro eid hmem
  rw [incEdges] at hmem
  obtain ⟨a, ha, hsel⟩ := mem_foldr_sel _ _ _ hmem
  have halt : a < g.edges.length := List.mem_range.mp ha
  have : eid = a := by
    rw [incSel] at hsel
    rcases hget : g.edges.get? a with _ | e
    · rw [hget] at hsel; simp at hsel
    · rw [hget] at hsel
      split_ifs at hsel <;> simp at hsel <;> omega
  rw [this]
  exact halt

theorem filter_length_map_le {α : Type} (f : α → α) (p : α → Bool)
    (hf : ∀ x, f x = x ∨ p (f x) = false) :
    ∀ l : List α, ((l.map f).filter p).length ≤ (l.filter p).length := by
  intro l
  induction l with
  | nil => simp
  | cons x xs ih =>
    simp only [List.map_cons, List.filter_cons]
    rcases hf x with h | h
    · rw [h]
      by_cases hp : p x = true
      · rw [if_pos hp, if_pos hp]
        simp only [List.length_cons]
        omega
      · rw [if_neg hp, if_neg hp]
        exact ih
    · by_cases hp : p x = true
      · rw [if_neg (by simp [h]), if_pos hp]
        simp only [List.length_cons]
        omega
      · rw [if_neg (by simp [h]), if_neg hp]
        exact ih

/-- General specification of the edge-relaxation scan: it marks and pushes
exactly the unmarked endpoints (one heap entry per new mark), every stored
distance it writes (push or decrease-key) is at least 1 + minw when the
popped distance is at least 1 and all weights are at least minw, and the
number of heap entries with a stored distance below 1 + minw cannot
grow. -/
theorem djRelax_spec (g : Graph) (w : List ℚ) (i : Nat) (v : Fin g.n)
    (mind minw : ℚ)
    (hw : ∀ eid, eid < g.edges.length → minw ≤ w.getD eid 0)
    (hmind : 1 ≤ mind) :
    ∀ (es : List Nat) (wh : Fin g.n → Nat) (ds : Fin g.n → ℚ)
      (h : List (Fin g.n × ℚ)),
      (∀ eid ∈ es, eid < g.edges.length) →
      ∃ news : List (Fin g.n),
        (∀ u, (djRelax g w i v mind es wh ds h).1 u =
          if u ∈ news then i + 1 else wh u) ∧
        news.Nodup ∧
        (∀ u ∈ news, ¬ wh u = i + 1) ∧
        (djRelax g w i v mind es wh ds h).2.2.length =
          h.length + news.length ∧
        (∀ e2 ∈ (djRelax g w i v mind es wh ds h).2.2,
          e2 ∈ h ∨ 1 + minw ≤ -e2.2) ∧
        ((djRelax g w i v mind es wh ds h).2.2.filter
            (fun e2 => decide (-e2.2 < 1 + minw))).length ≤
          (h.filter (fun e2 => decide (-e2.2 < 1 + minw))).length := by
  intro es
  induction es with
  | nil =>
    intro wh ds h _
    exact ⟨[], fun u => by simp [djRelax], List.nodup_nil,
      fun u hu => absurd hu (List.not_mem_nil u),
      by simp [djRelax],
      fun e2 he2 => Or.inl he2,
      le_refl _⟩
  | cons eid es ih =>
    intro wh ds h hes
    have heid : eid < g.edges.length := hes eid (List.mem_cons_self _ _)
    have hes2 : ∀ e2 ∈ es, e2 < g.edges.length :=
      fun e2 he2 => hes e2 (List.mem_cons_of_mem _ he2)
    have halt : 1 + minw ≤ mind + w.getD eid 0 := by
      have := hw eid heid
      linarith
    by_cases hwt : wh (otherV g eid v) = i + 1
    · -- already seen for this source
      by_cases hcmp : (if ds (otherV g eid v) = 0 then (-1 : Int)
          else igraph_cmp_epsilon (mind + w.getD eid 0) (ds (otherV g eid v))
            IGRAPH_SHORTEST_PATH_EPSILON) < 0
      · -- decrease-key
        obtain ⟨news, p1, p2, p3, p4, p5, p6⟩ :=
          ih wh (Function.update ds (otherV g eid v) (mind + w.getD eid 0))
            (h.map fun e => if e.1 = otherV g eid v
              then (otherV g eid v, -(mind + w.getD eid 0)) else e) hes2
        have hstep : djRelax g w i v mind (eid :: es) wh ds h =
            djRelax g w i v mind es wh
              (Function.update ds (otherV g eid v) (mind + w.getD eid 0))
              (h.map fun e => if e.1 = otherV g eid v
                then (otherV g eid v, -(mind + w.getD eid 0)) else e) := by
          simp only [djRelax]
          rw [if_neg (by simpa using hwt), if_pos hcmp]
        rw [hstep]
        refine ⟨news, p1, p2, p3, ?_, ?_, ?_⟩
        · rw [p4]; simp
        · intro e2 he2
          rcases p5 e2 he2 with h5 | h5
          · obtain ⟨e0, he0, he0eq⟩ := List.mem_map.mp h5
            by_cases h0 : e0.1 = otherV g eid v
            · rw [if_pos h0] at he0eq
              right
              rw [← he0eq]
              simpa using halt
            · rw [if_neg h0] at he0eq
              exact Or.inl (he0eq ▸ he0)
          · exact Or.inr h5
        · refine le_trans p6 ?_
          apply filter_length_map_le
          intro x
          by_cases h0 : x.1 = otherV g eid v
          · right
            rw [if_pos h0]
            simp only [decide_eq_false_iff_not, not_lt]
            simpa using halt
          · left
            rw [if_neg h0]
      · -- no improvement
        obtain ⟨news, p1, p2, p3, p4, p5, p6⟩ := ih wh ds h hes2
        have hstep : djRelax g w i v mind (eid :: es) wh ds h =
            djRelax g w i v mind es wh ds h := by
          simp only [djRelax]
          rw [if_neg (by simpa using hwt), if_neg hcmp]
        rw [hstep]
        exact ⟨news, p1, p2, p3, p4, p5, p6⟩
    · -- first visit: push
      obtain ⟨news, p1, p2, p3, p4, p5, p6⟩ :=
        ih (Function.update wh (otherV g eid v) (i + 1))
          (Function.update ds (otherV g eid v) (mind + w.getD eid 0))
          (h ++ [(otherV g eid v, -(mind + w.getD eid 0))]) hes2
      have hstep : djRelax g w i v mind (eid :: es) wh ds h =
          djRelax g w i v mind es
            (Function.update wh (otherV g eid v) (i + 1))
            (Function.update ds (otherV g eid v) (mind + w.getD eid 0))
            (h ++ [(otherV g eid v, -(mind + w.getD eid 0))]) := by
        simp only [djRelax]
        rw [if_pos hwt]
      have htovnews : otherV g eid v ∉ news := by
        intro hc
        exact p3 _ hc (by simp [Function.update])
      rw [hstep]
      refine ⟨otherV g eid v :: news, ?_, List.nodup_cons.mpr ⟨htovnews, p2⟩,
        ?_, ?_, ?_, ?_⟩
      · intro u
        rw [p1 u]
        by_cases hu : u = otherV g eid v
        · subst hu
          simp [Function.update, htovnews]
        · by_cases hun : u ∈ news
          · simp [hun, List.mem_cons, hu]
          · simp [hun, List.mem_cons, hu, Function.update, hu]
      · intro u hu
        rcases List.mem_cons.mp hu with rfl | hu2
        · exact hwt
        · intro hc
          apply p3 u hu2
          have hune : u ≠ otherV g eid v := by
            intro hceq
            subst hceq
            exact htovnews hu2
          simpa [Function.update, hune] using hc
      · rw [p4]
        simp only [List.length_append, List.length_cons, List.length_nil,
          List.length_singleton]
        omega
      · intro e2 he2
        rcases p5 e2 he2 with h5 | h5
        · rcases List.mem_append.mp h5 with h6 | h6
          · exact Or.inl h6
          · simp only [List.mem_singleton] at h6
            right
            rw [h6]
            simpa using halt
        · exact Or.inr h5
      · refine le_trans p6 ?_
        rw [List.filter_append]
        have : ([(otherV g eid v, -(mind + w.getD eid 0))].filter
            (fun e2 => decide (-e2.2 < 1 + minw))) = [] := by
          simp only [List.filter_cons, List.filter_nil]
          rw [if_neg ?_]
          simp only [decide_eq_true_eq, not_lt]
          simpa using halt
        rw [this]
        simp

/-- Bound on the unmarked count after stamping one vertex. -/
theorem unmCard_update_le {n : Nat} (i : Nat) (wh : Fin n → Nat) (s : Fin n) :
    unmCard i (Function.update wh s (i + 1)) ≤ n - 1 := by
  have hsub : (Finset.univ.filter
      (fun v : Fin n => ¬ Function.update wh s (i + 1) v = i + 1)) ⊆
      Finset.univ.erase s := by
    intro v hv
    simp only [Finset.mem_filter, Finset.mem_univ, true_and] at hv
    rw [Finset.mem_erase]
    refine ⟨?_, Finset.mem_univ v⟩
    intro hc
    subst hc
    exact hv (by simp [Function.update])
  have := Finset.card_le_card hsub
  rw [Finset.card_erase_of_mem (Finset.mem_univ s)] at this
  simpa [unmCard, Finset.card_univ] using this

/-- Safety bounds for the weighted engine's loop: the distance sum never
decreases, the pop count plus heap size plus unmarked count never grows,
and every pop beyond the single entry stored below 1 + minw contributes at
least minw to the sum. -/
theorem djStep_pos (g : Graph) (mode : Nat) (w : List ℚ) (i : Nat)
    (cutoff minw : ℚ) (hminw : 0 < minw)
    (hw : ∀ eid, eid < g.edges.length → minw ≤ w.getD eid 0) :
    ∀ (fuel : Nat) (st : DjSt g.n),
      (∀ e ∈ st.heap, 1 ≤ -e.2) →
      st.dsum ≤ (djStep g mode w i cutoff fuel st).dsum ∧
      (djStep g mode w i cutoff fuel st).reached +
        (djStep g mode w i cutoff fuel st).heap.length +
        unmCard i (djStep g mode w i cutoff fuel st).which ≤
        st.reached + st.heap.length + unmCard i st.which ∧
      st.dsum + minw * ((((djStep g mode w i cutoff fuel st).reached : ℚ) -
        (st.reached : ℚ)) -
        ((st.heap.filter (fun e2 => decide (-e2.2 < 1 + minw))).length : ℚ))
        ≤ (djStep g mode w i cutoff fuel st).dsum := by
  intro fuel
  induction fuel with
  | zero =>
    intro st _
    have hstep : djStep g mode w i cutoff 0 st = st := rfl
    rw [hstep]
    refine ⟨le_refl _, le_refl _, ?_⟩
    have h1 : (0 : ℚ) ≤
        ((st.heap.filter (fun e2 => decide (-e2.2 < 1 + minw))).length : ℚ) := by
      positivity
    nlinarith
  | succ fuel ih =>
    intro st hinv
    cases hp : heapPopMax st.heap with
    | none =>
      have hstep : djStep g mode w i cutoff (fuel + 1) st = st := by
        simp [djStep, hp]
      rw [hstep]
      refine ⟨le_refl _, le_refl _, ?_⟩
      have h1 : (0 : ℚ) ≤
          ((st.heap.filter (fun e2 => decide (-e2.2 < 1 + minw))).length : ℚ) := by
        positivity
      nlinarith
    | some p =>
      obtain ⟨⟨v, key⟩, h2⟩ := p
      have hmem : (v, key) ∈ st.heap := heapPopMax_mem hp
      have hstored : 1 ≤ -key := hinv (v, key) hmem
      have hsub2 : ∀ f ∈ h2, f ∈ st.heap := heapPopMax_rest_subset hp
      have hinv2 : ∀ e ∈ h2, 1 ≤ -e.2 := fun e he => hinv e (hsub2 e he)
      have hlen : st.heap.length = h2.length + 1 := heapPopMax_length hp
      have hlowsplit :
          (st.heap.filter (fun e2 => decide (-e2.2 < 1 + minw))).length =
          (if -key < 1 + minw then 1 else 0) +
          (h2.filter (fun e2 => decide (-e2.2 < 1 + minw))).length := by
        have hperm := (heapPopMax_spec st.heap (v, key) h2 hp).1
        have := (hperm.filter (fun e2 => decide (-e2.2 < 1 + minw))).length_eq
        rw [this]
        simp only [List.filter_cons]
        by_cases hlow : -key < 1 + minw
        · rw [if_pos (by simpa using hlow), if_pos hlow]
          simp only [List.length_cons]
          omega
        · rw [if_neg (by simpa using hlow), if_neg hlow]
          omega
      by_cases hcut : 0 ≤ cutoff ∧ cutoff + 1 < -key
      · -- cutoff exceeded: no relaxation
        have hstep : djStep g mode w i cutoff (fuel + 1) st =
            djStep g mode w i cutoff fuel
              ⟨h2, st.which, st.dist, st.dsum + (-key - 1), st.reached + 1,
                -key⟩ := by
          simp [djStep, hp, if_pos hcut]
        obtain ⟨a1, a2, a3⟩ := ih ⟨h2, st.which, st.dist,
          st.dsum + (-key - 1), st.reached + 1, -key⟩ hinv2
        rw [hstep]
        refine ⟨?_, ?_, ?_⟩
        · refine le_trans ?_ a1
          dsimp only
          linarith
        · refine le_trans a2 ?_
          dsimp only
          omega
        · dsimp only at a3
          rw [hlowsplit]
          by_cases hlow : -key < 1 + minw
          · rw [if_pos hlow]
            push_cast at a3 ⊢
            ring_nf at a3 ⊢
            linarith [a3, hstored]
          · rw [if_neg hlow]
            have hkey2 : 1 + minw ≤ -key := not_lt.mp hlow
            push_cast at a3 ⊢
            ring_nf at a3 ⊢
            linarith [a3, hkey2]
      · -- relax the incident edges
        obtain ⟨news, p1, p2, p3, p4, p5, p6⟩ :=
          djRelax_spec g w i v (-key) minw hw hstored (incEdges g mode v)
            st.which st.dist h2 (incEdges_lt g mode v)
        have hstep : djStep g mode w i cutoff (fuel + 1) st =
            djStep g mode w i cutoff fuel
              ⟨(djRelax g w i v (-key) (incEdges g mode v) st.which st.dist
                  h2).2.2,
               (djRelax g w i v (-key) (incEdges g mode v) st.which st.dist
                  h2).1,
               (djRelax g w i v (-key) (incEdges g mode v) st.which st.dist
                  h2).2.1,
               st.dsum + (-key - 1), st.reached + 1, -key⟩ := by
          simp [djStep, hp, if_neg hcut]
        have hinv3 : ∀ e ∈ (djRelax g w i v (-key) (incEdges g mode v)
            st.which st.dist h2).2.2, 1 ≤ -e.2 := by
          intro e he
          rcases p5 e he with h5 | h5
          · exact hinv2 e h5
          · linarith
        have humc := unmCard_after_news p1 p2 p3
        obtain ⟨a1, a2, a3⟩ := ih ⟨(djRelax g w i v (-key) (incEdges g mode v)
            st.which st.dist h2).2.2,
          (djRelax g w i v (-key) (incEdges g mode v) st.which st.dist h2).1,
          (djRelax g w i v (-key) (incEdges g mode v) st.which st.dist h2).2.1,
          st.dsum + (-key - 1), st.reached + 1, -key⟩ hinv3
        rw [hstep]
        refine ⟨?_, ?_, ?_⟩
        · refine le_trans ?_ a1
          dsimp only
          linarith
        · refine le_trans a2 ?_
          dsimp only
          omega
        · dsimp only at a3
          rw [hlowsplit]
          have hlowle : ((((djRelax g w i v (-key) (incEdges g mode v)
              st.which st.dist h2).2.2).filter
              (fun e2 => decide (-e2.2 < 1 + minw))).length : ℚ) ≤
              ((h2.filter (fun e2 => decide (-e2.2 < 1 + minw))).length : ℚ) := by
            exact_mod_cast p6
          have hprod : minw * ((((djRelax g w i v (-key) (incEdges g mode v)
              st.which st.dist h2).2.2).filter
              (fun e2 => decide (-e2.2 < 1 + minw))).length : ℚ) ≤
              minw * ((h2.filter
                (fun e2 => decide (-e2.2 < 1 + minw))).length : ℚ) :=
            mul_le_mul_of_nonneg_left hlowle hminw.le
          by_cases hlow : -key < 1 + minw
          · rw [if_pos hlow]
            push_cast at a3 ⊢
            ring_nf at a3 hprod ⊢
            linarith [a3, hstored, hprod]
          · rw [if_neg hlow]
            have hkey2 : 1 + minw ≤ -key := not_lt.mp hlow
            push_cast at a3 ⊢
            ring_nf at a3 hprod ⊢
            linarith [a3, hkey2, hprod]

theorem djStep_empty (g : Graph) (mode : Nat) (w : List ℚ) (i : Nat)
    (cutoff : ℚ) : ∀ (fuel : Nat) (st : DjSt g.n), st.heap = [] →
    djStep g mode w i cutoff fuel st = st := by
  intro fuel st hh
  cases fuel with
  | zero => rfl
  | succ fuel =>
    have : heapPopMax st.heap = none := by rw [hh]; rfl
    simp [djStep, this]

theorem eps_pos : (0 : ℚ) < IGRAPH_SHORTEST_PATH_EPSILON := by
  norm_num [IGRAPH_SHORTEST_PATH_EPSILON]

/-- On a single-vertex graph relaxation does nothing: every incident edge
loops back to the marked source, whose stored distance cannot improve when
weights are positive. -/
theorem djRelax_one (g : Graph) (hn : g.n = 1) (w : List ℚ) (i : Nat)
    (s : Fin g.n) (hw : ∀ eid, eid < g.edges.length → 0 < w.getD eid 0) :
    ∀ (es : List Nat), (∀ eid ∈ es, eid < g.edges.length) →
    ∀ (wh : Fin g.n → Nat) (ds : Fin g.n → ℚ) (h : List (Fin g.n × ℚ)),
      wh s = i + 1 → ds s = 1 →
      djRelax g w i s 1 es wh ds h = (wh, ds, h) := by
  intro es
  induction es with
  | nil => intro _ wh ds h _ _; rfl
  | cons eid es ih =>
    intro hes wh ds h hwh hds
    have heid : eid < g.edges.length := hes eid (List.mem_cons_self _ _)
    have htov : otherV g eid s = s := by
      apply Fin.ext
      have h1 := (otherV g eid s).isLt
      have h2 := s.isLt
      omega
    have hwt : ¬ (wh (otherV g eid s) ≠ i + 1) := by
      rw [htov, hwh]
      simp
    have hcmp : ¬ ((if ds (otherV g eid s) = 0 then (-1 : Int)
        else igraph_cmp_epsilon (1 + w.getD eid 0) (ds (otherV g eid s))
          IGRAPH_SHORTEST_PATH_EPSILON) < 0) := by
      rw [htov, hds]
      have hwpos := hw eid heid
      have heps := eps_pos
      rw [if_neg (by norm_num)]
      rw [igraph_cmp_epsilon]
      by_cases h1 : IGRAPH_SHORTEST_PATH_EPSILON < 1 + w.getD eid 0 - 1
      · rw [if_pos h1]; omega
      · rw [if_neg h1, if_neg (by linarith)]
        omega
    simp only [djRelax]
    rw [if_neg hwt, if_neg hcmp]
    exact ih (fun e2 he2 => hes e2 (List.mem_cons_of_mem _ he2)) wh ds h hwh hds

/-- On a single-vertex graph the weighted per-source raw distance sum is
zero: the source pops with stored distance one, contributing zero, and
nothing else is ever queued. -/
theorem djRawSum_one (g : Graph) (hn : g.n = 1) (mode : Nat) (w : List ℚ)
    (cutoff : ℚ) (hw : ∀ eid, eid < g.edges.length → 0 < w.getD eid 0)
    (i : Nat) (wh : Fin g.n → Nat) (ds : Fin g.n → ℚ) (s : Fin g.n)
    (mind0 : ℚ) : djRawSum g mode w cutoff i wh ds s mind0 = 0 := by
  have hpop : heapPopMax ([(s, (-1 : ℚ))]) = some ((s, -1), []) := rfl
  have hcut : ¬ (0 ≤ cutoff ∧ cutoff + 1 < -(-1 : ℚ)) := by
    rintro ⟨h1, h2⟩
    norm_num at h2
    linarith
  have hfuel : 1 + 2 * g.n = 2 * g.n + 1 := by omega
  have hrelax := djRelax_one g hn w i s hw (incEdges g mode s)
    (incEdges_lt g mode s) (Function.update wh s (i + 1))
    (Function.update ds s 1) []
    (by simp [Function.update]) (by simp [Function.update])
  have hstep : djSource g mode w cutoff i wh ds s mind0 =
      ⟨[], Function.update wh s (i + 1), Function.update ds s 1,
        0 + (-(-1 : ℚ) - 1), 0 + 1, -(-1 : ℚ)⟩ := by
    rw [djSource, hfuel]
    simp only [djStep, hpop]
    rw [if_neg hcut]
    have h1 : (-(-1 : ℚ)) = 1 := by norm_num
    rw [show (djRelax g w i s (-(-1 : ℚ)) (incEdges g mode s)
        (Function.update wh s (i + 1)) (Function.update ds s 1) []) =
        (Function.update wh s (i + 1), Function.update ds s 1, []) from by
      rw [h1]; exact hrelax]
    exact djStep_empty g mode w i cutoff _ _ rfl
  rw [djRawSum, hstep]
  dsimp only
  rw [hn]
  norm_num

/-- On graphs with at least two vertices the weighted per-source raw
distance sum is strictly positive for every cutoff: the penalty term is
positive whenever not all vertices pop, and every pop after the source
contributes at least the minimum weight. -/
theorem djRawSum_pos (g : Graph) (mode : Nat) (w : List ℚ)
    (cutoff minw : ℚ) (hminw : 0 < minw)
    (hw : ∀ eid, eid < g.edges.length → minw ≤ w.getD eid 0)
    (hn : 2 ≤ g.n) (i : Nat) (wh : Fin g.n → Nat) (ds : Fin g.n → ℚ)
    (s : Fin g.n) (mind0 : ℚ) :
    0 < djRawSum g mode w cutoff i wh ds s mind0 := by
  have hinv : ∀ e ∈ ([(s, (-1 : ℚ))]), 1 ≤ -e.2 := by
    intro e he
    simp only [List.mem_singleton] at he
    rw [he]
    norm_num
  obtain ⟨a1, a2, a3⟩ := djStep_pos g mode w i cutoff minw hminw hw
    (1 + 2 * g.n) ⟨[(s, -1)], Function.update wh s (i + 1),
      Function.update ds s 1, 0, 0, mind0⟩ hinv
  have hlow0 : (([(s, (-1 : ℚ))]).filter
      (fun e2 => decide (-e2.2 < 1 + minw))).length = 1 := by
    have hc : -((s, (-1 : ℚ))).2 < 1 + minw := by
      simp only
      norm_num
      linarith
    simp only [List.filter_cons, List.filter_nil]
    rw [if_pos (by simpa using hc)]
    rfl
  dsimp only at a1 a2 a3
  rw [hlow0] at a3
  have hunm := unmCard_update_le i wh s
  have hreach : (djStep g mode w i cutoff (1 + 2 * g.n)
      ⟨[(s, -1)], Function.update wh s (i + 1), Function.update ds s 1,
        0, 0, mind0⟩).reached ≤ g.n := by
    simp only [List.length_singleton] at a2
    omega
  rw [djRawSum]
  show 0 < (djSource g mode w cutoff i wh ds s mind0).dsum +
    (g.n : ℚ) * ((g.n : ℚ) - ((djSource g mode w cutoff i wh ds s mind0).reached : ℚ))
  have hsrc : djSource g mode w cutoff i wh ds s mind0 =
      djStep g mode w i cutoff (1 + 2 * g.n)
        ⟨[(s, -1)], Function.update wh s (i + 1), Function.update ds s 1,
          0, 0, mind0⟩ := rfl
  rw [hsrc]
  rcases Nat.lt_or_ge (djStep g mode w i cutoff (1 + 2 * g.n)
      ⟨[(s, -1)], Function.update wh s (i + 1), Function.update ds s 1,
        0, 0, mind0⟩).reached g.n with hlt | hge
  · have hq : ((djStep g mode w i cutoff (1 + 2 * g.n)
        ⟨[(s, -1)], Function.update wh s (i + 1), Function.update ds s 1,
          0, 0, mind0⟩).reached : ℚ) + 1 ≤ (g.n : ℚ) := by
      exact_mod_cast hlt
    have hnq : (2 : ℚ) ≤ (g.n : ℚ) := by exact_mod_cast hn
    nlinarith
  · have heq : (djStep g mode w i cutoff (1 + 2 * g.n)
        ⟨[(s, -1)], Function.update wh s (i + 1), Function.update ds s 1,
          0, 0, mind0⟩).reached = g.n := by omega
    rw [heq] at a3 ⊢
    have hnq : (2 : ℚ) ≤ (g.n : ℚ) := by exact_mod_cast hn
    push_cast at a3
    nlinarith

/-- The weighted per-source raw distance sum vanishes exactly on
single-vertex graphs, for every choice of positive weights and cutoff. -/
theorem djRawSum_eq_zero_iff (g : Graph) (mode : Nat) (w : List ℚ)
    (cutoff minw : ℚ) (hminw : 0 < minw)
    (hw : ∀ eid, eid < g.edges.length → minw ≤ w.getD eid 0)
    (i : Nat) (wh : Fin g.n → Nat) (ds : Fin g.n → ℚ) (s : Fin g.n)
    (mind0 : ℚ) :
    (djRawSum g mode w cutoff i wh ds s mind0 = 0 ↔ g.n = 1) := by
  constructor
  · intro h0
    by_contra hne
    have hn2 : 2 ≤ g.n := by
      have := s.pos
      omega
    have := djRawSum_pos g mode w cutoff minw hminw hw hn2 i wh ds s mind0
    linarith
  · intro h1
    exact djRawSum_one g h1 mode w cutoff
      (fun eid heid => lt_of_lt_of_le hminw (hw eid heid)) i wh ds s mind0

theorem mem_foldr_sel_of {α β : Type} (sel : α → List β) :
    ∀ (l : List α) (a : α) (x : β), a ∈ l → x ∈ sel a →
      x ∈ l.foldr (fun e acc => sel e ++ acc) [] := by
  intro l
  induction l with
  | nil => intro a x ha _; simp at ha
  | cons b l ih =>
    intro a x ha hx
    simp only [List.foldr_cons, List.mem_append]
    rcases List.mem_cons.mp ha with rfl | ha2
    · exact Or.inl hx
    · exact Or.inr (ih a x ha2 hx)

/-- The endpoints reached through the incidence list are exactly the
adjacency-list neighbors: the two views of the graph used by the weighted
and the unweighted engine agree. -/
theorem mem_incEdges_otherV_iff (g : Graph) (mode : Nat) (v t : Fin g.n) :
    (∃ eid ∈ incEdges g mode v, otherV g eid v = t) ↔
      t ∈ neighbors g mode v := by
  constructor
  · rintro ⟨eid, hmem, rfl⟩
    rw [incEdges] at hmem
    obtain ⟨a, ha, hsel⟩ := mem_foldr_sel _ _ _ hmem
    clear hmem
    rw [incSel] at hsel
    rcases hget : g.edges.get? a with _ | e
    · rw [hget] at hsel; simp at hsel
    · rw [hget] at hsel
      simp only at hsel
      have heida : eid = a := by
        split_ifs at hsel <;> simp at hsel <;> omega
      subst heida
      have hememe : e ∈ g.edges := List.get?_mem hget
      have hother : otherV g eid v = if v = e.1 then e.2 else e.1 := by
        rw [otherV, hget]
      rw [neighbors, hother]
      apply mem_foldr_sel_of (nbrSel g mode v) g.edges e _ hememe
      rw [nbrSel]
      by_cases hb1 : (!g.directed || mode == 3) = true
      · rw [if_pos hb1] at hsel ⊢
        by_cases h1 : e.1 = v
        · rw [if_pos h1, if_pos h1.symm]
          simp
        · have h1' : ¬ v = e.1 := fun h => h1 h.symm
          rw [if_neg h1, if_neg h1']
          rw [if_neg h1] at hsel
          by_cases h2 : e.2 = v
          · rw [if_pos h2]; simp
          · rw [if_neg h2] at hsel; simp at hsel
      · rw [if_neg hb1] at hsel ⊢
        by_cases hb2 : (mode == 1) = true
        · rw [if_pos hb2] at hsel ⊢
          by_cases h1 : e.1 = v
          · rw [if_pos h1, if_pos h1.symm]; simp
          · rw [if_neg h1] at hsel; simp at hsel
        · rw [if_neg hb2] at hsel ⊢
          by_cases h2 : e.2 = v
          · rw [if_pos h2]
            by_cases h1 : v = e.1
            · rw [if_pos h1]
              simp [h2.trans h1]
            · rw [if_neg h1]; simp
          · rw [if_neg h2] at hsel; simp at hsel
  · intro ht
    rw [neighbors] at ht
    obtain ⟨e, he, hsel⟩ := mem_foldr_sel _ _ _ ht
    clear ht
    rw [nbrSel] at hsel
    obtain ⟨a, hget⟩ := List.mem_iff_get?.mp he
    have halen : a < g.edges.length := by
      rcases List.get?_eq_some.mp hget with ⟨h, _⟩
      exact h
    have hother : otherV g a v = if v = e.1 then e.2 else e.1 := by
      rw [otherV, hget]
    have hinc : (e.1 = v ∨ e.2 = v) → a ∈ incEdges g mode v := by
      intro hend
      rw [incEdges]
      apply mem_foldr_sel_of (incSel g mode v) _ a _ (List.mem_range.mpr halen)
      rw [incSel, hget]
      simp only
      by_cases hb1 : (!g.directed || mode == 3) = true
      · rw [if_pos hb1]
        rcases hend with h1 | h2
        · rw [if_pos h1]; simp
        · rw [if_pos h2]; simp
      · rw [if_neg hb1] at hsel ⊢
        by_cases hb2 : (mode == 1) = true
        · rw [if_pos hb2] at hsel ⊢
          by_cases h1 : e.1 = v
          · rw [if_pos h1]; simp
          · rw [if_neg h1] at hsel; simp at hsel
        · rw [if_neg hb2] at hsel ⊢
          by_cases h2 : e.2 = v
          · rw [if_pos h2]; simp
          · rw [if_neg h2] at hsel; simp at hsel
    by_cases hb1 : (!g.directed || mode == 3) = true
    · rw [if_pos hb1] at hsel
      by_cases h1 : e.1 = v
      · rw [if_pos h1] at hsel
        by_cases h2 : e.2 = v
        · rw [if_pos h2] at hsel
          simp at hsel
          refine ⟨a, hinc (Or.inl h1), ?_⟩
          rw [hother, if_pos h1.symm]
          rcases hsel with h | h
          · exact h.symm
          · rw [h, h2, h1]
        · rw [if_neg h2] at hsel
          simp at hsel
          refine ⟨a, hinc (Or.inl h1), ?_⟩
          rw [hother, if_pos h1.symm, hsel]
      · rw [if_neg h1] at hsel
        by_cases h2 : e.2 = v
        · rw [if_pos h2] at hsel
          simp at hsel
          refine ⟨a, hinc (Or.inr h2), ?_⟩
          have h1' : ¬ v = e.1 := fun h => h1 h.symm
          rw [hother, if_neg h1', hsel]
        · rw [if_neg h2] at hsel; simp at hsel
    · rw [if_neg hb1] at hsel
      by_cases hb2 : (mode == 1) = true
      · rw [if_pos hb2] at hsel
        by_cases h1 : e.1 = v
        · rw [if_pos h1] at hsel
          simp at hsel
          refine ⟨a, hinc (Or.inl h1), ?_⟩
          rw [hother, if_pos h1.symm, hsel]
        · rw [if_neg h1] at hsel; simp at hsel
      · rw [if_neg hb2] at hsel
        by_cases h2 : e.2 = v
        · rw [if_pos h2] at hsel
          simp at hsel
          refine ⟨a, hinc (Or.inr h2), ?_⟩
          rw [hother, hsel]
          by_cases h1 : v = e.1
          · rw [if_pos h1, ← h1, h2]
          · rw [if_neg h1]
        · rw [if_neg h2] at hsel; simp at hsel

/-! ## Unit weights: the weighted engine refines the unweighted engine -/

/-- The entry a breadth-first queue element corresponds to in the weighted
engine's heap: the same vertex with key -(distance + 1), the negated stored
distance. -/
def qKey {n : Nat} (p : Fin n × Nat) : Fin n × ℚ := (p.1, -((p.2 : ℚ) + 1))

theorem foldr_sel_map {α β γ : Type} (f : β → γ) (sel : α → List β) :
    ∀ l : List α,
      (l.foldr (fun e acc => sel e ++ acc) []).map f =
        l.foldr (fun e acc => (sel e).map f ++ acc) []
  | [] => rfl
  | e :: tl => by
    simp only [List.foldr_cons, List.map_append]
    rw [foldr_sel_map f sel tl]

theorem foldr_range_sel {E β : Type} :
    ∀ (l : List E) (F : Nat → List β) (G : E → List β),
      (∀ i e, l.get? i = some e → F i = G e) →
      (List.range l.length).foldr (fun i acc => F i ++ acc) []
        = l.foldr (fun e acc => G e ++ acc) []
  | [], _, _, _ => rfl
  | e :: tl, F, G, h => by
    rw [List.length_cons, List.range_succ_eq_map, List.foldr_cons,
      List.foldr_map]
    rw [h 0 e rfl]
    simp only [Nat.succ_eq_add_one]
    congr 1
    exact foldr_range_sel tl (fun i => F (i + 1)) G
      (fun i e2 hi => h (i + 1) e2 hi)

/-- The incidence view composed with the other-endpoint map produces the
adjacency list exactly, elementwise and in the same order. -/
theorem incEdges_map_otherV (g : Graph) (mode : Nat) (v : Fin g.n) :
    (incEdges g mode v).map (fun eid => otherV g eid v) =
      neighbors g mode v := by
  rw [incEdges, neighbors, foldr_sel_map]
  apply foldr_range_sel
  intro i e hi
  simp only [incSel, hi, nbrSel]
  by_cases hb1 : (!g.directed || mode == 3) = true
  · rw [if_pos hb1, if_pos hb1, List.map_append]
    congr 1
    · by_cases h1 : e.1 = v
      · rw [if_pos h1, if_pos h1]
        simp only [List.map_cons, List.map_nil, otherV, hi]
        rw [if_pos h1.symm]
      · rw [if_neg h1, if_neg h1]; rfl
    · by_cases h2 : e.2 = v
      · rw [if_pos h2, if_pos h2]
        simp only [List.map_cons, List.map_nil, otherV, hi]
        by_cases h1 : v = e.1
        · rw [if_pos h1, h2, h1]
        · rw [if_neg h1]
      · rw [if_neg h2, if_neg h2]; rfl
  · rw [if_neg hb1, if_neg hb1]
    by_cases hb2 : (mode == 1) = true
    · rw [if_pos hb2, if_pos hb2]
      by_cases h1 : e.1 = v
      · rw [if_pos h1, if_pos h1]
        simp only [List.map_cons, List.map_nil, otherV, hi]
        rw [if_pos h1.symm]
      · rw [if_neg h1, if_neg h1]; rfl
    · rw [if_neg hb2, if_neg hb2]
      by_cases h2 : e.2 = v
      · rw [if_pos h2, if_pos h2]
        simp only [List.map_cons, List.map_nil, otherV, hi]
        by_cases h1 : v = e.1
        · rw [if_pos h1, h2, h1]
        · rw [if_neg h1]
      · rw [if_neg h2, if_neg h2]; rfl

/-- When the head of the heap list carries a maximal key the pop removes
exactly the head. -/
theorem heapPopMax_head {n : Nat} (e : Fin n × ℚ) (rest : List (Fin n × ℚ))
    (h : ∀ f ∈ rest, f.2 ≤ e.2) : heapPopMax (e :: rest) = some (e, rest) := by
  cases hp : heapPopMax rest with
  | none =>
    have hnil : rest = [] := (heapPopMax_eq_none rest).mp hp
    subst hnil
    rfl
  | some p =>
    obtain ⟨f, r2⟩ := p
    have hmem : f ∈ rest := heapPopMax_mem hp
    simp only [heapPopMax, hp]
    rw [if_pos (h f hmem)]

theorem getD_replicate_one :
    ∀ (len eid : Nat), eid < len →
      (List.replicate len (1 : ℚ)).getD eid 0 = 1
  | 0, _, h => absurd h (Nat.not_lt_zero _)
  | _ + 1, 0, _ => rfl
  | len + 1, eid + 1, h => by
    simp only [List.replicate_succ, List.getD_cons_succ]
    exact getD_replicate_one len eid (by omega)

theorem igraph_vector_min_cons (x : ℚ) (rest : List ℚ) :
    igraph_vector_min (x :: rest) =
      match (igraph_vector_min rest).1 with
      | none => (some x, 0 :: (igraph_vector_min rest).2.map (· + 1))
      | some m =>
        (some (min x m), 0 :: (igraph_vector_min rest).2.map (· + 1)) := rfl

/-- The minimum of a vector of ones is one. -/
theorem vector_min_ones :
    ∀ w : List ℚ, (∀ x ∈ w, x = (1 : ℚ)) → w ≠ [] →
      (igraph_vector_min w).1 = some 1
  | [], _, h => absurd rfl h
  | x :: rest, hall, _ => by
    have hx : x = 1 := hall x (List.mem_cons_self _ _)
    rw [igraph_vector_min_cons]
    cases hrest : rest with
    | nil => subst hrest; subst hx; rfl
    | cons y tl =>
      have ih := vector_min_ones rest
        (fun z hz => hall z (List.mem_cons_of_mem _ hz))
        (by rw [hrest]; simp)
      rw [hrest] at ih
      rw [ih]
      simp only [hx, min_self]

/-- The epsilon comparator never reports a strict decrease when the
candidate is at least the current value. -/
theorem cmp_epsilon_not_lt (a b : ℚ) (h : b ≤ a) :
    ¬ igraph_cmp_epsilon a b IGRAPH_SHORTEST_PATH_EPSILON < 0 := by
  have heps := eps_pos
  rw [igraph_cmp_epsilon]
  split_ifs with h1 h2
  · decide
  · exfalso; linarith
  · decide

/-- With unit weights the edge relaxation of the weighted engine behaves
exactly as the neighbor scan of the unweighted engine: pushed entries are
the newly marked neighbors one level down with negated stored distance, the
decrease-key branch never fires, and every vertex marked for this source
stores its true distance plus one. -/
theorem djRelax_unit (g : Graph) (mode : Nat) (w : List ℚ)
    (hw : ∀ eid, eid < g.edges.length → w.getD eid 0 = 1)
    (i : Nat) (s act : Fin g.n) (dd : Nat) :
    ∀ (es : List Nat) (m : Fin g.n → Nat) (ds : Fin g.n → ℚ)
      (q : List (Fin g.n × Nat)) (r : Nat),
      (∀ eid ∈ es, eid < g.edges.length) →
      (∀ v, m v = i + 1 → ds v = (dval g mode s v : ℚ) + 1) →
      (∀ eid ∈ es, dval g mode s (otherV g eid act) ≤ dd + 1) →
      (∀ eid ∈ es, ¬ m (otherV g eid act) = i + 1 →
        dval g mode s (otherV g eid act) = dd + 1) →
      ∃ ds2,
        djRelax g w i act ((dd : ℚ) + 1) es m ds (q.map qKey) =
          ((bfsExpand i dd (es.map (fun eid => otherV g eid act)) m q r).1,
           ds2,
           (bfsExpand i dd
             (es.map (fun eid => otherV g eid act)) m q r).2.1.map qKey) ∧
        ∀ v,
          (bfsExpand i dd (es.map (fun eid => otherV g eid act)) m q r).1 v
            = i + 1 → ds2 v = (dval g mode s v : ℚ) + 1 := by
  intro es
  induction es with
  | nil =>
    intro m ds q r _ hds _ _
    refine ⟨ds, by simp [djRelax, bfsExpand], ?_⟩
    intro v hv
    exact hds v (by simpa [bfsExpand] using hv)
  | cons eid es2 ih =>
    intro m ds q r hes hds hub hnew
    have heid : eid < g.edges.length := hes eid (List.mem_cons_self _ _)
    have hes2 : ∀ e2 ∈ es2, e2 < g.edges.length :=
      fun e2 he2 => hes e2 (List.mem_cons_of_mem _ he2)
    have hub2 : ∀ e2 ∈ es2, dval g mode s (otherV g e2 act) ≤ dd + 1 :=
      fun e2 he2 => hub e2 (List.mem_cons_of_mem _ he2)
    by_cases hmark : m (otherV g eid act) = i + 1
    · -- already seen: neither engine does anything for this edge
      have hpos : (0 : ℚ) < (dval g mode s (otherV g eid act) : ℚ) + 1 := by
        positivity
      have hne0 : ¬ ds (otherV g eid act) = 0 := by
        rw [hds _ hmark]
        exact ne_of_gt hpos
      have hcast : (dval g mode s (otherV g eid act) : ℚ) ≤ (dd : ℚ) + 1 := by
        exact_mod_cast hub eid (List.mem_cons_self _ _)
      have hcmpfull : ¬ (if ds (otherV g eid act) = 0 then (-1 : Int)
          else igraph_cmp_epsilon ((dd : ℚ) + 1 + w.getD eid 0)
            (ds (otherV g eid act)) IGRAPH_SHORTEST_PATH_EPSILON) < 0 := by
        rw [if_neg hne0, hw eid heid, hds _ hmark]
        apply cmp_epsilon_not_lt
        linarith
      have hstep : djRelax g w i act ((dd : ℚ) + 1) (eid :: es2) m ds
          (q.map qKey) =
          djRelax g w i act ((dd : ℚ) + 1) es2 m ds (q.map qKey) := by
        simp only [djRelax]
        rw [if_neg (by simpa using hmark), if_neg hcmpfull]
      have hbfs : bfsExpand i dd
          ((eid :: es2).map (fun e2 => otherV g e2 act)) m q r =
          bfsExpand i dd (es2.map (fun e2 => otherV g e2 act)) m q r := by
        simp only [List.map_cons, bfsExpand, if_pos hmark]
      obtain ⟨ds2, heq, hds2⟩ := ih m ds q r hes2 hds hub2
        (fun e2 he2 => hnew e2 (List.mem_cons_of_mem _ he2))
      rw [hstep, hbfs]
      exact ⟨ds2, heq, hds2⟩
    · -- first visit: both engines mark and push the endpoint
      have hdtov : dval g mode s (otherV g eid act) = dd + 1 :=
        hnew eid (List.mem_cons_self _ _) hmark
      have hkey : q.map qKey ++
          [(otherV g eid act, -((dd : ℚ) + 1 + w.getD eid 0))] =
          (q ++ [(otherV g eid act, dd + 1)]).map qKey := by
        rw [List.map_append, hw eid heid]
        simp only [List.map_cons, List.map_nil, qKey]
        push_cast
        ring_nf
      have hstep : djRelax g w i act ((dd : ℚ) + 1) (eid :: es2) m ds
          (q.map qKey) =
          djRelax g w i act ((dd : ℚ) + 1) es2
            (Function.update m (otherV g eid act) (i + 1))
            (Function.update ds (otherV g eid act)
              ((dd : ℚ) + 1 + w.getD eid 0))
            ((q ++ [(otherV g eid act, dd + 1)]).map qKey) := by
        simp only [djRelax]
        rw [if_pos hmark, hkey]
      have hbfs : bfsExpand i dd
          ((eid :: es2).map (fun e2 => otherV g e2 act)) m q r =
          bfsExpand i dd (es2.map (fun e2 => otherV g e2 act))
            (Function.update m (otherV g eid act) (i + 1))
            (q ++ [(otherV g eid act, dd + 1)]) (r + 1) := by
        simp only [List.map_cons, bfsExpand, if_neg hmark]
      have hds' : ∀ v, Function.update m (otherV g eid act) (i + 1) v = i + 1 →
          Function.update ds (otherV g eid act)
            ((dd : ℚ) + 1 + w.getD eid 0) v = (dval g mode s v : ℚ) + 1 := by
        intro v hv
        by_cases hvt : v = otherV g eid act
        · subst hvt
          rw [Function.update_same, hw eid heid, hdtov]
          push_cast
          ring
        · rw [Function.update_noteq hvt] at hv ⊢
          exact hds v hv
      have hnew' : ∀ e2 ∈ es2,
          ¬ Function.update m (otherV g eid act) (i + 1)
            (otherV g e2 act) = i + 1 →
          dval g mode s (otherV g e2 act) = dd + 1 := by
        intro e2 he2 hv
        by_cases hvt : otherV g e2 act = otherV g eid act
        · exfalso
          rw [hvt, Function.update_same] at hv
          exact hv rfl
        · rw [Function.update_noteq hvt] at hv
          exact hnew e2 (List.mem_cons_of_mem _ he2) hv
      obtain ⟨ds2, heq, hds2⟩ := ih
        (Function.update m (otherV g eid act) (i + 1))
        (Function.update ds (otherV g eid act) ((dd : ℚ) + 1 + w.getD eid 0))
        (q ++ [(otherV g eid act, dd + 1)]) (r + 1) hes2 hds' hub2 hnew'
      rw [hstep, hbfs]
      exact ⟨ds2, heq, hds2⟩

/-- Expanding the head of the queue preserves the breadth-first invariant
(at the head's level).  The scalar fields of the state play no role in the
invariant and are arbitrary. -/
theorem bfs_expand_inv (g : Graph) (mode : Nat) (c : ℚ) (s : Fin g.n)
    (i : Nat) (st : BfsSt g.n) (act : Fin g.n) (dd : Nat)
    (rest : List (Fin g.n × Nat))
    (hq : st.q = (act, dd) :: rest)
    (inv2 : BfsInv g mode c s i dd st)
    (hex : c < 0 ∨ (dd : ℚ) ≤ c)
    (dsum2 : ℚ) (r2 : Nat) (l2 : Nat) :
    BfsInv g mode c s i dd
      ⟨(bfsExpand i dd (neighbors g mode act) st.mark rest st.reached).2.1,
       (bfsExpand i dd (neighbors g mode act) st.mark rest st.reached).1,
       dsum2, r2, l2⟩ := by
  have hdact : hopDist g mode s act = some dd :=
    inv2.dists (act, dd) (by rw [hq]; exact List.mem_cons_self _ _)
  obtain ⟨news, hm2, hq2, hr2, hnodup, hmem⟩ :=
    bfsExpand_spec i dd (neighbors g mode act) st.mark rest st.reached
  have hkeep : ∀ v, st.mark v = i + 1 →
      (bfsExpand i dd (neighbors g mode act) st.mark rest st.reached).1 v
        = i + 1 := by
    intro v hv
    rw [hm2 v]
    by_cases h : v ∈ news <;> simp [h, hv]
  have hm2iff : ∀ v,
      (bfsExpand i dd (neighbors g mode act) st.mark rest st.reached).1 v
        = i + 1 ↔ (v ∈ news ∨ st.mark v = i + 1) := by
    intro v
    rw [hm2 v]
    by_cases h : v ∈ news <;> simp [h]
  have hfreshnews : ∀ w2 ∈ news, ¬ st.mark w2 = i + 1 :=
    fun w2 hw2 => ((hmem w2).mp hw2).2
  have hN2 : ∀ w2 ∈ news, hopDist g mode s w2 = some (dd + 1) := by
    intro w2 hw2
    obtain ⟨hwn, hwm⟩ := (hmem w2).mp hw2
    have hadj : w2 ∈ nbrFinset g mode act := List.mem_toFinset.mpr hwn
    obtain ⟨dw, hdw, hds⟩ := hopDist_adj hdact hadj
    rcases Nat.lt_or_ge dw (dd + 1) with hlt | hge
    · exfalso
      apply hwm
      apply inv2.low w2 dw hds (by omega)
      rcases hex with h | h
      · exact Or.inl h
      · right
        have hcast : (dw : ℚ) ≤ (dd : ℚ) := by exact_mod_cast (by omega : dw ≤ dd)
        linarith
    · have heq : dw = dd + 1 := by omega
      rw [← heq]
      exact hds
  have hN3 : ∀ w2 ∈ news, w2 ∈ reachSet g mode s c := by
    intro w2 hw2
    rw [mem_reachSet_iff]
    refine ⟨dd + 1, hN2 w2 hw2, ?_⟩
    rcases hex with h | h
    · exact Or.inl h
    · right; push_cast; linarith
  have hrestnodup : (rest.map Prod.fst).Nodup := by
    have := inv2.nodupq
    rw [hq] at this
    simp only [List.map_cons] at this
    exact this.of_cons
  have hrestmark : ∀ e ∈ rest, st.mark e.1 = i + 1 := by
    intro e he
    exact inv2.qmark e (by rw [hq]; exact List.mem_cons_of_mem _ he)
  refine ⟨?_, ?_, ?_, ?_, ?_, hkeep s inv2.smark, ?_, ?_, ?_⟩
  · intro e he
    rw [hq2] at he
    rcases List.mem_append.mp he with h | h
    · exact inv2.lvl e (by rw [hq]; exact List.mem_cons_of_mem _ h)
    · obtain ⟨w2, _, rfl⟩ := List.mem_map.mp h
      exact Or.inr rfl
  · show ((bfsExpand i dd (neighbors g mode act) st.mark rest
      st.reached).2.1.map Prod.snd).Pairwise (fun a b : Nat => a ≤ b)
    rw [hq2, List.map_append]
    rw [List.pairwise_append]
    refine ⟨?_, pairwise_le_constMap news (dd + 1), ?_⟩
    · have := inv2.sorted
      rw [hq] at this
      simp only [List.map_cons] at this
      exact this.of_cons
    · intro a ha b hb
      obtain ⟨e, he, rfl⟩ := List.mem_map.mp ha
      simp only [List.map_map, List.mem_map] at hb
      obtain ⟨w2, _, rfl⟩ := hb
      show e.2 ≤ dd + 1
      rcases inv2.lvl e (by rw [hq]; exact List.mem_cons_of_mem _ he)
        with h | h <;> omega
  · intro e he
    rw [hq2] at he
    rcases List.mem_append.mp he with h | h
    · exact inv2.dists e (by rw [hq]; exact List.mem_cons_of_mem _ h)
    · obtain ⟨w2, hw2, rfl⟩ := List.mem_map.mp h
      exact hN2 w2 hw2
  · show ((bfsExpand i dd (neighbors g mode act) st.mark rest
      st.reached).2.1.map Prod.fst).Nodup
    rw [hq2, List.map_append]
    rw [List.nodup_append]
    rw [map_fst_pairMap news]
    refine ⟨hrestnodup, hnodup, ?_⟩
    intro v hv1 hv2
    obtain ⟨e, he, rfl⟩ := List.mem_map.mp hv1
    exact hfreshnews e.1 hv2 (hrestmark e he)
  · intro e he
    rw [hq2] at he
    rcases List.mem_append.mp he with h | h
    · exact hkeep e.1 (hrestmark e h)
    · obtain ⟨w2, hw2, rfl⟩ := List.mem_map.mp h
      dsimp only
      rw [hm2 w2]
      simp [hw2]
  · intro v hv
    rcases (hm2iff v).mp hv with h | h
    · exact hN3 v h
    · exact inv2.inreach v h
  · intro v dv h1 h2 h3
    exact hkeep v (inv2.low v dv h1 h2 h3)
  · intro u hu hnotin hexu v hv
    have hunews : u ∉ news := by
      intro hc
      apply hnotin
      rw [hq2, List.map_append]
      apply List.mem_append.mpr
      right
      simp only [List.map_map, List.mem_map]
      exact ⟨u, hc, rfl⟩
    have humark : st.mark u = i + 1 := by
      rcases (hm2iff u).mp hu with h | h
      · exact absurd h hunews
      · exact h
    by_cases hua : u = act
    · subst hua
      have hvn : v ∈ neighbors g mode u := List.mem_toFinset.mp hv
      by_cases hvnews : v ∈ news
      · dsimp only
        rw [hm2 v]
        simp [hvnews]
      · have : st.mark v = i + 1 := by
          by_contra hc
          exact hvnews ((hmem v).mpr ⟨hvn, hc⟩)
        exact hkeep v this
    · have hnotin2 : u ∉ st.q.map Prod.fst := by
        rw [hq]
        simp only [List.map_cons, List.mem_cons]
        rintro (h | h)
        · exact hua h
        · apply hnotin
          rw [hq2, List.map_append]
          exact List.mem_append.mpr (Or.inl h)
      exact hkeep v (inv2.closed u humark hnotin2 hexu v hv)

/-- Main simulation theorem: with unit weights and a negative cutoff, the
weighted engine's heap loop started on the image of a breadth-first state
drains the heap, computes exactly the breadth-first distance sum, counts
one pop per (eventually) discovered vertex, and produces the identical
marker array. -/
theorem djStep_sim (g : Graph) (mode : Nat) (w : List ℚ)
    (hw : ∀ eid, eid < g.edges.length → w.getD eid 0 = 1)
    (c : ℚ) (hc : c < 0) (s : Fin g.n) (i : Nat) :
    ∀ (fuel : Nat) (st : BfsSt g.n) (DL : Nat),
      st.q.length + 2 * unmCard i st.mark ≤ fuel →
      BfsInv g mode c s i DL st →
      ∀ (ds : Fin g.n → ℚ) (dsum2 : ℚ) (r2 : Nat) (mind2 : ℚ),
      (∀ v, st.mark v = i + 1 → ds v = (dval g mode s v : ℚ) + 1) →
      ∃ ds2 mind3,
        djStep g mode w i c fuel
            ⟨st.q.map qKey, st.mark, ds, dsum2, r2, mind2⟩ =
          ⟨[], (bfsStep g mode i c fuel st).mark, ds2,
           dsum2 + qSum st.q +
             ∑ v ∈ reachSet g mode s c \ markSet i st.mark,
               (dval g mode s v : ℚ),
           r2 + st.q.length +
             (reachSet g mode s c \ markSet i st.mark).card,
           mind3⟩ := by
  intro fuel
  induction fuel with
  | zero =>
    intro st DL hfuel inv ds dsum2 r2 mind2 hds
    have hq : st.q = [] := List.length_eq_zero.mp (by omega)
    have hum : unmCard i st.mark = 0 := by omega
    have hall : ∀ v, st.mark v = i + 1 := by
      intro v
      by_contra hv
      have hmemv : v ∈ Finset.univ.filter
          (fun v : Fin g.n => ¬ st.mark v = i + 1) := by simp [hv]
      have := Finset.card_pos.mpr ⟨v, hmemv⟩
      rw [unmCard] at hum
      omega
    have hempty : reachSet g mode s c \ markSet i st.mark = ∅ :=
      Finset.sdiff_eq_empty_iff_subset.mpr
        (fun v _ => mem_markSet.mpr (hall v))
    refine ⟨ds, mind2, ?_⟩
    rw [hq, hempty]
    have hdj : djStep g mode w i c 0
        ⟨([] : List (Fin g.n × Nat)).map qKey, st.mark, ds, dsum2, r2, mind2⟩ =
        ⟨[], st.mark, ds, dsum2, r2, mind2⟩ := rfl
    have hbfs : bfsStep g mode i c 0 st = st := rfl
    rw [hdj, hbfs, qSum_nil]
    simp
  | succ fuel ih =>
    intro st DL hfuel inv ds dsum2 r2 mind2 hds
    cases hq : st.q with
    | nil =>
      have hsub := bfs_reach_subset inv hq
      have hempty : reachSet g mode s c \ markSet i st.mark = ∅ :=
        Finset.sdiff_eq_empty_iff_subset.mpr
          (fun v hv => mem_markSet.mpr (hsub v hv))
      refine ⟨ds, mind2, ?_⟩
      rw [hempty]
      have hdj : djStep g mode w i c (fuel + 1)
          ⟨([] : List (Fin g.n × Nat)).map qKey, st.mark, ds, dsum2, r2,
            mind2⟩ = ⟨[], st.mark, ds, dsum2, r2, mind2⟩ := by
        simp [djStep, heapPopMax]
      have hbfs : bfsStep g mode i c (fuel + 1) st = st := by
        simp [bfsStep, hq]
      rw [hdj, hbfs, qSum_nil]
      simp
    | cons e rest =>
      obtain ⟨act, dd⟩ := e
      have inv2 := bfs_relevel inv hq
      have hdact : hopDist g mode s act = some dd :=
        inv2.dists (act, dd) (by rw [hq]; exact List.mem_cons_self _ _)
      have hqlen : st.q.length = rest.length + 1 := by rw [hq]; simp
      -- the head of the heap carries the maximal key
      have hkeys : ∀ f ∈ rest.map qKey, f.2 ≤ (qKey (act, dd)).2 := by
        intro f hf
        obtain ⟨e2, he2, rfl⟩ := List.mem_map.mp hf
        have hp := inv2.sorted
        rw [hq] at hp
        simp only [List.map_cons, List.pairwise_cons] at hp
        have hle : dd ≤ e2.2 := hp.1 e2.2 (List.mem_map.mpr ⟨e2, he2, rfl⟩)
        have hcast : (dd : ℚ) ≤ (e2.2 : ℚ) := by exact_mod_cast hle
        simp only [qKey]
        linarith
      have hpop : heapPopMax (st.q.map qKey) =
          some (qKey (act, dd), rest.map qKey) := by
        rw [hq, List.map_cons]
        exact heapPopMax_head _ _ hkeys
      -- hypotheses of the relaxation correspondence
      have hub : ∀ eid ∈ incEdges g mode act,
          dval g mode s (otherV g eid act) ≤ dd + 1 := by
        intro eid hmem
        have hn : otherV g eid act ∈ neighbors g mode act :=
          (mem_incEdges_otherV_iff g mode act (otherV g eid act)).mp
            ⟨eid, hmem, rfl⟩
        obtain ⟨dw, hdw, hdv⟩ := hopDist_adj hdact (List.mem_toFinset.mpr hn)
        rw [dval_eq hdv]
        exact hdw
      have hnew : ∀ eid ∈ incEdges g mode act,
          ¬ st.mark (otherV g eid act) = i + 1 →
          dval g mode s (otherV g eid act) = dd + 1 := by
        intro eid hmem hunm
        have hn : otherV g eid act ∈ neighbors g mode act :=
          (mem_incEdges_otherV_iff g mode act (otherV g eid act)).mp
            ⟨eid, hmem, rfl⟩
        obtain ⟨dw, hdw, hdv⟩ := hopDist_adj hdact (List.mem_toFinset.mpr hn)
        rw [dval_eq hdv]
        rcases Nat.lt_or_ge dw (dd + 1) with hlt | hge
        · exfalso
          exact hunm (inv2.low _ dw hdv (by omega) (Or.inl hc))
        · omega
      obtain ⟨ds2, hrelax, hds2⟩ := djRelax_unit g mode w hw i s act dd
        (incEdges g mode act) st.mark ds rest st.reached
        (incEdges_lt g mode act) hds hub hnew
      rw [incEdges_map_otherV] at hrelax hds2
      -- one step of the heap loop
      have hskip : ¬ (0 ≤ c ∧ c + 1 < -(qKey (act, dd)).2) := by
        rintro ⟨h1, _⟩
        linarith
      have hstep_dj : djStep g mode w i c (fuel + 1)
          ⟨st.q.map qKey, st.mark, ds, dsum2, r2, mind2⟩ =
          djStep g mode w i c fuel
            ⟨(bfsExpand i dd (neighbors g mode act) st.mark rest
                st.reached).2.1.map qKey,
             (bfsExpand i dd (neighbors g mode act) st.mark rest
                st.reached).1,
             ds2, dsum2 + (-(qKey (act, dd)).2 - 1), r2 + 1,
             -(qKey (act, dd)).2⟩ := by
        have hfst : (qKey (act, dd)).1 = act := rfl
        simp only [djStep, hpop, if_neg hskip, hfst]
        have hmind : -(qKey (act, dd)).2 = (dd : ℚ) + 1 := by
          simp [qKey]
        rw [hmind, hrelax]
      have hmindval : -(qKey (act, dd)).2 = (dd : ℚ) + 1 := by simp [qKey]
      -- set up the expanded breadth-first state
      obtain ⟨news, hm2, hq2, hr2, hnodup, hmem⟩ :=
        bfsExpand_spec i dd (neighbors g mode act) st.mark rest st.reached
      have hfreshnews : ∀ w2 ∈ news, ¬ st.mark w2 = i + 1 :=
        fun w2 hw2 => ((hmem w2).mp hw2).2
      have hN2 : ∀ w2 ∈ news, hopDist g mode s w2 = some (dd + 1) := by
        intro w2 hw2
        obtain ⟨hwn, hwm⟩ := (hmem w2).mp hw2
        have hadj : w2 ∈ nbrFinset g mode act := List.mem_toFinset.mpr hwn
        obtain ⟨dw, hdw, hdv⟩ := hopDist_adj hdact hadj
        rcases Nat.lt_or_ge dw (dd + 1) with hlt | hge
        · exact absurd (inv2.low w2 dw hdv (by omega) (Or.inl hc)) hwm
        · have heq : dw = dd + 1 := by omega
          rw [← heq]
          exact hdv
      have hN3 : ∀ w2 ∈ news, w2 ∈ reachSet g mode s c := by
        intro w2 hw2
        rw [mem_reachSet_iff]
        exact ⟨dd + 1, hN2 w2 hw2, Or.inl hc⟩
      have inv4 := bfs_expand_inv g mode c s i st act dd rest hq inv2
        (Or.inl hc) (st.dsum + (dd : ℚ))
        (bfsExpand i dd (neighbors g mode act) st.mark rest st.reached).2.2 dd
      have humc := unmCard_after_news hm2 hnodup hfreshnews
      have hq2len : (bfsExpand i dd (neighbors g mode act) st.mark rest
          st.reached).2.1.length = rest.length + news.length := by
        rw [hq2]; simp
      have hmeas : (bfsExpand i dd (neighbors g mode act) st.mark rest
          st.reached).2.1.length + 2 * unmCard i
          (bfsExpand i dd (neighbors g mode act) st.mark rest st.reached).1
          ≤ fuel := by
        rw [hq2len]; omega
      obtain ⟨ds3, mind3, hrec⟩ := ih
        ⟨(bfsExpand i dd (neighbors g mode act) st.mark rest st.reached).2.1,
         (bfsExpand i dd (neighbors g mode act) st.mark rest st.reached).1,
         st.dsum + (dd : ℚ),
         (bfsExpand i dd (neighbors g mode act) st.mark rest st.reached).2.2,
         dd⟩ dd hmeas inv4 ds2 (dsum2 + (-(qKey (act, dd)).2 - 1)) (r2 + 1)
        (-(qKey (act, dd)).2) hds2
      -- assemble
      have hstep_bfs : bfsStep g mode i c (fuel + 1) st =
          bfsStep g mode i c fuel
            ⟨(bfsExpand i dd (neighbors g mode act) st.mark rest
                st.reached).2.1,
             (bfsExpand i dd (neighbors g mode act) st.mark rest
                st.reached).1,
             st.dsum + (dd : ℚ),
             (bfsExpand i dd (neighbors g mode act) st.mark rest
                st.reached).2.2,
             dd⟩ := by
        have hcut2 : ¬ (0 ≤ c ∧ c < (dd : ℚ)) := by
          rintro ⟨h1, _⟩
          linarith
        simp [bfsStep, hq, if_neg hcut2]
      have hm2iff : ∀ v,
          (bfsExpand i dd (neighbors g mode act) st.mark rest st.reached).1 v
            = i + 1 ↔ (v ∈ news ∨ st.mark v = i + 1) := by
        intro v
        rw [hm2 v]
        by_cases h : v ∈ news <;> simp [h]
      have hMset : markSet i
          (bfsExpand i dd (neighbors g mode act) st.mark rest st.reached).1 =
          markSet i st.mark ∪ news.toFinset := by
        ext v
        rw [mem_markSet, hm2iff v]
        simp only [Finset.mem_union, mem_markSet, List.mem_toFinset]
        tauto
      have hsubnews : news.toFinset ⊆
          reachSet g mode s c \ markSet i st.mark := by
        intro w2 hw2
        have hw3 := List.mem_toFinset.mp hw2
        rw [Finset.mem_sdiff]
        exact ⟨hN3 w2 hw3, fun hcon => hfreshnews w2 hw3 (mem_markSet.mp hcon)⟩
      have hsd : reachSet g mode s c \ markSet i
          (bfsExpand i dd (neighbors g mode act) st.mark rest st.reached).1 =
          (reachSet g mode s c \ markSet i st.mark) \ news.toFinset := by
        rw [hMset]
        ext v
        simp only [Finset.mem_sdiff, Finset.mem_union]
        tauto
      have hcardnews : news.toFinset.card = news.length :=
        List.toFinset_card_of_nodup hnodup
      have hsum_news : ∑ v ∈ news.toFinset, (dval g mode s v : ℚ) =
          (news.length : ℚ) * ((dd : ℚ) + 1) := by
        have hval : ∀ v ∈ news.toFinset, (dval g mode s v : ℚ) =
            (dd : ℚ) + 1 := by
          intro v hv
          rw [dval_eq (hN2 v (List.mem_toFinset.mp hv))]
          push_cast
          ring
        rw [Finset.sum_congr rfl hval, Finset.sum_const, hcardnews]
        simp only [nsmul_eq_mul]
      have hlen_le : news.length ≤
          (reachSet g mode s c \ markSet i st.mark).card := by
        rw [← hcardnews]
        exact Finset.card_le_card hsubnews
      refine ⟨ds3, mind3, ?_⟩
      dsimp only at hrec
      rw [← hq]
      rw [hstep_dj, hrec, hstep_bfs]
      have hdsum : dsum2 + (-(qKey (act, dd)).2 - 1) +
          qSum (bfsExpand i dd (neighbors g mode act) st.mark rest
            st.reached).2.1 +
          ∑ v ∈ reachSet g mode s c \ markSet i
            (bfsExpand i dd (neighbors g mode act) st.mark rest
              st.reached).1, (dval g mode s v : ℚ) =
          dsum2 + qSum st.q +
          ∑ v ∈ reachSet g mode s c \ markSet i st.mark,
            (dval g mode s v : ℚ) := by
        rw [hmindval, hsd, Finset.sum_sdiff_eq_sub hsubnews, hsum_news, hq2,
          qSum_append, qSum_constMap, hq, qSum_cons]
        push_cast
        ring
      have hreach : r2 + 1 +
          (bfsExpand i dd (neighbors g mode act) st.mark rest
            st.reached).2.1.length +
          (reachSet g mode s c \ markSet i
            (bfsExpand i dd (neighbors g mode act) st.mark rest
              st.reached).1).card =
          r2 + st.q.length +
          (reachSet g mode s c \ markSet i st.mark).card := by
        rw [hsd, Finset.card_sdiff hsubnews, hcardnews, hq2len, hqlen]
        omega
      rw [hdsum, hreach]

/-- Per-source specification of the weighted engine under unit weights and
no cutoff: identical to the unweighted per-source specification. -/
theorem djSource_spec_unit (g : Graph) (mode : Nat) (w : List ℚ)
    (hw : ∀ eid, eid < g.edges.length → w.getD eid 0 = 1)
    (c : ℚ) (hc : c < 0) (s : Fin g.n) (i : Nat) (m : Fin g.n → Nat)
    (hm : ∀ v, ¬ m v = i + 1) (ds : Fin g.n → ℚ) (mind : ℚ) :
    (djSource g mode w c i m ds s mind).dsum = reachSum g mode s c ∧
    (djSource g mode w c i m ds s mind).reached =
      (reachSet g mode s c).card ∧
    (∀ v, (djSource g mode w c i m ds s mind).which v = i + 1 ↔
      v ∈ reachSet g mode s c) ∧
    (∀ v, (djSource g mode w c i m ds s mind).which v = m v ∨
      (djSource g mode w c i m ds s mind).which v = i + 1) := by
  have hm0 : ∀ v, Function.update m s (i + 1) v = i + 1 ↔ v = s := by
    intro v
    by_cases hv : v = s
    · subst hv; simp [Function.update]
    · simp [Function.update, hv, hm v]
  have hMs : markSet i (Function.update m s (i + 1)) = {s} := by
    ext v
    rw [mem_markSet, hm0 v, Finset.mem_singleton]
  have hinv : BfsInv g mode c s i 0
      ⟨[(s, 0)], Function.update m s (i + 1), 0, 1, 0⟩ := by
    refine ⟨?_, ?_, ?_, ?_, ?_, ?_, ?_, ?_, ?_⟩
    · intro e he
      simp only [List.mem_singleton] at he
      subst he
      exact Or.inl rfl
    · simp
    · intro e he
      simp only [List.mem_singleton] at he
      subst he
      exact hopDist_self
    · simp
    · intro e he
      simp only [List.mem_singleton] at he
      subst he
      exact (hm0 s).mpr rfl
    · exact (hm0 s).mpr rfl
    · intro v hv
      rw [hm0 v] at hv
      subst hv
      exact source_mem_reachSet
    · intro v dv h1 h2 _
      have hdv : dv = 0 := Nat.le_zero.mp h2
      subst hdv
      have := hopDist_zero h1
      subst this
      exact (hm0 v).mpr rfl
    · intro u hu hnotin _ v _
      exfalso
      rw [hm0 u] at hu
      subst hu
      exact hnotin (by simp)
  have hmeas : ([(s, 0)] : List (Fin g.n × Nat)).length +
      2 * unmCard i (Function.update m s (i + 1)) ≤ 1 + 2 * g.n := by
    have := unmCard_le i (Function.update m s (i + 1))
    simp only [List.length_singleton]
    omega
  have hds0 : ∀ v, Function.update m s (i + 1) v = i + 1 →
      Function.update ds s 1 v = (dval g mode s v : ℚ) + 1 := by
    intro v hv
    have hvs : v = s := (hm0 v).mp hv
    subst hvs
    rw [Function.update_same, dval_eq hopDist_self]
    norm_num
  obtain ⟨ds2, mind3, hsim⟩ := djStep_sim g mode w hw c hc s i (1 + 2 * g.n)
    ⟨[(s, 0)], Function.update m s (i + 1), 0, 1, 0⟩ 0 hmeas hinv
    (Function.update ds s 1) 0 0 mind hds0
  obtain ⟨c1, c2, c3, c4, c5⟩ :=
    bfsStep_correct g mode c s i (1 + 2 * g.n)
      ⟨[(s, 0)], Function.update m s (i + 1), 0, 1, 0⟩ 0 hmeas hinv
  have hheap : ([(s, (0 : Nat))] : List (Fin g.n × Nat)).map qKey =
      [(s, (-1 : ℚ))] := by
    simp [qKey]
  have hrw : djSource g mode w c i m ds s mind =
      djStep g mode w i c (1 + 2 * g.n)
        ⟨([(s, (0 : Nat))] : List (Fin g.n × Nat)).map qKey,
         Function.update m s (i + 1), Function.update ds s 1, 0, 0, mind⟩ := by
    rw [djSource, hheap]
  have hssub : ({s} : Finset (Fin g.n)) ⊆ reachSet g mode s c := by
    intro v hv
    rw [Finset.mem_singleton] at hv
    subst hv
    exact source_mem_reachSet
  have hdval_s : (dval g mode s s : ℚ) = 0 := by
    rw [dval_eq hopDist_self]
    rfl
  rw [hrw, hsim]
  dsimp only at hsim ⊢
  refine ⟨?_, ?_, ?_, ?_⟩
  · rw [hMs, Finset.sum_sdiff_eq_sub hssub, Finset.sum_singleton, hdval_s]
    show 0 + qSum [(s, 0)] + (reachSum g mode s c - 0) = reachSum g mode s c
    rw [qSum_cons, qSum_nil]
    push_cast
    ring
  · rw [hMs, Finset.card_sdiff hssub, Finset.card_singleton]
    have : 0 < (reachSet g mode s c).card :=
      Finset.card_pos.mpr ⟨s, source_mem_reachSet⟩
    simp only [List.length_singleton]
    omega
  · intro v
    rw [c4 v]
    dsimp only
    rw [hm0 v]
    constructor
    · rintro (rfl | h)
      · exact source_mem_reachSet
      · exact h
    · exact Or.inr
  · intro v
    rcases c5 v with h | h
    · by_cases hv : v = s
      · right
        rw [h]
        dsimp only
        simp [Function.update, hv]
      · left
        rw [h]
        dsimp only
        simp [Function.update, hv]
    · exact Or.inr h

/-- The raw per-source distance sum of the weighted engine on unit weights
with no cutoff is the same reach sum plus penalty as the unweighted one. -/
theorem djRawSum_spec_unit (g : Graph) (mode : Nat) (w : List ℚ)
    (hw : ∀ eid, eid < g.edges.length → w.getD eid 0 = 1)
    (c : ℚ) (hc : c < 0) (s : Fin g.n) (i : Nat) (m : Fin g.n → Nat)
    (hm : ∀ v, ¬ m v = i + 1) (ds : Fin g.n → ℚ) (mind : ℚ) :
    djRawSum g mode w c i m ds s mind = reachSum g mode s c +
      (g.n : ℚ) * ((g.n : ℚ) - ((reachSet g mode s c).card : ℚ)) := by
  obtain ⟨u1, u2, _, _⟩ :=
    djSource_spec_unit g mode w hw c hc s i m hm ds mind
  rw [djRawSum, u1, u2]

/-- Full characterization of the weighted per-source loop on unit weights
with no cutoff: exactly the ideal scores of the unweighted engine, with the
identical once-per-call disconnected warning behavior. -/
theorem djLoop_spec_unit (g : Graph) (mode : Nat) (w : List ℚ)
    (hw : ∀ eid, eid < g.edges.length → w.getD eid 0 = 1)
    (cutoff : ℚ) (hc : cutoff < 0) :
    ∀ (vids : List (Fin g.n)) (i : Nat) (m : Fin g.n → Nat)
      (ds : Fin g.n → ℚ) (shown : Bool) (dw : Nat) (mind : ℚ)
      (acc : List (Option ℚ)),
      (∀ v, m v ≤ i) →
      djLoop g mode cutoff w vids i m ds shown dw mind acc =
        (acc ++ vids.map (fun s => idealScore g mode s cutoff),
         dw + (if shown = false ∧
            ∃ s ∈ vids, (reachSet g mode s cutoff).card < g.n
           then 1 else 0)) := by
  intro vids
  induction vids with
  | nil =>
    intro i m ds shown dw mind acc _
    simp [djLoop]
  | cons s rest ih =>
    intro i m ds shown dw mind acc hm
    have hfresh : ∀ v, ¬ m v = i + 1 := by
      intro v h
      have := hm v
      omega
    obtain ⟨s1, s2, s3, s4⟩ :=
      djSource_spec_unit g mode w hw cutoff hc s i m hfresh ds mind
    have hm2 : ∀ v, (djSource g mode w cutoff i m ds s mind).which v ≤
        i + 1 := by
      intro v
      rcases s4 v with h | h
      · rw [h]; have := hm v; omega
      · rw [h]
    have hscore : finishScore g.n (djRawSum g mode w cutoff i m ds s mind) =
        idealScore g mode s cutoff := by
      rw [djRawSum_spec_unit g mode w hw cutoff hc s i m hfresh ds mind,
        idealScore]
    simp only [djLoop]
    by_cases hsh : shown = false
    · by_cases hcard : (reachSet g mode s cutoff).card < g.n
      · have hcond : ((0 ≤ cutoff ∧
            (djSource g mode w cutoff i m ds s mind).mind ≤ cutoff + 1) ∨
            cutoff < 0) ∧
            (djSource g mode w cutoff i m ds s mind).reached < g.n ∧
            shown = false := ⟨Or.inr hc, by rw [s2]; exact hcard, hsh⟩
        rw [decide_eq_true hcond, if_pos hcond, Bool.or_true]
        rw [ih (i + 1) (djSource g mode w cutoff i m ds s mind).which
          (djSource g mode w cutoff i m ds s mind).dist true (dw + 1)
          (djSource g mode w cutoff i m ds s mind).mind
          (acc ++ [finishScore g.n (djRawSum g mode w cutoff i m ds s mind)])
          hm2]
        simp only [Prod.mk.injEq]
        constructor
        · rw [hscore]
          simp [List.append_assoc]
        · have : ¬ ((true : Bool) = false ∧
              ∃ s2 ∈ rest, (reachSet g mode s2 cutoff).card < g.n) := by
            rintro ⟨h, _⟩
            cases h
          rw [if_neg this, if_pos ⟨hsh, s, List.mem_cons_self _ _, hcard⟩]
      · have hcond : ¬ (((0 ≤ cutoff ∧
            (djSource g mode w cutoff i m ds s mind).mind ≤ cutoff + 1) ∨
            cutoff < 0) ∧
            (djSource g mode w cutoff i m ds s mind).reached < g.n ∧
            shown = false) := by
          rintro ⟨_, h2, _⟩
          rw [s2] at h2
          exact hcard h2
        rw [decide_eq_false hcond, if_neg hcond, Bool.or_false]
        rw [ih (i + 1) (djSource g mode w cutoff i m ds s mind).which
          (djSource g mode w cutoff i m ds s mind).dist shown (dw + 0)
          (djSource g mode w cutoff i m ds s mind).mind
          (acc ++ [finishScore g.n (djRawSum g mode w cutoff i m ds s mind)])
          hm2]
        simp only [Prod.mk.injEq]
        constructor
        · rw [hscore]
          simp [List.append_assoc]
        · have hiff : (shown = false ∧
              ∃ s2 ∈ rest, (reachSet g mode s2 cutoff).card < g.n) ↔
              (shown = false ∧
              ∃ s2 ∈ s :: rest, (reachSet g mode s2 cutoff).card < g.n) := by
            constructor
            · rintro ⟨h1, s2, h2, h3⟩
              exact ⟨h1, s2, List.mem_cons_of_mem _ h2, h3⟩
            · rintro ⟨h1, s2, h2, h3⟩
              rcases List.mem_cons.mp h2 with rfl | h2
              · exact absurd h3 hcard
              · exact ⟨h1, s2, h2, h3⟩
          by_cases hrest : shown = false ∧
              ∃ s2 ∈ rest, (reachSet g mode s2 cutoff).card < g.n
          · rw [if_pos hrest, if_pos (hiff.mp hrest)]
          · rw [if_neg hrest, if_neg (fun h => hrest (hiff.mpr h))]
    · have hcond : ¬ (((0 ≤ cutoff ∧
          (djSource g mode w cutoff i m ds s mind).mind ≤ cutoff + 1) ∨
          cutoff < 0) ∧
          (djSource g mode w cutoff i m ds s mind).reached < g.n ∧
          shown = false) := by
        rintro ⟨_, _, h3⟩
        exact hsh h3
      rw [decide_eq_false hcond, if_neg hcond, Bool.or_false]
      rw [ih (i + 1) (djSource g mode w cutoff i m ds s mind).which
        (djSource g mode w cutoff i m ds s mind).dist shown (dw + 0)
        (djSource g mode w cutoff i m ds s mind).mind
        (acc ++ [finishScore g.n (djRawSum g mode w cutoff i m ds s mind)])
        hm2]
      simp only [Prod.mk.injEq]
      constructor
      · rw [hscore]
        simp [List.append_assoc]
      · rw [if_neg (fun h => hsh h.1), if_neg (fun h => hsh h.1)]

/-- On a single-vertex graph the weighted traversal pops only the source:
the resulting state is fully explicit. -/
theorem djSource_one (g : Graph) (hn : g.n = 1) (mode : Nat) (w : List ℚ)
    (cutoff : ℚ) (hw : ∀ eid, eid < g.edges.length → 0 < w.getD eid 0)
    (i : Nat) (wh : Fin g.n → Nat) (ds : Fin g.n → ℚ) (s : Fin g.n)
    (mind0 : ℚ) :
    djSource g mode w cutoff i wh ds s mind0 =
      ⟨[], Function.update wh s (i + 1), Function.update ds s 1,
        0 + (-(-1 : ℚ) - 1), 0 + 1, -(-1 : ℚ)⟩ := by
  have hpop : heapPopMax ([(s, (-1 : ℚ))]) = some ((s, -1), []) := rfl
  have hcut : ¬ (0 ≤ cutoff ∧ cutoff + 1 < -(-1 : ℚ)) := by
    rintro ⟨h1, h2⟩
    norm_num at h2
    linarith
  have hfuel : 1 + 2 * g.n = 2 * g.n + 1 := by omega
  have hrelax := djRelax_one g hn w i s hw (incEdges g mode s)
    (incEdges_lt g mode s) (Function.update wh s (i + 1))
    (Function.update ds s 1) []
    (by simp [Function.update]) (by simp [Function.update])
  rw [djSource, hfuel]
  simp only [djStep, hpop]
  rw [if_neg hcut]
  have h1 : (-(-1 : ℚ)) = 1 := by norm_num
  rw [show (djRelax g w i s (-(-1 : ℚ)) (incEdges g mode s)
      (Function.update wh s (i + 1)) (Function.update ds s 1) []) =
      (Function.update wh s (i + 1), Function.update ds s 1, []) from by
    rw [h1]; exact hrelax]
  exact djStep_empty g mode w i cutoff _ _ rfl

/-- On a single-vertex graph the weighted per-source loop produces a
not-a-number score for every requested vertex and never warns. -/
theorem djLoop_one (g : Graph) (hn : g.n = 1) (mode : Nat) (w : List ℚ)
    (cutoff : ℚ) (hw : ∀ eid, eid < g.edges.length → 0 < w.getD eid 0) :
    ∀ (vids : List (Fin g.n)) (i : Nat) (m : Fin g.n → Nat)
      (ds : Fin g.n → ℚ) (shown : Bool) (dw : Nat) (mind : ℚ)
      (acc : List (Option ℚ)),
      djLoop g mode cutoff w vids i m ds shown dw mind acc =
        (acc ++ vids.map (fun _ => (none : Option ℚ)), dw) := by
  intro vids
  induction vids with
  | nil =>
    intro i m ds shown dw mind acc
    simp [djLoop]
  | cons s rest ih =>
    intro i m ds shown dw mind acc
    have hsrc := djSource_one g hn mode w cutoff hw i m ds s mind
    have hreached : (djSource g mode w cutoff i m ds s mind).reached = 1 := by
      rw [hsrc]
    have hscore : finishScore g.n (djRawSum g mode w cutoff i m ds s mind) =
        none := by
      rw [djRawSum_one g hn mode w cutoff hw i m ds s mind]
      simp [finishScore]
    have hcond : ¬ (((0 ≤ cutoff ∧
        (djSource g mode w cutoff i m ds s mind).mind ≤ cutoff + 1) ∨
        cutoff < 0) ∧
        (djSource g mode w cutoff i m ds s mind).reached < g.n ∧
        shown = false) := by
      rintro ⟨_, h2, _⟩
      rw [hreached, hn] at h2
      omega
    simp only [djLoop]
    rw [decide_eq_false hcond, if_neg hcond, Bool.or_false]
    rw [ih (i + 1) (djSource g mode w cutoff i m ds s mind).which
      (djSource g mode w cutoff i m ds s mind).dist shown (dw + 0)
      (djSource g mode w cutoff i m ds s mind).mind
      (acc ++ [finishScore g.n (djRawSum g mode w cutoff i m ds s mind)])]
    simp only [Prod.mk.injEq]
    constructor
    · rw [hscore]
      simp [List.append_assoc]
    · rfl

/-- The weighted per-source loop emits the disconnected-graph warning at
most once: the latch leaves at most one increment. -/
theorem djLoop_dwarn_le (g : Graph) (mode : Nat) (cutoff : ℚ) (w : List ℚ) :
    ∀ (vids : List (Fin g.n)) (i : Nat) (m : Fin g.n → Nat)
      (ds : Fin g.n → ℚ) (shown : Bool) (dw : Nat) (mind : ℚ)
      (acc : List (Option ℚ)),
      (djLoop g mode cutoff w vids i m ds shown dw mind acc).2 ≤
        dw + (if shown then 0 else 1) := by
  intro vids
  induction vids with
  | nil =>
    intro i m ds shown dw mind acc
    simp only [djLoop]
    split <;> omega
  | cons s rest ih =>
    intro i m ds shown dw mind acc
    simp only [djLoop]
    by_cases hcond : ((0 ≤ cutoff ∧
        (djSource g mode w cutoff i m ds s mind).mind ≤ cutoff + 1) ∨
        cutoff < 0) ∧
        (djSource g mode w cutoff i m ds s mind).reached < g.n ∧
        shown = false
    · have hshown : shown = false := hcond.2.2
      rw [decide_eq_true hcond, if_pos hcond, Bool.or_true]
      have := ih (i + 1) (djSource g mode w cutoff i m ds s mind).which
        (djSource g mode w cutoff i m ds s mind).dist true (dw + 1)
        (djSource g mode w cutoff i m ds s mind).mind
        (acc ++ [finishScore g.n (djRawSum g mode w cutoff i m ds s mind)])
      rw [hshown]
      simp at this ⊢
      omega
    · rw [decide_eq_false hcond, if_neg hcond, Bool.or_false]
      have := ih (i + 1) (djSource g mode w cutoff i m ds s mind).which
        (djSource g mode w cutoff i m ds s mind).dist shown (dw + 0)
        (djSource g mode w cutoff i m ds s mind).mind
        (acc ++ [finishScore g.n (djRawSum g mode w cutoff i m ds s mind)])
      omega

theorem vector_min_none_iff :
    ∀ w : List ℚ, (igraph_vector_min w).1 = none ↔ w = [] := by
  intro w
  cases w with
  | nil => simp [igraph_vector_min]
  | cons x rest =>
    rw [igraph_vector_min_cons]
    cases hr : (igraph_vector_min rest).1 <;> simp

/-- The modelled igraph_vector_min returns a true minimum: an element of
the vector bounding every element from below. -/
theorem vector_min_some_spec :
    ∀ (w : List ℚ) (m : ℚ), (igraph_vector_min w).1 = some m →
      m ∈ w ∧ ∀ x ∈ w, m ≤ x := by
  intro w
  induction w with
  | nil => intro m h; simp [igraph_vector_min] at h
  | cons x rest ih =>
    intro m h
    rw [igraph_vector_min_cons] at h
    cases hr : (igraph_vector_min rest).1 with
    | none =>
      rw [hr] at h
      simp only at h
      cases h
      have hrest : rest = [] := (vector_min_none_iff rest).mp hr
      subst hrest
      exact ⟨List.mem_cons_self _ _, by
        intro y hy
        simp only [List.mem_singleton] at hy
        rw [hy]⟩
    | some m0 =>
      rw [hr] at h
      simp only at h
      cases h
      obtain ⟨ihmem, ihle⟩ := ih m0 hr
      constructor
      · rcases min_choice x m0 with hch | hch
        · rw [hch]; exact List.mem_cons_self _ _
        · rw [hch]; exact List.mem_cons_of_mem _ ihmem
      · intro y hy
        rcases List.mem_cons.mp hy with rfl | hy2
        · exact min_le_left _ _
        · exact le_trans (min_le_right _ _) (ihle y hy2)

/-! ## Concrete instances and decidability for the claim theorems -/

/-- The undirected, unweighted path graph 0-1-2-3 of the spec's concrete
scenarios. -/
abbrev pathG : Graph := ⟨4, [(0, 1), (1, 2), (2, 3)], false⟩

/-- An undirected graph on four vertices with two disconnected components
{0, 1} and {2, 3}. -/
abbrev twoCompG : Graph := ⟨4, [(0, 1), (2, 3)], false⟩

/-- The single-vertex graph with no edges. -/
abbrev oneG : Graph := ⟨1, [], false⟩

/-- The per-source sum claim C1 describes, built from the spec's words: hop
distances over exactly the vertices at distance at most the cutoff, plus a
penalty of the vertex count for every other vertex. -/
def claimedBfsSum (g : Graph) (mode : Nat) (s : Fin g.n) (c : ℚ) : ℚ :=
  distLESum g mode s c +
    (g.n : ℚ) * ((g.n : ℚ) - ((distLESet g mode s c).card : ℚ))

def exceptDecEq {α β : Type} [DecidableEq α] [DecidableEq β] :
    DecidableEq (Except α β)
  | .error a, .error b =>
    match decEq a b with
    | isTrue h => isTrue (by rw [h])
    | isFalse h => isFalse (fun hc => h (by injection hc))
  | .error _, .ok _ => isFalse (fun hc => Except.noConfusion hc)
  | .ok _, .error _ => isFalse (fun hc => Except.noConfusion hc)
  | .ok a, .ok b =>
    match decEq a b with
    | isTrue h => isTrue (by rw [h])
    | isFalse h => isFalse (fun hc => h (by injection hc))

instance {α β : Type} [DecidableEq α] [DecidableEq β] :
    DecidableEq (Except α β) := exceptDecEq

theorem postNormalize_none {α : Type} (n : Nat) (b : Bool) (l : List α) :
    postNormalize n b (l.map fun _ => (none : Option ℚ)) =
      l.map fun _ => (none : Option ℚ) := by
  cases b <;> simp [postNormalize, List.map_map, Function.comp]

theorem eps_lt_one : IGRAPH_SHORTEST_PATH_EPSILON < 1 := by
  norm_num [IGRAPH_SHORTEST_PATH_EPSILON]

/-! ## Claim theorems -/

section Claims

attribute [local semireducible] Rat.add Rat.mul Rat.inv Rat.sub

/-- C1 (counterexample): the unweighted engine's per-source distance sum
does not equal the spec's formula.  For the path graph 0-1-2-3, source 1,
cutoff 0, the engine computes 6 (it still pops and counts the two vertices
at distance 1 = cutoff + 1), while the claimed sum over vertices at
distance at most 0 plus penalties is 12 (in particular the claimed
maximal-penalty value n*(n-1) = 12 is not attained). -/
theorem claim_C1_counterexample :
    bfsRawSum pathG 3 0 0 (fun _ => 0) 1 0 = 6 ∧
    claimedBfsSum pathG 3 1 0 = 12 ∧
    bfsRawSum pathG 3 0 0 (fun _ => 0) 1 0 ≠ claimedBfsSum pathG 3 1 0 :=
  ⟨by decide, by decide, by decide⟩

/-- C1 (amended): for every source and cutoff (in particular every
non-negative cutoff), the unweighted engine's per-source raw sum is the sum
of hop distances over the vertices at distance at most cutoff + 1 (not
cutoff), plus a penalty of the vertex count for every other vertex. -/
theorem claim_C1_amended (g : Graph) (mode : Nat) (c : ℚ) (hc : 0 ≤ c)
    (i : Nat) (m : Fin g.n → Nat) (s : Fin g.n) (last : Nat)
    (hm : ∀ v, ¬ m v = i + 1) :
    bfsRawSum g mode c i m s last = reachSum g mode s c +
      (g.n : ℚ) * ((g.n : ℚ) - ((reachSet g mode s c).card : ℚ)) :=
  bfsRawSum_spec g mode c s i m hm last

theorem claim_C1_amended_witness :
    (0 : ℚ) ≤ 0 ∧ (∀ v : Fin pathG.n, ¬ (0 : Nat) = 0 + 1) ∧
    bfsRawSum pathG 3 0 0 (fun _ => 0) 1 0 = reachSum pathG 3 1 0 +
      (pathG.n : ℚ) * ((pathG.n : ℚ) - ((reachSet pathG 3 1 0).card : ℚ)) :=
  ⟨le_refl 0, fun _ => by simp,
   claim_C1_amended pathG 3 0 (le_refl 0) 0 (fun _ => 0) 1 0
     (fun v => by simp)⟩

/-- C2: for the undirected, unweighted path graph 0-1-2-3 with no cutoff
and normalization requested, the call for vertex 1 returns 3/4. -/
theorem claim_C2 :
    igraph_closeness_estimate pathG [1] 3 (-1) none true (fun _ => false) =
      .ok ⟨[some (3 / 4)], 0, 0⟩ := by
  decide

/-- C3: for the same path graph with every edge weighted 2, no cutoff and
normalization requested, the call for vertex 1 returns 3/8. -/
theorem claim_C3 :
    igraph_closeness_estimate pathG [1] 3 (-1) (some [2, 2, 2]) true
      (fun _ => false) = .ok ⟨[some (3 / 8)], 0, 0⟩ := by
  decide

/-- C4 (counterexample): an invalid mode does not always produce the
invalid-mode error.  With a weight vector of the wrong length and mode 0
the call fails with the invalid-argument error instead: the dispatcher
routes to the weighted engine before any mode validation, and the weighted
engine validates the weights first. -/
theorem claim_C4_counterexample :
    igraph_closeness_estimate pathG [0] 0 (-1) (some []) true
      (fun _ => false) = .error .einval ∧
    Err.einval ≠ Err.einvmode :=
  ⟨by decide, by decide⟩

/-- C10: the weighted engine never reads an element of an empty weight
vector.  The modelled minimum computation on the empty vector records no
element access, and on an edgeless graph the zero-length vector passes the
length check and the call succeeds. -/
theorem claim_C10 :
    (igraph_vector_min ([] : List ℚ)).2 = [] ∧
    ∀ (g : Graph) (vids : List (Fin g.n)) (mode : Nat) (cutoff : ℚ)
      (norm : Bool), g.edges = [] → (mode = 1 ∨ mode = 2 ∨ mode = 3) →
      ∃ out, igraph_i_closeness_estimate_weighted g vids mode cutoff [] norm =
        .ok out := by
  refine ⟨rfl, ?_⟩
  intro g vids mode cutoff norm hedges hmode
  have hmode' : ¬ (mode ≠ 1 ∧ mode ≠ 2 ∧ mode ≠ 3) := by
    rcases hmode with h | h | h <;> simp [h]
  have hlen : ¬ (([] : List ℚ).length ≠ g.edges.length) := by
    rw [hedges]
    simp
  rw [igraph_i_closeness_estimate_weighted, if_neg hlen]
  have hmin : (igraph_vector_min ([] : List ℚ)).1 = none := rfl
  simp only [hmin, if_neg hmode']
  exact ⟨_, rfl⟩

theorem claim_C10_witness :
    ∃ out, igraph_i_closeness_estimate_weighted oneG [0] 3 (-1) [] true =
      .ok out :=
  claim_C10.2 oneG [0] 3 (-1) true rfl (by decide)

/-- C4 (amended): mode validation is not performed by the dispatcher before
routing.  An invalid mode produces the invalid-mode error on the unweighted
path, and on the weighted path only after the weight vector has passed its
own validation (correct length, positive entries). -/
theorem claim_C4_amended (g : Graph) (vids : List (Fin g.n)) (mode : Nat)
    (cutoff : ℚ) (norm : Bool) (intr : Nat → Bool)
    (h1 : mode ≠ 1) (h2 : mode ≠ 2) (h3 : mode ≠ 3) :
    igraph_closeness_estimate g vids mode cutoff none norm intr =
      .error .einvmode ∧
    ∀ w : List ℚ, w.length = g.edges.length → (∀ x ∈ w, 0 < x) →
      igraph_closeness_estimate g vids mode cutoff (some w) norm intr =
        .error .einvmode := by
  constructor
  · simp only [igraph_closeness_estimate]
    rw [if_pos ⟨h1, h2, h3⟩]
  · intro w hwl hwp
    have hlen : ¬ (w.length ≠ g.edges.length) := by
      rw [hwl]
      simp
    simp only [igraph_closeness_estimate, igraph_i_closeness_estimate_weighted]
    rw [if_neg hlen]
    cases hmin : (igraph_vector_min w).1 with
    | none =>
      simp only
      rw [if_pos ⟨h1, h2, h3⟩]
    | some m =>
      have hm := vector_min_some_spec w m hmin
      have hmpos : ¬ m ≤ 0 := not_le.mpr (hwp m hm.1)
      simp only
      rw [if_neg hmpos, if_pos ⟨h1, h2, h3⟩]

theorem claim_C4_amended_witness :
    (0 : Nat) ≠ 1 ∧ (0 : Nat) ≠ 2 ∧ (0 : Nat) ≠ 3 ∧
    ([(1 : ℚ), 1, 1].length = pathG.edges.length) ∧
    igraph_closeness_estimate pathG [0] 0 (-1) none true (fun _ => false) =
      .error .einvmode ∧
    igraph_closeness_estimate pathG [0] 0 (-1) (some [1, 1, 1]) true
      (fun _ => false) = .error .einvmode := by
  refine ⟨by decide, by decide, by decide, by decide, ?_, ?_⟩
  · exact (claim_C4_amended pathG [0] 0 (-1) true (fun _ => false)
      (by decide) (by decide) (by decide)).1
  · exact (claim_C4_amended pathG [0] 0 (-1) true (fun _ => false)
      (by decide) (by decide) (by decide)).2 [1, 1, 1] (by decide)
      (by intro x hx; simp at hx; rw [hx]; norm_num)

/-- C5: a weighted call fails with the invalid-argument error exactly when
the weight vector's length differs from the edge count or some weight is
non-positive (equivalently, the minimum weight is at most zero); the model
returns the error before running any traversal, so no partial result
exists. -/
theorem claim_C5 (g : Graph) (vids : List (Fin g.n)) (mode : Nat)
    (cutoff : ℚ) (w : List ℚ) (norm : Bool) (intr : Nat → Bool) :
    igraph_closeness_estimate g vids mode cutoff (some w) norm intr =
      .error .einval ↔
    (w.length ≠ g.edges.length ∨ ∃ x ∈ w, x ≤ 0) := by
  simp only [igraph_closeness_estimate, igraph_i_closeness_estimate_weighted]
  by_cases hlen : w.length ≠ g.edges.length
  · rw [if_pos hlen]
    simp [hlen]
  · rw [if_neg hlen]
    cases hmin : (igraph_vector_min w).1 with
    | none =>
      have hwnil : w = [] := (vector_min_none_iff w).mp hmin
      subst hwnil
      simp only
      constructor
      · intro h
        split_ifs at h <;> exact absurd h (by simp)
      · rintro (h | ⟨x, hx, _⟩)
        · exact absurd h hlen
        · simp at hx
    | some m =>
      have hm := vector_min_some_spec w m hmin
      simp only
      by_cases hm0 : m ≤ 0
      · rw [if_pos hm0]
        simp only [true_iff]
        exact Or.inr ⟨m, hm.1, hm0⟩
      · rw [if_neg hm0]
        constructor
        · intro h
          split_ifs at h <;> exact absurd h (by simp)
        · rintro (h | ⟨x, hx, hx0⟩)
          · exact absurd h hlen
          · exact absurd (le_trans (hm.2 x hx) hx0) hm0

/-- C9 (counterexample): the weighted engine performs no cancellation poll.
A weighted call with a poll that always requests cancellation still runs to
completion and returns its scores instead of the cancellation failure. -/
theorem claim_C9_counterexample :
    igraph_closeness_estimate pathG [1] 3 (-1) (some [2, 2, 2]) true
      (fun _ => true) = .ok ⟨[some (3 / 8)], 0, 0⟩ ∧
    (Except.ok ⟨[some (3 / 8)], 0, 0⟩ ≠
      (.error .interrupted : Except Err COut)) :=
  ⟨by decide, by decide⟩

/-- C9 (amended): only the unweighted engine polls for cancellation, once
per outer per-source iteration, aborting the whole call with no partial
result; the weighted engine's result does not depend on the poll at all. -/
theorem claim_C9_amended :
    (∀ (g : Graph) (vids : List (Fin g.n)) (mode : Nat) (cutoff : ℚ)
       (w : List ℚ) (norm : Bool) (intr intr' : Nat → Bool),
       igraph_closeness_estimate g vids mode cutoff (some w) norm intr =
         igraph_closeness_estimate g vids mode cutoff (some w) norm intr') ∧
    (∀ (g : Graph) (vids : List (Fin g.n)) (mode : Nat) (cutoff : ℚ)
       (norm : Bool) (intr : Nat → Bool),
       (mode = 1 ∨ mode = 2 ∨ mode = 3) →
       ((∃ j, j < vids.length ∧ intr j = true) →
         igraph_closeness_estimate g vids mode cutoff none norm intr =
           .error .interrupted) ∧
       ((∀ j, j < vids.length → intr j = false) →
         ∃ out, igraph_closeness_estimate g vids mode cutoff none norm intr =
           .ok out)) := by
  constructor
  · intro g vids mode cutoff w norm intr intr'
    rfl
  · intro g vids mode cutoff norm intr hmode
    have hmode' : ¬ (mode ≠ 1 ∧ mode ≠ 2 ∧ mode ≠ 3) := by
      rcases hmode with h | h | h <;> simp [h]
    constructor
    · rintro ⟨j, hj, hjt⟩
      have herr := unwLoop_error_of_intr g mode cutoff intr vids 0
        (fun _ => 0) false 0 0 [] ⟨j, hj, by simpa using hjt⟩
      simp only [igraph_closeness_estimate]
      rw [if_neg hmode', herr]
    · intro hni
      obtain ⟨p, hp⟩ := unwLoop_ok_of_no_intr g mode cutoff intr vids 0
        (fun _ => 0) false 0 0 [] (fun j hj => by simpa using hni j hj)
      simp only [igraph_closeness_estimate]
      rw [if_neg hmode', hp]
      exact ⟨_, rfl⟩

theorem claim_C9_amended_witness :
    igraph_closeness_estimate pathG [1] 3 (-1) none true (fun _ => true) =
      .error .interrupted ∧
    (∃ out, igraph_closeness_estimate pathG [1] 3 (-1) none true
      (fun _ => false) = .ok out) :=
  ⟨(claim_C9_amended.2 pathG [1] 3 (-1) true (fun _ => true)
      (by decide)).1 ⟨0, by decide, rfl⟩,
   (claim_C9_amended.2 pathG [1] 3 (-1) true (fun _ => false)
      (by decide)).2 (fun j _ => rfl)⟩

theorem getD_mem_of_lt :
    ∀ (l : List ℚ) (n : Nat) (d : ℚ), n < l.length → l.getD n d ∈ l
  | [], _, _, h => absurd h (by simp)
  | _ :: _, 0, _, _ => List.mem_cons_self _ _
  | _ :: tl, n + 1, d, h => by
    simp only [List.getD_cons_succ]
    exact List.mem_cons_of_mem _ (getD_mem_of_lt tl n d (by simpa using h))

/-- C6: on unit weights the weighted engine coincides with the unweighted
engine.  For every graph (connected or not), vertex subset, valid mode and
normalization flag, the no-cutoff call with all edge weights 1 returns
exactly what the call without weights returns. -/
theorem claim_C6 (g : Graph) (vids : List (Fin g.n)) (mode : Nat)
    (norm : Bool) (hmode : mode = 1 ∨ mode = 2 ∨ mode = 3) :
    igraph_closeness g vids mode
        (some (List.replicate g.edges.length 1)) norm (fun _ => false) =
      igraph_closeness g vids mode none norm (fun _ => false) := by
  have hmode' : ¬ (mode ≠ 1 ∧ mode ≠ 2 ∧ mode ≠ 3) := by
    rcases hmode with h | h | h <;> simp [h]
  have hcondF : (mode ≠ 1 ∧ mode ≠ 2 ∧ mode ≠ 3) = False := eq_false hmode'
  have hc : (-1 : ℚ) < 0 := by norm_num
  have hw : ∀ eid, eid < g.edges.length →
      (List.replicate g.edges.length (1 : ℚ)).getD eid 0 = 1 :=
    fun eid h => getD_replicate_one _ _ h
  have hdj := djLoop_spec_unit g mode (List.replicate g.edges.length 1) hw
    (-1) hc vids 0 (fun _ => 0) (fun _ => 0) false 0 0 []
    (fun v => Nat.le_refl 0)
  have hun := unwLoop_spec_neg g mode (-1) (fun _ => false) hc
    (fun j => rfl) vids 0 (fun _ => 0) false 0 0 []
    (fun v => Nat.le_refl 0)
  have hlenF : ((List.replicate g.edges.length (1 : ℚ)).length ≠
      g.edges.length) = False := by simp
  simp only [igraph_closeness, igraph_closeness_estimate,
    igraph_i_closeness_estimate_weighted, hcondF, hlenF, if_false, hun]
  by_cases hnil : g.edges.length = 0
  · have hrepl : List.replicate g.edges.length (1 : ℚ) = [] := by
      rw [hnil]; rfl
    rw [hrepl] at hdj
    have hmin : (igraph_vector_min ([] : List ℚ)).1 = none := rfl
    simp only [hrepl, hmin, hdj]
  · have hne : List.replicate g.edges.length (1 : ℚ) ≠ [] := by
      intro hcon
      apply hnil
      have := congrArg List.length hcon
      simpa using this
    have hmin : (igraph_vector_min
        (List.replicate g.edges.length (1 : ℚ))).1 = some 1 :=
      vector_min_ones _ (fun x hx => List.eq_of_mem_replicate hx) hne
    have h10F : ((1 : ℚ) ≤ 0) = False := by norm_num
    have hepsF : ((1 : ℚ) ≤ IGRAPH_SHORTEST_PATH_EPSILON) = False :=
      eq_false (not_le.mpr eps_lt_one)
    simp only [hmin, h10F, hepsF, if_false, hdj]

theorem claim_C6_witness :
    ((3 : Nat) = 1 ∨ (3 : Nat) = 2 ∨ (3 : Nat) = 3) ∧
    igraph_closeness pathG [1] 3
        (some (List.replicate pathG.edges.length 1)) true (fun _ => false) =
      igraph_closeness pathG [1] 3 none true (fun _ => false) :=
  ⟨by decide, claim_C6 pathG [1] 3 true (by decide)⟩

/-- C7: the disconnected-graph warning is latched and emitted at most once
per call, whichever engine runs; on the two-component graph it is emitted
exactly once for every non-empty vertex subset with no cutoff. -/
theorem claim_C7 :
    (∀ (g : Graph) (vids : List (Fin g.n)) (mode : Nat) (cutoff : ℚ)
       (weights : Option (List ℚ)) (norm : Bool) (intr : Nat → Bool)
       (out : COut),
       igraph_closeness_estimate g vids mode cutoff weights norm intr =
         .ok out → out.dwarn ≤ 1) ∧
    (∀ vids : List (Fin twoCompG.n), vids ≠ [] →
       ∃ out, igraph_closeness_estimate twoCompG vids 3 (-1) none true
         (fun _ => false) = .ok out ∧ out.dwarn = 1) := by
  constructor
  · intro g vids mode cutoff weights norm intr out h
    cases weights with
    | none =>
      simp only [igraph_closeness_estimate] at h
      by_cases hmode : mode ≠ 1 ∧ mode ≠ 2 ∧ mode ≠ 3
      · rw [if_pos hmode] at h
        exact absurd h (by simp)
      · rw [if_neg hmode] at h
        cases hu : unwLoop g mode cutoff intr vids 0 (fun _ => 0)
            false 0 0 [] with
        | error e =>
          rw [hu] at h
          exact absurd h (by simp)
        | ok p =>
          obtain ⟨res, dw⟩ := p
          rw [hu] at h
          simp only [Except.ok.injEq] at h
          rw [← h]
          have := unwLoop_dwarn_le g mode cutoff intr vids 0 (fun _ => 0)
            false 0 0 [] res dw hu
          simpa using this
    | some w =>
      simp only [igraph_closeness_estimate,
        igraph_i_closeness_estimate_weighted] at h
      by_cases hlen : w.length ≠ g.edges.length
      · rw [if_pos hlen] at h
        exact absurd h (by simp)
      · rw [if_neg hlen] at h
        have hbound := djLoop_dwarn_le g mode cutoff w vids 0 (fun _ => 0)
          (fun _ => 0) false 0 0 []
        cases hmin : (igraph_vector_min w).1 with
        | none =>
          rw [hmin] at h
          simp only at h
          by_cases hmode : mode ≠ 1 ∧ mode ≠ 2 ∧ mode ≠ 3
          · rw [if_pos hmode] at h
            exact absurd h (by simp)
          · rw [if_neg hmode] at h
            simp only [Except.ok.injEq] at h
            rw [← h]
            simpa using hbound
        | some m =>
          rw [hmin] at h
          simp only at h
          by_cases hm0 : m ≤ 0
          · rw [if_pos hm0] at h
            exact absurd h (by simp)
          · rw [if_neg hm0] at h
            by_cases hmode : mode ≠ 1 ∧ mode ≠ 2 ∧ mode ≠ 3
            · rw [if_pos hmode] at h
              exact absurd h (by simp)
            · rw [if_neg hmode] at h
              simp only [Except.ok.injEq] at h
              rw [← h]
              simpa using hbound
  · intro vids hne
    have hcard : ∀ s : Fin twoCompG.n,
        (reachSet twoCompG 3 s (-1)).card < twoCompG.n := by decide
    have hR := unwLoop_spec_neg twoCompG 3 (-1) (fun _ => false)
      (by norm_num) (fun j => rfl) vids 0 (fun _ => 0) false 0 0 []
      (fun v => Nat.le_refl 0)
    obtain ⟨s0, hs0⟩ := List.exists_mem_of_ne_nil vids hne
    have hP : ((false = false) ∧
        ∃ s ∈ vids, (reachSet twoCompG 3 s (-1)).card < twoCompG.n) :=
      ⟨rfl, s0, hs0, hcard s0⟩
    refine ⟨⟨postNormalize twoCompG.n true
      ([] ++ vids.map fun s => idealScore twoCompG 3 s (-1)), 0 + 1, 0⟩,
      ?_, rfl⟩
    simp only [igraph_closeness_estimate]
    rw [if_neg (by decide), hR]
    rw [if_pos hP]

theorem claim_C7_witness :
    ((⟨[some (3 / 4)], 0, 0⟩ : COut).dwarn ≤ 1) ∧
    (([0] : List (Fin twoCompG.n)) ≠ []) ∧
    (∃ out, igraph_closeness_estimate twoCompG [0] 3 (-1) none true
      (fun _ => false) = .ok out ∧ out.dwarn = 1) :=
  ⟨claim_C7.1 pathG [1] 3 (-1) none true (fun _ => false)
     ⟨[some (3 / 4)], 0, 0⟩ (by decide),
   by decide,
   claim_C7.2 [0] (by decide)⟩

/-- C8: on a single-vertex graph both engines succeed and produce the
not-a-number score (the none of the model) coming from the finisher's 0/0;
the raw sum vanishes exactly when the graph has one vertex, for both
engines, and the finisher produces the non-finite value exactly when the
raw sum is zero. -/
theorem claim_C8 :
    (∀ g : Graph, g.n = 1 →
      ∀ (vids : List (Fin g.n)) (mode : Nat) (cutoff : ℚ) (norm : Bool),
        (mode = 1 ∨ mode = 2 ∨ mode = 3) →
        igraph_closeness_estimate g vids mode cutoff none norm
            (fun _ => false) =
          .ok ⟨vids.map fun _ => none, 0, 0⟩ ∧
        (∀ w : List ℚ, w.length = g.edges.length → (∀ x ∈ w, 0 < x) →
          ∃ out, igraph_closeness_estimate g vids mode cutoff (some w) norm
            (fun _ => false) = .ok out ∧
            out.res = (vids.map fun _ => none) ∧ out.dwarn = 0)) ∧
    (∀ (g : Graph) (mode : Nat) (cutoff : ℚ) (i : Nat) (m : Fin g.n → Nat)
       (s : Fin g.n) (last : Nat), (∀ v, ¬ m v = i + 1) →
       (bfsRawSum g mode cutoff i m s last = 0 ↔ g.n = 1)) ∧
    (∀ (g : Graph) (mode : Nat) (w : List ℚ) (cutoff minw : ℚ),
       0 < minw → (∀ eid, eid < g.edges.length → minw ≤ w.getD eid 0) →
       ∀ (i : Nat) (wh : Fin g.n → Nat) (ds : Fin g.n → ℚ) (s : Fin g.n)
         (mind0 : ℚ),
         (djRawSum g mode w cutoff i wh ds s mind0 = 0 ↔ g.n = 1)) ∧
    (∀ (n : Nat) (r : ℚ), finishScore n r = none ↔ r = 0) := by
  refine ⟨?_, ?_, ?_, ?_⟩
  · intro g hn vids mode cutoff norm hmode
    have hmode' : ¬ (mode ≠ 1 ∧ mode ≠ 2 ∧ mode ≠ 3) := by
      rcases hmode with h | h | h <;> simp [h]
    constructor
    · have hun := unwLoop_one g hn mode cutoff (fun _ => false)
        (fun j => rfl) vids 0 (fun _ => 0) false 0 0 []
        (fun v => Nat.le_refl 0)
      simp only [igraph_closeness_estimate]
      rw [if_neg hmode', hun]
      simp only [List.nil_append, postNormalize_none]
    · intro w hwl hwp
      have hwpos : ∀ eid, eid < g.edges.length → 0 < w.getD eid 0 := by
        intro eid hlt
        have hlt2 : eid < w.length := by rw [hwl]; exact hlt
        exact hwp _ (getD_mem_of_lt w eid 0 hlt2)
      have hdj := djLoop_one g hn mode w cutoff hwpos vids 0 (fun _ => 0)
        (fun _ => 0) false 0 0 []
      have hlen : ¬ (w.length ≠ g.edges.length) := by rw [hwl]; simp
      simp only [igraph_closeness_estimate,
        igraph_i_closeness_estimate_weighted]
      rw [if_neg hlen]
      cases hmin : (igraph_vector_min w).1 with
      | none =>
        simp only [if_neg hmode', hdj]
        exact ⟨_, rfl, by
          simp only [List.nil_append, postNormalize_none], rfl⟩
      | some m =>
        have hm := vector_min_some_spec w m hmin
        have hm0 : ¬ m ≤ 0 := not_le.mpr (hwp m hm.1)
        simp only [if_neg hm0, if_neg hmode', hdj]
        exact ⟨_, rfl, by
          simp only [List.nil_append, postNormalize_none], rfl⟩
  · intro g mode cutoff i m s last hm
    exact bfsRawSum_eq_zero_iff g mode cutoff i m hm s last
  · intro g mode w cutoff minw hminw hw i wh ds s mind0
    exact djRawSum_eq_zero_iff g mode w cutoff minw hminw hw i wh ds s mind0
  · intro n r
    by_cases h : r = 0 <;> simp [finishScore, h]

theorem claim_C8_witness :
    igraph_closeness_estimate oneG [0] 3 (-1) none true (fun _ => false) =
      .ok ⟨[none], 0, 0⟩ ∧
    (∃ out, igraph_closeness_estimate oneG [0] 3 (-1) (some []) true
      (fun _ => false) = .ok out ∧
      out.res = [none] ∧ out.dwarn = 0) ∧
    (bfsRawSum oneG 3 (-1) 0 (fun _ => 0) 0 0 = 0 ↔ oneG.n = 1) ∧
    (djRawSum oneG 3 [] (-1) 0 (fun _ => 0) (fun _ => 0) 0 0 = 0 ↔
      oneG.n = 1) :=
  ⟨(claim_C8.1 oneG rfl [0] 3 (-1) true (by decide)).1,
   (claim_C8.1 oneG rfl [0] 3 (-1) true (by decide)).2 []
     (by decide) (by intro x hx; simp at hx),
   claim_C8.2.1 oneG 3 (-1) 0 (fun _ => 0) 0 0 (fun v => by simp),
   claim_C8.2.2.1 oneG 3 [] (-1) 1 one_pos
     (by intro eid h; simp at h) 0 (fun _ => 0) (fun _ => 0) 0 0⟩

end Claims
